import Mathlib

/-!
# CoreDNS etcd backend: service records, TTL merge and `loopNodes`

A shallow embedding of `middleware/etcd/etcd.go`: the etcd node tree, the
service record, `Etcd.TTL` and `Etcd.loopNodes`, followed by the properties
proved about them.
-/

set_option autoImplicit false

namespace Etcd

/-! ## Data model -/

/-- Modelled from the spec: the service record `msg.Service`, whose declaration
(package `msg`) is not part of the sources at hand. The fields are those of the
spec's data model; `Port`, `Priority`, `Weight` and `TargetStrip` are integers,
`Ttl` is the value of an unsigned 32-bit field. -/
structure Service where
  Host : String
  Port : Int
  Priority : Int
  Weight : Int
  Text : String
  Ttl : Nat
  TargetStrip : Int
  Key : String
  deriving DecidableEq, Repr

/-- The zero value of a service record (`new(msg.Service)`, or the fields a
composite literal leaves out). -/
def Service.zero : Service :=
  { Host := "", Port := 0, Priority := 0, Weight := 0, Text := "", Ttl := 0,
    TargetStrip := 0, Key := "" }

/-- An etcd node (`etcdc.Node`), with the fields the backend reads: `TTL` is a
signed 64-bit integer, `Nodes` the children of a directory. -/
inductive Node where
  | mk (Key : String) (Value : String) (Dir : Bool) (TTL : Int) (Nodes : List Node)

namespace Node

/-- Field `Key`. -/
def Key : Node → String
  | mk k _ _ _ _ => k

/-- Field `Value`. -/
def Value : Node → String
  | mk _ v _ _ _ => v

/-- Field `Dir`. -/
def Dir : Node → Bool
  | mk _ _ d _ _ => d

/-- Field `TTL`. -/
def TTL : Node → Int
  | mk _ _ _ t _ => t

/-- Field `Nodes`. -/
def Nodes : Node → List Node
  | mk _ _ _ _ ns => ns

end Node

/-! ## Constants -/

/-- Default priority when nothing is set. -/
def priority : Int := 10

/-- Default ttl when nothing is set. -/
def ttl : Nat := 300

/-- The constant `minTTL`. -/
def minTTL : Nat := 60

/-! ## `Etcd.TTL` -/

/-- The conversion `uint32(node.TTL)` of a signed 64-bit value: the value modulo `2^32`. -/
def etcdTTL (node : Node) : Nat := (node.TTL % (2 ^ 32 : Int)).toNat

/-- The method `Etcd.TTL`: the smaller of the etcd TTL and the service's TTL, with a
default when neither is set. Only `serv.Ttl` is read from the service. -/
def TTL (node : Node) (serv : Service) : Nat :=
  if etcdTTL node = 0 ∧ serv.Ttl = 0 then ttl
  else if etcdTTL node = 0 then serv.Ttl
  else if serv.Ttl = 0 then etcdTTL node
  else if etcdTTL node < serv.Ttl then etcdTTL node
  else serv.Ttl

/-! ## `Etcd.loopNodes` -/

/-- The call `strings.Split(s, "/")` on the characters of `s`: `cur` holds the characters
of the segment being read, in reverse. -/
def splitSlashAux : List Char → List Char → List String
  | [], cur => [String.mk cur.reverse]
  | c :: cs, cur =>
    if c = '/' then String.mk cur.reverse :: splitSlashAux cs []
    else splitSlashAux cs (c :: cur)

/-- The call `strings.Split(s, "/")`: never empty; the empty string gives one empty segment. -/
def splitSlash (s : String) : List String := splitSlashAux s.data []

/-- The inner loop of `loopNodes` (`for i, n := range nameParts`), from index
`i` on: `false` stands for `continue Nodes` (the node is skipped), `true` for
running off the end of `nameParts`. -/
def matchFrom (keyParts : List String) : List String → Nat → Bool
  | [], _ => true
  | n :: rest, i =>
    if (i : Int) > (keyParts.length : Int) - 1 then false
    else if n = "*" ∨ n = "any" then matchFrom keyParts rest (i + 1)
    else if keyParts.getD i "" ≠ n then false
    else matchFrom keyParts rest (i + 1)

/-- The wildcard filter of `loopNodes` on one leaf: when `star` is false no
key is examined; when it is true the key is split on `/` and matched against
`nameParts`. -/
def passes (nameParts : List String) (star : Bool) (n : Node) : Bool :=
  if star then matchFrom (splitSlash n.Key) nameParts 0 else true

/-- The map key `b` built from a parsed record and the node's key (the fields
not listed keep their zero value). -/
def dedupKey (n : Node) (serv : Service) : Service :=
  { Service.zero with
    Host := serv.Host, Port := serv.Port, Priority := serv.Priority,
    Weight := serv.Weight, Text := serv.Text, Key := n.Key }

/-- The record appended to `sx` for a leaf: key and ttl are set, and a zero
priority is replaced by the default. -/
def emit (n : Node) (serv : Service) : Service :=
  { serv with
    Key := n.Key,
    Ttl := TTL n serv,
    Priority := if serv.Priority = 0 then priority else serv.Priority }

/-- What a run of the loop leaves behind: the returned pair `(sx, err)` and
the contents of the shared map `bx`. -/
structure LoopResult where
  sx : List Service
  err : Option String
  bx : List Service
  deriving DecidableEq, Repr

/-- The part of the loop body of `loopNodes` that handles a leaf `n` (the
wildcard filter, the parse, the seen-set and the append), run with the services
`sx` collected so far and the keys `bx` of the seen-set. `parse` stands for
`json.Unmarshal` into a fresh record: a record or an error message. A result
with `err = some _` is a `return nil, err`; otherwise the loop goes on. -/
def visitLeaf (parse : String → Except String Service) (nameParts : List String)
    (star : Bool) (n : Node) (sx bx : List Service) : LoopResult :=
  if passes nameParts star n = false then
    { sx := sx, err := none, bx := bx }
  else
    match parse n.Value with
    | .error e => { sx := [], err := some (n.Key ++ ": " ++ e), bx := bx }
    | .ok serv =>
      if dedupKey n serv ∈ bx then
        { sx := sx, err := none, bx := bx }
      else
        { sx := sx ++ [emit n serv], err := none, bx := dedupKey n serv :: bx }

mutual
/-- One iteration of the loop body of `loopNodes` on node `n`: a directory is
handled by the recursive call on its children (an empty `sx`, the same map),
whose services are appended; a leaf by `visitLeaf`. -/
def visit (parse : String → Except String Service) (nameParts : List String)
    (star : Bool) : Node → List Service → List Service → LoopResult
  | Node.mk key value dir t nodes, sx, bx =>
    if dir then
      match loopFrom parse nameParts star nodes [] bx with
      | { sx := _, err := some e, bx := bx1 } => { sx := [], err := some e, bx := bx1 }
      | { sx := found, err := none, bx := bx1 } =>
        { sx := sx ++ found, err := none, bx := bx1 }
    else visitLeaf parse nameParts star (Node.mk key value dir t nodes) sx bx
termination_by structural n => n
/-- The loop `for _, n := range ns` of `loopNodes`, started with the services
`sx` collected so far and the seen-set `bx`; it ends with `return sx, nil`, or
with `return nil, err` as soon as an iteration fails. -/
def loopFrom (parse : String → Except String Service) (nameParts : List String)
    (star : Bool) : List Node → List Service → List Service → LoopResult
  | [], sx, bx => { sx := sx, err := none, bx := bx }
  | n :: rest, sx, bx =>
    match visit parse nameParts star n sx bx with
    | { sx := _, err := some e, bx := bx1 } => { sx := [], err := some e, bx := bx1 }
    | { sx := sx1, err := none, bx := bx1 } => loopFrom parse nameParts star rest sx1 bx1
termination_by structural ns => ns
end

/-- The method `Etcd.loopNodes(ns, nameParts, star, bx)`: a nil map is replaced by an
empty one, so `bx` is the list of keys the map holds on entry (`[]` for nil). -/
def loopNodes (parse : String → Except String Service) (ns : List Node)
    (nameParts : List String) (star : Bool) (bx : List Service) : LoopResult :=
  loopFrom parse nameParts star ns [] bx

/-! ## `Etcd.Records` -/

/-- The method `Etcd.Records(name, exact)`, returning the pair `(services, err)`.
The helpers of package `msg` and the etcd client are parameters:
`pathWithWildcard name prefix` stands for `msg.PathWithWildcard(name, e.PathPrefix)`,
`path name prefix` for `msg.Path(name, e.PathPrefix)`, and `get p recursive` for
`e.Get(p, recursive)`, which gives the node of the response or an error. -/
def Records (parse : String → Except String Service)
    (pathWithWildcard : String → String → String × Bool) (path : String → String → String)
    (get : String → Bool → Except String Node) (PathPrefix : String)
    (name : String) (exact : Bool) : List Service × Option String :=
  match get (pathWithWildcard name PathPrefix).1 true with
  | .error e => ([], some e)
  | .ok node =>
    if exact = true ∧ node.Dir = true then ([], none)
    else if node.Dir = true then
      ((loopNodes parse node.Nodes (splitSlash (path name PathPrefix))
          (pathWithWildcard name PathPrefix).2 []).sx,
       (loopNodes parse node.Nodes (splitSlash (path name PathPrefix))
          (pathWithWildcard name PathPrefix).2 []).err)
    else
      ((loopNodes parse [node] (splitSlash (path name PathPrefix)) false []).sx,
       (loopNodes parse [node] (splitSlash (path name PathPrefix)) false []).err)

/-! ## Notions of the specification -/

/-- The TTL merge rule in the words of the specification: the minimum of the
backend-storage TTL and the service record's TTL, where zero means unset; the
system default when both are unset. -/
def mergeRule (backend service : Nat) : Nat :=
  if backend = 0 then (if service = 0 then 300 else service)
  else if service = 0 then backend
  else min backend service

/-- Two service records are equal on `(host, port, priority, weight, text, key)`. -/
def sameTuple (a b : Service) : Prop :=
  a.Host = b.Host ∧ a.Port = b.Port ∧ a.Priority = b.Priority ∧ a.Weight = b.Weight
    ∧ a.Text = b.Text ∧ a.Key = b.Key

instance (a b : Service) : Decidable (sameTuple a b) := by
  unfold sameTuple; infer_instance

/-- A segment of a name is one of the two wildcard literals. -/
def isWild (s : String) : Prop := s = "*" ∨ s = "any"

instance (s : String) : Decidable (isWild s) := by
  unfold isWild; infer_instance

/-- Case folding of a segment (ASCII and Unicode lower case of every character). -/
def foldCase (s : String) : String := String.mk (s.data.map Char.toLower)

/-- The wildcard match in the words of the specification: the segments of the
name and of the key are aligned element-wise, and every name segment is a
wildcard or equals the key segment at its position after case folding. -/
def specMatch (nameParts keyParts : List String) : Bool :=
  (List.zip nameParts keyParts).all
    (fun p => decide (isWild p.1) || decide (foldCase p.1 = foldCase p.2))

/-- The match the loop computes, stated by positions: the name has no more
segments than the key, and every name segment is a wildcard or is, byte for
byte, the key segment at its position. -/
def prefixMatch (nameParts keyParts : List String) : Prop :=
  nameParts.length ≤ keyParts.length ∧
    ∀ i, (h : i < nameParts.length) → isWild nameParts[i] ∨ keyParts[i]? = some nameParts[i]

instance (nameParts keyParts : List String) : Decidable (prefixMatch nameParts keyParts) := by
  unfold prefixMatch; infer_instance

/-- Two names differ only by exchanging the wildcard literals for each other. -/
def wildEquiv (a b : String) : Prop := a = b ∨ (isWild a ∧ isWild b)

/-- A stand-in for `json.Unmarshal` on a few fixed values, for the examples:
`host=H` gives a record with that host alone, `host=H;priority=10` one with
priority 10 as well; anything else is rejected. -/
def sampleParse (s : String) : Except String Service :=
  if s = "host=10.0.0.1" then .ok { Service.zero with Host := "10.0.0.1" }
  else if s = "host=10.0.0.2" then .ok { Service.zero with Host := "10.0.0.2" }
  else if s = "host=10.0.0.1;priority=10" then
    .ok { Service.zero with Host := "10.0.0.1", Priority := 10 }
  else .error "invalid character"

/-- The record a leaf gives when its value parses. -/
def emitted (parse : String → Except String Service) (n : Node) : Option Service :=
  match parse n.Value with
  | .ok serv => some (emit n serv)
  | .error _ => none

/-- The records of a list of leaves without key filtering, in the words of the
specification: in order, one record for each leaf whose value parses, except a
leaf whose `(host, port, priority, weight, text, key)` as stored is that of a
leaf met before; `earlier` holds these tuples for the leaves met so far. -/
def firstRecords (parse : String → Except String Service) :
    List Node → List Service → List Service
  | [], _ => []
  | n :: rest, earlier =>
    match parse n.Value with
    | .error _ => firstRecords parse rest earlier
    | .ok serv =>
      if dedupKey n serv ∈ earlier then
        firstRecords parse rest (dedupKey n serv :: earlier)
      else emit n serv :: firstRecords parse rest (dedupKey n serv :: earlier)

/-! ## Auxiliary notions for the proofs -/

mutual
/-- The leaves below a node, in the order the loop visits them. -/
def leavesOf : Node → List Node
  | Node.mk key value dir t nodes =>
    if dir then leaves nodes else [Node.mk key value dir t nodes]
termination_by structural n => n
/-- The leaves of a list of trees, in the order the loop visits them. -/
def leaves : List Node → List Node
  | [] => []
  | n :: rest => leavesOf n ++ leaves rest
termination_by structural ns => ns
end

/-- The loop of `loopNodes` run over a plain list of leaves. -/
def leafLoop (parse : String → Except String Service) (nameParts : List String)
    (star : Bool) : List Node → List Service → List Service → LoopResult
  | [], sx, bx => { sx := sx, err := none, bx := bx }
  | n :: rest, sx, bx =>
    match visitLeaf parse nameParts star n sx bx with
    | { sx := _, err := some e, bx := bx1 } => { sx := [], err := some e, bx := bx1 }
    | { sx := sx1, err := none, bx := bx1 } => leafLoop parse nameParts star rest sx1 bx1

/-- Put `sx` in front of the services of a result that is not an error. -/
def LoopResult.prepend (sx : List Service) (r : LoopResult) : LoopResult :=
  match r with
  | { sx := _, err := some e, bx := bx1 } => { sx := [], err := some e, bx := bx1 }
  | { sx := found, err := none, bx := bx1 } => { sx := sx ++ found, err := none, bx := bx1 }

end Etcd

/-!
# Kubernetes name templates

A shallow embedding of `middleware/kubernetes/nametemplate/nametemplate.go`.
-/

namespace Nametemplate

/-- The call `strings.Split(s, ".")` on the characters of `s`: `cur` holds the
characters of the segment being read, in reverse. -/
def splitDotAux : List Char → List Char → List String
  | [], cur => [String.mk cur.reverse]
  | c :: cs, cur =>
    if c = '.' then String.mk cur.reverse :: splitDotAux cs []
    else splitDotAux cs (c :: cur)

/-- The call `strings.Split(s, ".")`: never empty; the empty string gives one
empty segment. -/
def splitDot (s : String) : List String := splitDotAux s.data []

/-- The table `symbols`: element name and the symbol that stands for it. -/
def symbols : List (String × String) :=
  [("service", "\x7bservice\x7d"), ("namespace", "\x7bnamespace\x7d"),
   ("type", "\x7btype\x7d"), ("zone", "\x7bzone\x7d")]

/-- The list `types`. -/
def types : List String := ["svc", "pod"]

/-- The list `requiredSymbols`. -/
def requiredSymbols : List String := ["namespace", "service"]

/-- A Go `map[string]int` as an association list with at most one entry per
key: `m[k] = v`. -/
def mapSet (m : List (String × Nat)) (k : String) (v : Nat) : List (String × Nat) :=
  (k, v) :: m.filter (fun e => decide (e.1 ≠ k))

/-- The lookup `v, ok := m[k]` in such a map: `none` when there is no entry. -/
def mapGet (m : List (String × Nat)) (k : String) : Option Nat :=
  (m.find? (fun e => decide (e.1 = k))).map (fun e => e.2)

/-- The type `NameTemplate`. -/
structure NameTemplate where
  formatString : String
  splitFormat : List String
  Element : List (String × Nat)
  deriving DecidableEq, Repr

/-- The call `strings.Contains(v, "\x7b")`. -/
def containsBrace (v : String) : Bool := decide ('\x7b' ∈ v.data)

/-- The inner loop of `SetTemplate` over the table `symbols`: the entry whose
symbol is `v`, if there is one (the symbols are pairwise different, so the order
in which the table is walked does not matter). -/
def findSymbol (v : String) : Option (String × String) :=
  symbols.find? (fun e => decide (v = e.2))

/-- The loop `for templateIndex, v := range t.splitFormat` of `SetTemplate`,
from index `templateIndex` on, with the map `Element` built so far: the map on
leaving the loop, and the error of the early return, if any. -/
def setLoop : List String → Nat → List (String × Nat) → List (String × Nat) × Option String
  | [], _, el => (el, none)
  | v :: rest, templateIndex, el =>
    match findSymbol v with
    | some e => setLoop rest (templateIndex + 1) (mapSet el e.1 templateIndex)
    | none =>
      if containsBrace v = true then
        (el, some ("Record name template contains the unknown symbol \x27" ++ v ++ "\x27"))
      else setLoop rest (templateIndex + 1) el

/-- The method `IsValid`: all `requiredSymbols` have an entry in `Element`. -/
def IsValid (t : NameTemplate) : Bool :=
  requiredSymbols.all (fun symbol => (mapGet t.Element symbol).isSome)

/-- The method `SetTemplate(s)`: the template after the call and the error
returned (`none` for nil). The receiver is written also when an error is
returned. -/
def SetTemplate (t : NameTemplate) (s : String) : NameTemplate × Option String :=
  match setLoop (splitDot s) 0 [] with
  | (el, some e) =>
    ({ t with Element := el, formatString := s, splitFormat := splitDot s }, some e)
  | (el, none) =>
    if IsValid { t with Element := el, formatString := s, splitFormat := splitDot s } = false then
      ({ t with Element := el, formatString := s, splitFormat := splitDot s },
        some "Record name template does not pass NameTemplate validation")
    else ({ t with Element := el, formatString := s, splitFormat := splitDot s }, none)

/-- The zero value of a template (`new(NameTemplate)`). -/
def NameTemplate.zero : NameTemplate :=
  { formatString := "", splitFormat := [], Element := [] }

/-! ## The getters -/

/-- The call `strings.Join(a, ".")`. -/
def joinDot : List String → String
  | [] => ""
  | [x] => x
  | x :: y :: rest => x ++ "." ++ joinDot (y :: rest)

/-- The method `GetSymbolFromSegmentArray(symbol, segments)`; `none` stands for
the panic of an index out of range. -/
def GetSymbolFromSegmentArray (t : NameTemplate) (symbol : String) (segments : List String) :
    Option String :=
  match mapGet t.Element symbol with
  | none => some ""
  | some index => segments[index]?

/-- The method `GetZoneFromSegmentArray(segments)`; `none` stands for the panic
of a slice bound out of range. -/
def GetZoneFromSegmentArray (t : NameTemplate) (segments : List String) : Option String :=
  match mapGet t.Element "zone" with
  | none => some ""
  | some index =>
    if index ≤ segments.length then some (joinDot (segments.drop index)) else none

/-- The method `GetNamespaceFromSegmentArray(segments)`. -/
def GetNamespaceFromSegmentArray (t : NameTemplate) (segments : List String) : Option String :=
  GetSymbolFromSegmentArray t "namespace" segments

/-- The method `GetServiceFromSegmentArray(segments)`. -/
def GetServiceFromSegmentArray (t : NameTemplate) (segments : List String) : Option String :=
  GetSymbolFromSegmentArray t "service" segments

/-- Modelled from the spec: the helper `util.StringInSlice(a, slice)`, declared
outside the sources at hand; by its name and its use, whether `a` is one of the
strings of `slice`. -/
def StringInSlice (a : String) (slice : List String) : Bool := decide (a ∈ slice)

/-- The method `GetTypeFromSegmentArray(segments)`. -/
def GetTypeFromSegmentArray (t : NameTemplate) (segments : List String) : Option String :=
  match GetSymbolFromSegmentArray t "type" segments with
  | none => none
  | some typeSegment =>
    if StringInSlice typeSegment types = true then some "" else some typeSegment

/-- The type `NameValues`. -/
structure NameValues where
  ServiceName : String
  Namespace : String
  TypeName : String
  Zone : String
  deriving DecidableEq, Repr

/-- The value the `switch` of `GetRecordNameFromNameValues` writes for an
element name, if it writes one. -/
def valueOf (values : NameValues) (name : String) : Option String :=
  if name = "type" then some values.TypeName
  else if name = "service" then some values.ServiceName
  else if name = "namespace" then some values.Namespace
  else if name = "zone" then some values.Zone
  else none

/-- One iteration of the loop `for name, index := range t.Element` of
`GetRecordNameFromNameValues` (an index is never `-1` here, indexes being
natural numbers); `none` stands for the panic of an index out of range. -/
def applyEntry (values : NameValues) (recordName : List String) (e : String × Nat) :
    Option (List String) :=
  match valueOf values e.1 with
  | none => some recordName
  | some v => if e.2 < recordName.length then some (recordName.set e.2 v) else none

/-- The loop `for name, index := range t.Element`, over the entries in the
order given. -/
def applyElement (values : NameValues) : List (String × Nat) → List String → Option (List String)
  | [], recordName => some recordName
  | e :: rest, recordName =>
    match applyEntry values recordName e with
    | none => none
    | some recordName' => applyElement values rest recordName'

/-- The method `GetRecordNameFromNameValues(values)`. -/
def GetRecordNameFromNameValues (t : NameTemplate) (values : NameValues) : Option String :=
  (applyElement values t.Element t.splitFormat).map joinDot

/-! ## Notions of the specification -/

/-- The segment that stands for a segment of the template once the values are
applied, in the words of the specification: a symbol gives the value of its
element, any other segment is kept. -/
def substitute (values : NameValues) (v : String) : String :=
  if v = "\x7bservice\x7d" then values.ServiceName
  else if v = "\x7bnamespace\x7d" then values.Namespace
  else if v = "\x7btype\x7d" then values.TypeName
  else if v = "\x7bzone\x7d" then values.Zone
  else v

/-- The segments of a template with the values applied to the last occurrence
of every symbol: a segment that occurs again further on is kept as it is
written, every other segment is replaced as `substitute` says. -/
def applyLast (values : NameValues) : List String → List String
  | [] => []
  | v :: rest => (if v ∈ rest then v else substitute values v) :: applyLast values rest

/-- Every symbol is at most one segment of the template. -/
def symbolsOnce (segs : List String) : Prop :=
  ∀ sym ∈ symbols.map Prod.snd, segs.count sym ≤ 1

instance (segs : List String) : Decidable (symbolsOnce segs) := by
  unfold symbolsOnce; infer_instance

/-- The template has no segment with an opening brace other than the symbols. -/
def knownOnly (segs : List String) : Prop :=
  ∀ v ∈ segs, containsBrace v = true → v ∈ symbols.map Prod.snd

instance (segs : List String) : Decidable (knownOnly segs) := by
  unfold knownOnly; infer_instance

/-- The string has no dot. -/
def dotFree (v : String) : Prop := '.' ∉ v.data

instance (v : String) : Decidable (dotFree v) := by
  unfold dotFree; infer_instance

/-! ## Auxiliary notions for the proofs -/

/-- The last position of `sym` among the segments, counted from `idx`. -/
def lastIndexFrom (sym : String) : List String → Nat → Option Nat
  | [], _ => none
  | v :: rest, idx =>
    match lastIndexFrom sym rest (idx + 1) with
    | some i => some i
    | none => if v = sym then some idx else none

end Nametemplate

/-!
# The default name server record of the Kubernetes middleware

A shallow embedding of `defaultNSMsg` and `isDefaultNS` of
`middleware/kubernetes/ns.go`.
-/

namespace Kubernetes

/-- The constant `defaultNSName`. -/
def defaultNSName : String := "ns.dns."

/-- The type `recordRequest`, declared outside the sources at hand, reduced to
the field `zone` that `ns.go` reads. -/
structure recordRequest where
  zone : String
  deriving DecidableEq, Repr

/-- The record `dns.A` that `coreDNSRecord` returns, reduced to the name of its
header and the textual form `A.String()` of its address. -/
structure dnsA where
  HdrName : String
  A : String
  deriving DecidableEq, Repr

/-- Whether the characters `sub` start the characters `s`. -/
def startsWith : List Char → List Char → Bool
  | [], _ => true
  | _ :: _, [] => false
  | a :: sub, b :: s => decide (a = b) && startsWith sub s

/-- The search of `strings.Index` from position `i` on: the position of the
first occurrence of `sub` in what is left of the string, or `-1`. -/
def indexFrom (sub : List Char) : List Char → Nat → Int
  | [], i => if sub = [] then (i : Int) else -1
  | c :: cs, i => if startsWith sub (c :: cs) = true then (i : Int) else indexFrom sub cs (i + 1)

/-- The call `strings.Index(s, substr)`. Positions are counted in characters;
`isDefaultNS` compares them with positions inside the ASCII text `ns.dns.`,
where characters and bytes agree. -/
def Index (s substr : String) : Int := indexFrom substr.data s.data 0

/-- The call `strings.Join(a, sep)`. -/
def Join : List String → String → String
  | [], _ => ""
  | [x], _ => x
  | x :: y :: rest, sep => x ++ sep ++ Join (y :: rest) sep

/-- The function `isDefaultNS(name, r)`. -/
def isDefaultNS (name : String) (r : recordRequest) : Bool :=
  decide (Index name defaultNSName = 0) &&
    decide (Index name r.zone = (defaultNSName.length : Int))

/-- The method `defaultNSMsg(r)`. `path` stands for `msg.Path` and `ns` for the
record that `k.coreDNSRecord()` returns. -/
def defaultNSMsg (path : String → String → String) (ns : dnsA) (r : recordRequest) :
    Etcd.Service :=
  { Etcd.Service.zero with
    Key := path (Join [defaultNSName, r.zone] ".") "coredns",
    Host := ns.A }

/-- The labels of a domain name that are not empty. `dns.SplitDomainName` cuts
the name at its dots, a dot at the end starting no label (dots written with a
backslash are not modelled); `path.Join` then leaves the empty pieces out. -/
def labels (s : String) : List String :=
  (Nametemplate.splitDot s).filter (fun l => decide (l ≠ ""))

/-- Modelled from the spec: the function `msg.Path(s, prefix)`, declared
outside the sources at hand: `path.Join` of the prefix between slashes and the
labels of the name `s` in reverse order, as in the keys the comment of
`etcd.go` shows (`skydns/local/skydns/east/staging/web`). `path.Join` leaves
out empty elements, joins the others with a slash and cleans the result;
`clean` stands for `path.Clean`, and `pfx` is the prefix. -/
def Path (clean : String → String) (s pfx : String) : String :=
  clean (Join (("/" ++ pfx ++ "/") :: (labels s).reverse) "/")

/-- The zone occurs in the name `ns.dns.` followed by the zone at a position
before the one the name puts it at. -/
def occursBefore (zone : String) : Bool :=
  (List.range defaultNSName.length).any
    (fun j => startsWith zone.data ((defaultNSName ++ zone).data.drop j))

end Kubernetes

/-!
# The lookup proxy

A shallow embedding of `middleware/proxy/lookup.go`: the hosts of an upstream,
the predicate `CheckDown` that `New` installs, and `Proxy.lookup` as a loop over
a shared pool of hosts, driven by what the outside world does (the clock, the
choice of `Select`, the outcome of each exchange, the goroutines that wake up).
-/

namespace ProxyLookup

/-! ## Data model -/

/-- The value an `int32` holds after an addition: wrap-around in 32 bits,
two's complement (`atomic.AddInt32`). -/
def wrapInt32 (x : Int) : Int := (x + 2147483648) % 4294967296 - 2147483648

/-- The value an `int64` holds after an addition (`atomic.AddInt64`). -/
def wrapInt64 (x : Int) : Int :=
  (x + 9223372036854775808) % 18446744073709551616 - 9223372036854775808

/-- One second as a `time.Duration` (nanoseconds). -/
def second : Int := 1000000000

/-- Modelled from the spec: the constant `tryDuration`, declared outside the
sources at hand; the spec gives the default of 60 seconds. -/
def tryDuration : Int := 60 * second

/-- Errors as `Proxy.lookup` sees them: its own `errUnreachable`, or the error
of an exchange, with its text. -/
inductive Error where
  | errUnreachable
  | exchange (text : String)
  deriving DecidableEq, Repr

/-- A DNS message (`dns.Msg`), reduced to the truncation bit and an answer. -/
structure Msg where
  Truncated : Bool
  Answer : List String
  deriving DecidableEq, Repr

/-- Modelled from the spec: the type `UpstreamHost`, declared outside the
sources at hand, with the fields `New` sets and `lookup` reads or writes:
`Conns` is a 64-bit and `Fails` a 32-bit signed counter, `FailTimeout` a
duration in nanoseconds. The function field `CheckDown` is kept beside the
host, as `CheckDown` below. -/
structure UpstreamHost where
  Name : String
  Conns : Int
  Fails : Int
  FailTimeout : Int
  Unhealthy : Bool
  deriving DecidableEq, Repr

/-- Modelled from the spec: the selection policies of an upstream. -/
inductive Policy where
  | Random
  | RoundRobin
  | LeastConn
  deriving DecidableEq, Repr

/-- Modelled from the spec: the type `staticUpstream`, declared outside the
sources at hand, with the fields `New` sets that bear on host selection. -/
structure staticUpstream where
  Hosts : List UpstreamHost
  Policy : Policy
  FailTimeout : Int
  MaxFails : Int
  deriving DecidableEq, Repr

/-- The type `Proxy`, reduced to its upstreams. -/
structure Proxy where
  Upstreams : List staticUpstream
  deriving DecidableEq, Repr

/-! ## `New` -/

/-- The closure `CheckDown` that `New` gives every host, for the upstream it
captures: whether host `uh` is down. -/
def CheckDown (upstream : staticUpstream) (uh : UpstreamHost) : Bool :=
  if uh.Unhealthy = true then true
  else if uh.Fails ≥ upstream.MaxFails ∧ upstream.MaxFails ≠ 0 then true
  else false

/-- The value `upstream` that `New(hosts)` builds: one host per name, the
random policy, a fail timeout of 10 seconds and `MaxFails` 1. -/
def newUpstream (hosts : List String) : staticUpstream :=
  { Hosts := hosts.map (fun host =>
      { Name := host, Conns := 0, Fails := 0, FailTimeout := 10 * second,
        Unhealthy := false }),
    Policy := Policy.Random,
    FailTimeout := 10 * second,
    MaxFails := 1 }

/-- The function `New(hosts)`. -/
def New (hosts : List String) : Proxy :=
  { Upstreams := [newUpstream hosts] }

/-! ## `Proxy.lookup` -/

/-- A goroutine started by `lookup` after a failed exchange: it sleeps for
`sleep` and then takes 1 off the fail counter of the host with index `host`. -/
structure Timer where
  host : Nat
  sleep : Int
  deriving DecidableEq, Repr

/-- The state `lookup` shares with the rest of the program: the hosts of the
upstream and the goroutines that are still asleep. -/
structure Pool where
  hosts : List UpstreamHost
  timers : List Timer
  deriving DecidableEq, Repr

/-- One exchange made by `lookup`: the iteration it was made in, the index of
the host selected, whether the TCP client was used, and what came back. -/
structure Attempt where
  iteration : Nat
  host : Nat
  tcp : Bool
  reply : Option Msg
  err : Option Error
  deriving DecidableEq, Repr

/-- What `lookup` does not decide itself. `now n` is the value of the `n`-th
call of `time.Now()` (call 0 sets `start`); `select k hosts` is the host
`upstream.Select()` returns in iteration `k`, as an index into the hosts in
their current state (`none`, or an index outside the list, for nil);
`exchange k tcp name` is what `middleware.Exchange` returns in iteration `k`
with the TCP or the UDP client for the host `name`; `wake k` lists the sleeping
goroutines (positions in the list of timers) that finish before the `Select`
of iteration `k`. -/
structure World where
  now : Nat → Int
  select : Nat → List UpstreamHost → Option Nat
  exchange : Nat → Bool → String → Option Msg × Option Error
  wake : Nat → List Nat

/-- Apply `f` to the host with index `i` (a write through the pointer). -/
def updateHost (f : UpstreamHost → UpstreamHost) : List UpstreamHost → Nat → List UpstreamHost
  | [], _ => []
  | h :: rest, 0 => f h :: rest
  | h :: rest, i + 1 => h :: updateHost f rest i

/-- The call `atomic.AddInt64(&host.Conns, d)`. -/
def addConns (d : Int) (hosts : List UpstreamHost) (i : Nat) : List UpstreamHost :=
  updateHost (fun h => { h with Conns := wrapInt64 (h.Conns + d) }) hosts i

/-- The call `atomic.AddInt32(&host.Fails, d)`. -/
def addFails (d : Int) (hosts : List UpstreamHost) (i : Nat) : List UpstreamHost :=
  updateHost (fun h => { h with Fails := wrapInt32 (h.Fails + d) }) hosts i

/-- The end of the goroutine at position `j` of the timers: its sleep is over,
it takes 1 off the fail counter of its host and is gone. -/
def fire (p : Pool) (j : Nat) : Pool :=
  match p.timers[j]? with
  | none => p
  | some t => { hosts := addFails (-1) p.hosts t.host, timers := p.timers.eraseIdx j }

/-- The goroutines at the given positions finish, one after the other. -/
def fireAll (p : Pool) (js : List Nat) : Pool := js.foldl fire p

/-- What one iteration of the retry loop leaves: either `lookup` returns
`(reply, err)`, or the loop goes on; in both cases the pool as it is then and
the exchange made, if one was made. -/
inductive Step where
  | ret (reply : Option Msg) (err : Option Error) (pool : Pool) (made : Option Attempt)
  | next (pool : Pool) (made : Attempt)

/-- Iteration `k` of the loop `for time.Now().Sub(start) < tryDuration`, the
test of the loop included. `proto` is `state.Proto()`. -/
def step (w : World) (proto : String) (start : Int) (k : Nat) (p : Pool) : Step :=
  if w.now k - start < tryDuration then
    match w.select k (fireAll p (w.wake k)).hosts with
    | none => Step.ret none (some Error.errUnreachable) (fireAll p (w.wake k)) none
    | some i =>
      match (fireAll p (w.wake k)).hosts[i]? with
      | none => Step.ret none (some Error.errUnreachable) (fireAll p (w.wake k)) none
      | some host =>
        match w.exchange k (decide (proto = "tcp")) host.Name with
        | (reply, none) =>
          Step.ret reply none
            { hosts := addConns (-1) (addConns 1 (fireAll p (w.wake k)).hosts i) i,
              timers := (fireAll p (w.wake k)).timers }
            (some { iteration := k, host := i, tcp := decide (proto = "tcp"),
                    reply := reply, err := none })
        | (reply, some e) =>
          Step.next
            { hosts := addFails 1
                (addConns (-1) (addConns 1 (fireAll p (w.wake k)).hosts i) i) i,
              timers := (fireAll p (w.wake k)).timers ++
                [{ host := i,
                   sleep := if host.FailTimeout = 0 then 10 * second else host.FailTimeout }] }
            { iteration := k, host := i, tcp := decide (proto = "tcp"),
              reply := reply, err := some e }
  else Step.ret none (some Error.errUnreachable) (fireAll p (w.wake k)) none

/-- What a call of `lookup` leaves: the returned pair, the pool, and the
exchanges made, in order. -/
structure Run where
  reply : Option Msg
  err : Option Error
  pool : Pool
  trace : List Attempt
  deriving DecidableEq, Repr

/-- The retry loop from iteration `k` on, with the exchanges made so far;
`fuel` bounds the number of iterations run, and `none` means that the bound
was reached before the loop ended. -/
def tryLoop (w : World) (proto : String) (start : Int) :
    Nat → Nat → Pool → List Attempt → Option Run
  | 0, _, _, _ => none
  | fuel + 1, k, p, trace =>
    match step w proto start k p with
    | Step.ret reply err pool made =>
      some { reply := reply, err := err, pool := pool, trace := trace ++ made.toList }
    | Step.next pool made => tryLoop w proto start fuel (k + 1) pool (trace ++ [made])

/-- What a call of `Proxy.lookup` leaves: the returned pair, the upstreams
with their hosts, the sleeping goroutines and the exchanges made. -/
structure Outcome where
  reply : Option Msg
  err : Option Error
  Upstreams : List staticUpstream
  timers : List Timer
  trace : List Attempt
  deriving DecidableEq, Repr

/-- The method `Proxy.lookup(state, r)` on the upstreams of `p`, with the
goroutines `timers` asleep on hosts of the first upstream. The body of the
loop over the upstreams always returns, so the loop is a case distinction on
the list. -/
def lookup (w : World) (proto : String) (fuel : Nat) (p : Proxy) (timers : List Timer) :
    Option Outcome :=
  match p.Upstreams with
  | [] =>
    some { reply := none, err := some Error.errUnreachable, Upstreams := [],
           timers := timers, trace := [] }
  | upstream :: rest =>
    match tryLoop w proto (w.now 0) fuel 1 { hosts := upstream.Hosts, timers := timers } [] with
    | none => none
    | some run =>
      some { reply := run.reply, err := run.err,
             Upstreams := { upstream with Hosts := run.pool.hosts } :: rest,
             timers := run.pool.timers, trace := run.trace }

/-! ## Notions of the specification -/

/-- The number of sleeping goroutines that will take 1 off the counter of host `i`. -/
def pending (timers : List Timer) (i : Nat) : Nat :=
  (timers.filter (fun t => decide (t.host = i))).length

/-- The contract of `Select` the comment of `lookup` relies on: it returns
only hosts of the upstream that are not down. -/
def selectsUp (w : World) (upstream : staticUpstream) : Prop :=
  ∀ (k : Nat) (hosts : List UpstreamHost) (i : Nat), w.select k hosts = some i →
    ∃ h, hosts[i]? = some h ∧ CheckDown upstream h = false

/-- A `Select` for the examples: the first host of the upstream that is not down. -/
def firstUp (upstream : staticUpstream) (hosts : List UpstreamHost) : Option Nat :=
  if hosts.findIdx (fun h => !CheckDown upstream h) < hosts.length then
    some (hosts.findIdx (fun h => !CheckDown upstream h))
  else none

/-- An upstream for the examples: two hosts that are up, and a host counts as
down only after three failures. -/
def sampleUpstream : staticUpstream :=
  { Hosts :=
      [{ Name := "10.0.0.53:53", Conns := 0, Fails := 0, FailTimeout := 10 * second,
         Unhealthy := false },
       { Name := "10.0.0.54:53", Conns := 0, Fails := 0, FailTimeout := 10 * second,
         Unhealthy := false }],
    Policy := Policy.Random,
    FailTimeout := 10 * second,
    MaxFails := 3 }

/-- A world for the examples: a second passes between two readings of the
clock, `Select` takes the first host of `upstream` that is not down, no
goroutine wakes up, and an exchange over UDP gives a truncated reply without
answers, one over TCP the full reply. -/
def truncatingWorld (upstream : staticUpstream) : World :=
  { now := fun n => (n : Int) * second,
    select := fun _ hosts => firstUp upstream hosts,
    exchange := fun _ tcp _ =>
      if tcp = true then (some { Truncated := false, Answer := ["10.1.1.1"] }, none)
      else (some { Truncated := true, Answer := [] }, none),
    wake := fun _ => [] }

/-- A world for the examples: as before, but the exchange of iteration 1 times
out and every later one gives a reply naming the host asked. -/
def flakyWorld (upstream : staticUpstream) : World :=
  { now := fun n => (n : Int) * second,
    select := fun _ hosts => firstUp upstream hosts,
    exchange := fun k _ name =>
      if k ≤ 1 then (none, some (Error.exchange "i/o timeout"))
      else (some { Truncated := false, Answer := [name] }, none),
    wake := fun _ => [] }

/-- The fail counters of a pool are those of hosts that started at `f0` and
have one goroutine asleep for every failure not yet taken off: the counter of
host `i` is `f0 i` plus the number of its sleeping goroutines, in the
arithmetic of the counter. -/
def counted (f0 : Nat → Int) (p : Pool) : Prop :=
  ∀ (i : Nat) (h : UpstreamHost), p.hosts[i]? = some h →
    h.Fails = wrapInt32 (f0 i + pending p.timers i)

/-- The value fits the counter `Conns`, a signed 64-bit integer. -/
def inInt64 (x : Int) : Prop := -9223372036854775808 ≤ x ∧ x < 9223372036854775808

instance (x : Int) : Decidable (inInt64 x) := by
  unfold inInt64; infer_instance

/-- A host with its fail counter left out: the fields `lookup` is to leave as
they were when it returns. -/
def withoutFails (h : UpstreamHost) : UpstreamHost := { h with Fails := 0 }

/-- The proxy holding only the first upstream of `p`. -/
def firstOnly (p : Proxy) : Proxy := { Upstreams := p.Upstreams.take 1 }

/-- What a call of `lookup` leaves, seen from the proxy holding only the first
upstream: the returned pair, the sleeping goroutines, the exchanges made, and
the first upstream with its hosts. -/
def Outcome.first (o : Outcome) : Outcome := { o with Upstreams := o.Upstreams.take 1 }

/-- An upstream for the examples: its one host is unhealthy, so `Select` finds
no host in it. -/
def downUpstream : staticUpstream :=
  { Hosts :=
      [{ Name := "10.0.0.52:53", Conns := 0, Fails := 0, FailTimeout := 10 * second,
         Unhealthy := true }],
    Policy := Policy.Random,
    FailTimeout := 10 * second,
    MaxFails := 1 }

/-- An upstream for the examples: two hosts that are up and have connections
open, the first as many as the counter holds; a host counts as down only after
three failures. -/
def busyUpstream : staticUpstream :=
  { Hosts :=
      [{ Name := "10.0.0.53:53", Conns := 9223372036854775807, Fails := 0,
         FailTimeout := 10 * second, Unhealthy := false },
       { Name := "10.0.0.54:53", Conns := 2, Fails := 0, FailTimeout := 10 * second,
         Unhealthy := false }],
    Policy := Policy.Random,
    FailTimeout := 10 * second,
    MaxFails := 3 }

/-- The upstream of the examples with another threshold `MaxFails`. -/
def sampleWith (m : Int) : staticUpstream := { sampleUpstream with MaxFails := m }

end ProxyLookup

namespace Etcd

/-! ## The loop over a tree is the loop over its leaves -/

theorem visitLeaf_prepend (parse : String → Except String Service) (nameParts : List String)
    (star : Bool) (n : Node) (sx bx : List Service) :
    visitLeaf parse nameParts star n sx bx
      = (visitLeaf parse nameParts star n [] bx).prepend sx := by
  unfold visitLeaf
  by_cases hp : passes nameParts star n = false
  · simp [hp, LoopResult.prepend]
  · simp only [hp, if_false]
    cases parse n.Value with
    | error e => simp [LoopResult.prepend]
    | ok serv =>
      by_cases hm : dedupKey n serv ∈ bx <;> simp [hm, LoopResult.prepend]

theorem visitLeaf_err_sx (parse : String → Except String Service) (nameParts : List String)
    (star : Bool) (n : Node) (sx bx : List Service) :
    (visitLeaf parse nameParts star n sx bx).err ≠ none →
      (visitLeaf parse nameParts star n sx bx).sx = [] := by
  unfold visitLeaf
  by_cases hp : passes nameParts star n = false
  · simp [hp]
  · simp only [hp, if_false]
    cases parse n.Value with
    | error e => simp
    | ok serv => by_cases hm : dedupKey n serv ∈ bx <;> simp [hm]

theorem leafLoop_prepend (parse : String → Except String Service) (nameParts : List String)
    (star : Bool) (l : List Node) :
    ∀ sx bx : List Service,
      leafLoop parse nameParts star l sx bx
        = (leafLoop parse nameParts star l [] bx).prepend sx := by
  induction l with
  | nil => intro sx bx; simp [leafLoop, LoopResult.prepend]
  | cons n rest ih =>
    intro sx bx
    simp only [leafLoop]
    rw [visitLeaf_prepend parse nameParts star n sx bx]
    rcases visitLeaf parse nameParts star n [] bx with ⟨sx1, _ | e, bx1⟩
    · simp only [LoopResult.prepend]
      rw [ih (sx ++ sx1) bx1, ih sx1 bx1]
      rcases leafLoop parse nameParts star rest [] bx1 with ⟨sx2, _ | e2, bx2⟩
      · simp [LoopResult.prepend]
      · simp [LoopResult.prepend]
    · simp [LoopResult.prepend]

theorem leafLoop_append (parse : String → Except String Service) (nameParts : List String)
    (star : Bool) (l₁ l₂ : List Node) :
    ∀ sx bx : List Service,
      leafLoop parse nameParts star (l₁ ++ l₂) sx bx
        = match leafLoop parse nameParts star l₁ sx bx with
          | { sx := _, err := some e, bx := bx1 } => { sx := [], err := some e, bx := bx1 }
          | { sx := sx1, err := none, bx := bx1 } => leafLoop parse nameParts star l₂ sx1 bx1 := by
  induction l₁ with
  | nil => intro sx bx; simp [leafLoop]
  | cons n rest ih =>
    intro sx bx
    simp only [List.cons_append, leafLoop]
    rcases visitLeaf parse nameParts star n sx bx with ⟨sx1, _ | e, bx1⟩
    · simp only; exact ih sx1 bx1
    · simp

theorem leafLoop_err_sx (parse : String → Except String Service) (nameParts : List String)
    (star : Bool) (l : List Node) :
    ∀ sx bx : List Service,
      (leafLoop parse nameParts star l sx bx).err ≠ none →
        (leafLoop parse nameParts star l sx bx).sx = [] := by
  induction l with
  | nil => intro sx bx; simp [leafLoop]
  | cons n rest ih =>
    intro sx bx
    simp only [leafLoop]
    rcases visitLeaf parse nameParts star n sx bx with ⟨sx1, _ | e, bx1⟩
    · simp only; exact ih sx1 bx1
    · simp

mutual
theorem visit_eq_leafLoop (parse : String → Except String Service) (nameParts : List String)
    (star : Bool) : ∀ (n : Node) (sx bx : List Service),
      visit parse nameParts star n sx bx
        = leafLoop parse nameParts star (leavesOf n) sx bx
  | Node.mk key value dir t nodes, sx, bx => by
    by_cases hd : dir = true
    · subst hd
      simp only [visit, leavesOf, if_true]
      rw [loopFrom_eq_leafLoop parse nameParts star nodes [] bx,
        leafLoop_prepend parse nameParts star (leaves nodes) sx bx]
      rfl
    · have hd' : dir = false := by simpa using hd
      subst hd'
      simp only [visit, leavesOf, leafLoop]
      rcases h : visitLeaf parse nameParts star (Node.mk key value false t nodes) sx bx
        with ⟨sx1, _ | e, bx1⟩
      · simp
      · have hs := visitLeaf_err_sx parse nameParts star (Node.mk key value false t nodes) sx bx
        rw [h] at hs
        simp at hs
        simp [hs]
theorem loopFrom_eq_leafLoop (parse : String → Except String Service)
    (nameParts : List String) (star : Bool) : ∀ (ns : List Node) (sx bx : List Service),
      loopFrom parse nameParts star ns sx bx
        = leafLoop parse nameParts star (leaves ns) sx bx
  | [], sx, bx => by simp [loopFrom, leaves, leafLoop]
  | n :: rest, sx, bx => by
    simp only [loopFrom, leaves]
    rw [leafLoop_append, visit_eq_leafLoop parse nameParts star n sx bx]
    rcases leafLoop parse nameParts star (leavesOf n) sx bx with ⟨sx1, _ | e, bx1⟩
    · simp only; exact loopFrom_eq_leafLoop parse nameParts star rest sx1 bx1
    · simp
end


/-! ## The TTL merge (`Etcd.TTL`) -/

theorem etcdTTL_cast (node : Node) : (etcdTTL node : Int) = node.TTL % (2 ^ 32 : Int) := by
  unfold etcdTTL
  exact Int.toNat_of_nonneg (Int.emod_nonneg _ (by norm_num))

theorem TTL_eq_mergeRule (node : Node) (serv : Service) :
    TTL node serv = mergeRule (etcdTTL node) serv.Ttl := by
  unfold TTL mergeRule ttl
  by_cases h1 : etcdTTL node = 0 <;> by_cases h2 : serv.Ttl = 0 <;> simp [h1, h2]
  by_cases h3 : etcdTTL node < serv.Ttl
  · simp [h3, Nat.min_eq_left (Nat.le_of_lt h3)]
  · simp [h3, Nat.min_eq_right (Nat.le_of_not_lt h3)]

theorem TTL_ge_one (node : Node) (serv : Service) : 1 ≤ TTL node serv := by
  rw [TTL_eq_mergeRule]
  unfold mergeRule
  by_cases h1 : etcdTTL node = 0 <;> by_cases h2 : serv.Ttl = 0 <;> simp [h1, h2] <;> omega

/-- C1: `Etcd.TTL(node, serv)` is the TTL merge rule with zero meaning unset,
applied to the etcd TTL (the 32-bit conversion of `node.TTL`, which is
`node.TTL` itself when that lies in the 32-bit range) and the service's TTL:
300 when both are 0, the non-zero one when exactly one is 0, the smaller of
the two when both are non-zero; an etcd TTL below the minimum of 60 is returned
as it is whenever it is the smaller one. -/
theorem TTL_merge_rule (node : Node) (serv : Service) :
    TTL node serv = mergeRule (etcdTTL node) serv.Ttl
    ∧ (etcdTTL node = 0 ∧ serv.Ttl = 0 → TTL node serv = 300)
    ∧ (etcdTTL node = 0 ∧ serv.Ttl ≠ 0 → TTL node serv = serv.Ttl)
    ∧ (etcdTTL node ≠ 0 ∧ serv.Ttl = 0 → TTL node serv = etcdTTL node)
    ∧ (etcdTTL node ≠ 0 ∧ serv.Ttl ≠ 0 → TTL node serv = min (etcdTTL node) serv.Ttl)
    ∧ (etcdTTL node ≠ 0 ∧ etcdTTL node < minTTL ∧ (serv.Ttl = 0 ∨ etcdTTL node ≤ serv.Ttl) →
        TTL node serv = etcdTTL node)
    ∧ (0 ≤ node.TTL ∧ node.TTL < 2 ^ 32 → (etcdTTL node : Int) = node.TTL) := by
  refine ⟨TTL_eq_mergeRule node serv, ?_, ?_, ?_, ?_, ?_, ?_⟩
  · rintro ⟨h1, h2⟩; simp [TTL_eq_mergeRule, mergeRule, h1, h2]
  · rintro ⟨h1, h2⟩; simp [TTL_eq_mergeRule, mergeRule, h1, h2]
  · rintro ⟨h1, h2⟩; simp [TTL_eq_mergeRule, mergeRule, h1, h2]
  · rintro ⟨h1, h2⟩; simp [TTL_eq_mergeRule, mergeRule, h1, h2]
  · rintro ⟨h1, _, h3⟩
    rcases h3 with h3 | h3
    · simp [TTL_eq_mergeRule, mergeRule, h1, h3]
    · by_cases h2 : serv.Ttl = 0
      · simp [TTL_eq_mergeRule, mergeRule, h1, h2]
      · simp [TTL_eq_mergeRule, mergeRule, h1, h2, Nat.min_eq_left h3]
  · rintro ⟨h1, h2⟩
    rw [etcdTTL_cast]
    exact Int.emod_eq_of_lt h1 h2

/-- C1 at a node stored with TTL 30 and a record that sets no TTL: the etcd
TTL, although below 60, is returned as it is. -/
theorem TTL_merge_rule_witness :
    TTL (Node.mk "/skydns/local/web" "" false 30 []) Service.zero = 30 :=
  (TTL_merge_rule (Node.mk "/skydns/local/web" "" false 30 []) Service.zero).2.2.2.2.2.1
    ⟨by decide, by decide, Or.inl rfl⟩

/-- C3 (as stated) fails: a node whose 64-bit TTL is `-1` is non-zero, its
32-bit conversion is `4294967295`, and `Etcd.TTL` returns that value, which is
greater than `-1`. -/
theorem TTL_le_backend_counterexample :
    (Node.mk "/skydns/local/web" "" false (-1) []).TTL ≠ 0
    ∧ ¬ ((TTL (Node.mk "/skydns/local/web" "" false (-1) []) Service.zero : Int)
          ≤ (Node.mk "/skydns/local/web" "" false (-1) []).TTL) := by
  decide

/-- C3 (amended): for every node whose backend-storage TTL is positive and
every service record (whose TTL is a 32-bit value), the TTL returned by
`Etcd.TTL` is at most `node.TTL`, compared as integers. -/
theorem TTL_le_backend (node : Node) (serv : Service) (hpos : 0 < node.TTL)
    (hserv : serv.Ttl < 2 ^ 32) : (TTL node serv : Int) ≤ node.TTL := by
  have hc := etcdTTL_cast node
  have hle : node.TTL % (2 ^ 32 : Int) ≤ node.TTL := by omega
  have hdvd : etcdTTL node = 0 → (2 ^ 32 : Int) ≤ node.TTL := by
    intro h0
    have h0' : node.TTL % (2 ^ 32 : Int) = 0 := by rw [← hc, h0]; rfl
    have hd : (2 ^ 32 : Int) ∣ node.TTL := Int.dvd_of_emod_eq_zero h0'
    exact Int.le_of_dvd hpos hd
  rw [TTL_eq_mergeRule]
  unfold mergeRule
  by_cases h1 : etcdTTL node = 0
  · have := hdvd h1
    by_cases h2 : serv.Ttl = 0
    · simp only [h1, h2, if_true]; omega
    · simp only [h1, h2, if_true, if_false]; omega
  · by_cases h2 : serv.Ttl = 0
    · simp only [h1, h2, if_true, if_false]; omega
    · simp only [h1, h2, if_false]
      have : min (etcdTTL node) serv.Ttl ≤ etcdTTL node := Nat.min_le_left _ _
      omega

/-- The amended C3 at a node stored with TTL 30 and a record asking for 3600. -/
theorem TTL_le_backend_witness :
    (TTL (Node.mk "/skydns/local/web" "" false 30 []) { Service.zero with Ttl := 3600 } : Int)
      ≤ (Node.mk "/skydns/local/web" "" false 30 []).TTL :=
  TTL_le_backend (Node.mk "/skydns/local/web" "" false 30 []) { Service.zero with Ttl := 3600 }
    (by decide) (by decide)


/-! ## What the loop over the leaves returns -/

theorem visitLeaf_cases (parse : String → Except String Service) (nameParts : List String)
    (star : Bool) (n : Node) (sx bx : List Service) :
    (passes nameParts star n = false ∧
        visitLeaf parse nameParts star n sx bx = { sx := sx, err := none, bx := bx })
    ∨ (passes nameParts star n = true ∧ ∃ e, parse n.Value = .error e ∧
        visitLeaf parse nameParts star n sx bx
          = { sx := [], err := some (n.Key ++ ": " ++ e), bx := bx })
    ∨ (passes nameParts star n = true ∧ ∃ serv, parse n.Value = .ok serv ∧
        dedupKey n serv ∈ bx ∧
        visitLeaf parse nameParts star n sx bx = { sx := sx, err := none, bx := bx })
    ∨ (passes nameParts star n = true ∧ ∃ serv, parse n.Value = .ok serv ∧
        dedupKey n serv ∉ bx ∧
        visitLeaf parse nameParts star n sx bx
          = { sx := sx ++ [emit n serv], err := none, bx := dedupKey n serv :: bx }) := by
  unfold visitLeaf
  by_cases hp : passes nameParts star n = false
  · left; simp [hp]
  · have hp' : passes nameParts star n = true := by simpa using hp
    right
    cases hv : parse n.Value with
    | error e => left; exact ⟨hp', e, rfl, by simp [hp']⟩
    | ok serv =>
      right
      by_cases hm : dedupKey n serv ∈ bx
      · left; exact ⟨hp', serv, rfl, hm, by simp [hp', hm]⟩
      · right; exact ⟨hp', serv, rfl, hm, by simp [hp', hm]⟩

theorem leafLoop_mem (parse : String → Except String Service) (nameParts : List String)
    (star : Bool) (l : List Node) :
    ∀ (sx bx : List Service) (s : Service),
      s ∈ (leafLoop parse nameParts star l sx bx).sx →
        s ∈ sx ∨ ∃ n ∈ l, passes nameParts star n = true ∧
          ∃ serv, parse n.Value = .ok serv ∧ s = emit n serv := by
  induction l with
  | nil => intro sx bx s hs; left; simpa [leafLoop] using hs
  | cons n rest ih =>
    intro sx bx s hs
    simp only [leafLoop] at hs
    rcases visitLeaf_cases parse nameParts star n sx bx with
      ⟨_, hv⟩ | ⟨_, e, _, hv⟩ | ⟨_, serv, _, _, hv⟩ | ⟨hp, serv, hok, _, hv⟩
    · rw [hv] at hs
      rcases ih sx bx s hs with h | ⟨m, hm, h⟩
      · exact Or.inl h
      · exact Or.inr ⟨m, List.mem_cons_of_mem _ hm, h⟩
    · rw [hv] at hs; simp at hs
    · rw [hv] at hs
      rcases ih sx bx s hs with h | ⟨m, hm, h⟩
      · exact Or.inl h
      · exact Or.inr ⟨m, List.mem_cons_of_mem _ hm, h⟩
    · rw [hv] at hs
      rcases ih _ _ s hs with h | ⟨m, hm, h⟩
      · rcases List.mem_append.1 h with h | h
        · exact Or.inl h
        · exact Or.inr ⟨n, List.mem_cons_self _ _, hp, serv, hok, by simpa using h⟩
      · exact Or.inr ⟨m, List.mem_cons_of_mem _ hm, h⟩

theorem leafLoop_err (parse : String → Except String Service) (nameParts : List String)
    (star : Bool) (l : List Node) :
    ∀ (sx bx : List Service) (msg : String),
      (leafLoop parse nameParts star l sx bx).err = some msg →
        ∃ n ∈ l, passes nameParts star n = true ∧
          ∃ e, parse n.Value = .error e ∧ msg = n.Key ++ ": " ++ e := by
  induction l with
  | nil => intro sx bx msg h; simp [leafLoop] at h
  | cons n rest ih =>
    intro sx bx msg h
    simp only [leafLoop] at h
    rcases visitLeaf_cases parse nameParts star n sx bx with
      ⟨_, hv⟩ | ⟨hp, e, he, hv⟩ | ⟨_, serv, _, _, hv⟩ | ⟨_, serv, _, _, hv⟩
    · rw [hv] at h
      obtain ⟨m, hm, h⟩ := ih _ _ msg h
      exact ⟨m, List.mem_cons_of_mem _ hm, h⟩
    · rw [hv] at h
      simp only [Option.some.injEq] at h
      exact ⟨n, List.mem_cons_self _ _, hp, e, he, h.symm⟩
    · rw [hv] at h
      obtain ⟨m, hm, h⟩ := ih _ _ msg h
      exact ⟨m, List.mem_cons_of_mem _ hm, h⟩
    · rw [hv] at h
      obtain ⟨m, hm, h⟩ := ih _ _ msg h
      exact ⟨m, List.mem_cons_of_mem _ hm, h⟩

theorem leafLoop_ok (parse : String → Except String Service) (nameParts : List String)
    (star : Bool) (l : List Node) :
    ∀ (sx bx : List Service),
      (leafLoop parse nameParts star l sx bx).err = none →
        ∀ n ∈ l, passes nameParts star n = true → ∃ serv, parse n.Value = .ok serv := by
  induction l with
  | nil => intro sx bx _ n hn; simp at hn
  | cons n rest ih =>
    intro sx bx h m hm hpm
    simp only [leafLoop] at h
    rcases visitLeaf_cases parse nameParts star n sx bx with
      ⟨hp, hv⟩ | ⟨_, e, _, hv⟩ | ⟨_, serv, hok, _, hv⟩ | ⟨_, serv, hok, _, hv⟩
    · rw [hv] at h
      rcases List.mem_cons.1 hm with rfl | hm
      · rw [hp] at hpm; cases hpm
      · exact ih _ _ h m hm hpm
    · rw [hv] at h; simp at h
    · rw [hv] at h
      rcases List.mem_cons.1 hm with rfl | hm
      · exact ⟨serv, hok⟩
      · exact ih _ _ h m hm hpm
    · rw [hv] at h
      rcases List.mem_cons.1 hm with rfl | hm
      · exact ⟨serv, hok⟩
      · exact ih _ _ h m hm hpm

mutual
theorem leavesOf_dir : ∀ (n m : Node), m ∈ leavesOf n → m.Dir = false
  | Node.mk key value dir t nodes, m, h => by
    by_cases hd : dir = true
    · subst hd
      simp only [leavesOf, if_true] at h
      exact leaves_dir nodes m h
    · have hd' : dir = false := by simpa using hd
      subst hd'
      simp only [leavesOf] at h
      simp at h
      subst h
      rfl
theorem leaves_dir : ∀ (ns : List Node) (m : Node), m ∈ leaves ns → m.Dir = false
  | [], m, h => by simp [leaves] at h
  | n :: rest, m, h => by
    simp only [leaves, List.mem_append] at h
    rcases h with h | h
    · exact leavesOf_dir n m h
    · exact leaves_dir rest m h
end

theorem loopNodes_eq_leafLoop (parse : String → Except String Service) (ns : List Node)
    (nameParts : List String) (star : Bool) (bx : List Service) :
    loopNodes parse ns nameParts star bx = leafLoop parse nameParts star (leaves ns) [] bx :=
  loopFrom_eq_leafLoop parse nameParts star ns [] bx

theorem emit_Ttl (n : Node) (serv : Service) : (emit n serv).Ttl = TTL n serv := rfl

theorem emit_Key (n : Node) (serv : Service) : (emit n serv).Key = n.Key := rfl

/-- C2: `Etcd.TTL` returns a value of at least 1 for every node and every
service record, and every service record in the list `loopNodes` returns has a
ttl of at least 1. -/
theorem TTL_never_zero (node : Node) (serv : Service)
    (parse : String → Except String Service) (ns : List Node) (nameParts : List String)
    (star : Bool) (bx : List Service) :
    1 ≤ TTL node serv ∧ TTL node serv ≠ 0
    ∧ ∀ s ∈ (loopNodes parse ns nameParts star bx).sx, 1 ≤ s.Ttl := by
  refine ⟨TTL_ge_one node serv, Nat.one_le_iff_ne_zero.1 (TTL_ge_one node serv), ?_⟩
  intro s hs
  rw [loopNodes_eq_leafLoop] at hs
  rcases leafLoop_mem parse nameParts star (leaves ns) [] bx s hs with h | ⟨n, _, _, sv, _, rfl⟩
  · simp at h
  · rw [emit_Ttl]; exact TTL_ge_one n sv

/-- C9: every service record `loopNodes` returns has a non-zero priority; it
is the emitted form of the record stored at a leaf of the tree, with priority 10
when the stored priority is 0 and the stored priority otherwise. -/
theorem loopNodes_priority (parse : String → Except String Service) (ns : List Node)
    (nameParts : List String) (star : Bool) (bx : List Service) :
    ∀ s ∈ (loopNodes parse ns nameParts star bx).sx,
      s.Priority ≠ 0 ∧
      ∃ n ∈ leaves ns, ∃ serv, parse n.Value = .ok serv ∧ s = emit n serv
        ∧ (serv.Priority = 0 → s.Priority = 10)
        ∧ (serv.Priority ≠ 0 → s.Priority = serv.Priority) := by
  intro s hs
  rw [loopNodes_eq_leafLoop] at hs
  rcases leafLoop_mem parse nameParts star (leaves ns) [] bx s hs with h | ⟨n, hn, _, sv, hok, rfl⟩
  · simp at h
  · have hp : (emit n sv).Priority = if sv.Priority = 0 then priority else sv.Priority := rfl
    refine ⟨?_, n, hn, sv, hok, rfl, ?_, ?_⟩
    · rw [hp]; by_cases h0 : sv.Priority = 0
      · simp [h0, priority]
      · simp [h0]
    · intro h0; rw [hp]; simp [h0, priority]
    · intro h0; rw [hp]; simp [h0]


/-- C9 on a leaf whose stored record sets no priority: the record is returned
with priority 10. -/
theorem loopNodes_priority_witness :
    (loopNodes sampleParse [Node.mk "/skydns/local/web" "host=10.0.0.1" false 0 []]
        ["", "skydns", "local", "web"] false []).sx
      = [{ Service.zero with
            Host := "10.0.0.1", Key := "/skydns/local/web", Ttl := 300, Priority := 10 }]
    ∧ ({ Service.zero with
          Host := "10.0.0.1", Key := "/skydns/local/web", Ttl := 300, Priority := 10 }
        : Service).Priority ≠ 0 :=
  ⟨by decide,
   (loopNodes_priority sampleParse [Node.mk "/skydns/local/web" "host=10.0.0.1" false 0 []]
      ["", "skydns", "local", "web"] false []
      { Service.zero with
        Host := "10.0.0.1", Key := "/skydns/local/web", Ttl := 300, Priority := 10 }
      (by decide)).1⟩

/-! ## Malformed records -/

/-- C10: `loopNodes` returns an error exactly when some leaf of the tree that
passes the wildcard filter has a value that does not parse; it then returns no
services, and the message is the key of such a leaf, then `": "`, then the
parser's message. -/
theorem loopNodes_malformed (parse : String → Except String Service) (ns : List Node)
    (nameParts : List String) (star : Bool) (bx : List Service) :
    ((loopNodes parse ns nameParts star bx).err ≠ none ↔
        ∃ n ∈ leaves ns, passes nameParts star n = true ∧ ∃ e, parse n.Value = .error e)
    ∧ ((loopNodes parse ns nameParts star bx).err ≠ none →
        (loopNodes parse ns nameParts star bx).sx = [])
    ∧ ∀ msg, (loopNodes parse ns nameParts star bx).err = some msg →
        ∃ n ∈ leaves ns, n.Dir = false ∧ passes nameParts star n = true ∧
          ∃ e, parse n.Value = .error e ∧ msg = n.Key ++ ": " ++ e := by
  rw [loopNodes_eq_leafLoop]
  refine ⟨⟨?_, ?_⟩, leafLoop_err_sx parse nameParts star (leaves ns) [] bx, ?_⟩
  · intro h
    obtain ⟨msg, hmsg⟩ := Option.ne_none_iff_exists'.1 h
    obtain ⟨n, hn, hp, e, he, _⟩ := leafLoop_err parse nameParts star (leaves ns) [] bx msg hmsg
    exact ⟨n, hn, hp, e, he⟩
  · rintro ⟨n, hn, hp, e, he⟩ hnone
    obtain ⟨serv, hok⟩ := leafLoop_ok parse nameParts star (leaves ns) [] bx hnone n hn hp
    rw [he] at hok
    cases hok
  · intro msg hmsg
    obtain ⟨n, hn, hp, e, he, hm⟩ := leafLoop_err parse nameParts star (leaves ns) [] bx msg hmsg
    exact ⟨n, hn, leaves_dir ns n hn, hp, e, he, hm⟩

/-! ## The seen-set -/

theorem leafLoop_seen (parse : String → Except String Service) (nameParts : List String)
    (star : Bool) (l : List Node) :
    ∀ (sx bx : List Service) (ps : List (Node × Service)),
      sx = ps.map (fun p => emit p.1 p.2) →
      bx = (ps.map (fun p => dedupKey p.1 p.2)).reverse →
      bx.Nodup →
      (leafLoop parse nameParts star l sx bx).err = none →
      ∃ qs : List (Node × Service),
        (leafLoop parse nameParts star l sx bx).sx = qs.map (fun p => emit p.1 p.2)
        ∧ (leafLoop parse nameParts star l sx bx).bx
            = (qs.map (fun p => dedupKey p.1 p.2)).reverse
        ∧ (leafLoop parse nameParts star l sx bx).bx.Nodup := by
  induction l with
  | nil => intro sx bx ps h1 h2 h3 _; exact ⟨ps, by simpa [leafLoop] using h1, by simpa [leafLoop] using h2, by simpa [leafLoop] using h3⟩
  | cons n rest ih =>
    intro sx bx ps h1 h2 h3 herr
    simp only [leafLoop] at herr ⊢
    rcases visitLeaf_cases parse nameParts star n sx bx with
      ⟨_, hv⟩ | ⟨_, e, _, hv⟩ | ⟨_, serv, _, _, hv⟩ | ⟨_, serv, _, hnot, hv⟩
    · rw [hv] at herr ⊢; exact ih sx bx ps h1 h2 h3 herr
    · rw [hv] at herr; simp at herr
    · rw [hv] at herr ⊢; exact ih sx bx ps h1 h2 h3 herr
    · rw [hv] at herr ⊢
      refine ih _ _ (ps ++ [(n, serv)]) ?_ ?_ ?_ herr
      · simp [h1]
      · simp [h2]
      · exact List.nodup_cons.2 ⟨hnot, h3⟩

theorem leafLoop_keys (parse : String → Except String Service) (nameParts : List String)
    (star : Bool) (l : List Node) :
    ∀ (sx bx : List Service),
      (leafLoop parse nameParts star l sx bx).err = none →
      ∃ k : List Service,
        (leafLoop parse nameParts star l sx bx).sx = sx ++ k
        ∧ (k.map Service.Key).Sublist (l.map Node.Key) := by
  induction l with
  | nil => intro sx bx _; exact ⟨[], by simp [leafLoop], by simp⟩
  | cons n rest ih =>
    intro sx bx herr
    simp only [leafLoop] at herr ⊢
    rcases visitLeaf_cases parse nameParts star n sx bx with
      ⟨_, hv⟩ | ⟨_, e, _, hv⟩ | ⟨_, serv, _, _, hv⟩ | ⟨_, serv, _, _, hv⟩
    · rw [hv] at herr ⊢
      obtain ⟨k, hk, hsub⟩ := ih sx bx herr
      exact ⟨k, hk, by simpa using hsub.trans (List.sublist_cons_self _ _)⟩
    · rw [hv] at herr; simp at herr
    · rw [hv] at herr ⊢
      obtain ⟨k, hk, hsub⟩ := ih sx bx herr
      exact ⟨k, hk, by simpa using hsub.trans (List.sublist_cons_self _ _)⟩
    · rw [hv] at herr ⊢
      obtain ⟨k, hk, hsub⟩ := ih (sx ++ [emit n serv]) (dedupKey n serv :: bx) herr
      refine ⟨emit n serv :: k, ?_, ?_⟩
      · simp only at hk ⊢
        rw [hk]; simp
      · simpa [emit_Key] using hsub

theorem emit_sameTuple_priority (n m : Node) (s t : Service)
    (hne : dedupKey n s ≠ dedupKey m t) (hsame : sameTuple (emit n s) (emit m t)) :
    (emit n s).Priority = priority := by
  by_contra hp
  apply hne
  obtain ⟨h1, h2, h3, h4, h5, h6⟩ := hsame
  have e1 : (emit n s).Priority = if s.Priority = 0 then priority else s.Priority := rfl
  have e2 : (emit m t).Priority = if t.Priority = 0 then priority else t.Priority := rfl
  have hs : s.Priority ≠ 0 := by
    intro h0; apply hp; rw [e1]; simp [h0]
  have ht : t.Priority ≠ 0 := by
    intro h0; apply hp; rw [h3, e2]; simp [h0]
  have hprio : s.Priority = t.Priority := by
    rw [e1, e2] at h3; simpa [hs, ht] using h3
  have k1 : s.Host = t.Host := h1
  have k2 : s.Port = t.Port := h2
  have k4 : s.Weight = t.Weight := h4
  have k5 : s.Text = t.Text := h5
  have k6 : n.Key = m.Key := h6
  simp [dedupKey, k1, k2, k4, k5, k6, hprio]

/-- C4: on every tree whose leaves have pairwise different keys, as the tree
of one etcd response has, and for every name, the services `loopNodes` returns
(nil seen-set) contain no two entries equal on
`(host, port, priority, weight, text, key)`: the keys of the returned entries
are pairwise different. The entries are the emitted forms of stored records
that are pairwise different on `(host, port, priority as stored, weight, text,
key)`, the tuple the seen-set holds. -/
theorem loopNodes_dedup (parse : String → Except String Service) (ns : List Node)
    (nameParts : List String) (star : Bool)
    (hkeys : ((leaves ns).map Node.Key).Nodup) :
    (loopNodes parse ns nameParts star []).sx.Pairwise (fun a b => ¬ sameTuple a b)
    ∧ ((loopNodes parse ns nameParts star []).sx.map Service.Key).Nodup
    ∧ (∃ qs : List (Node × Service),
        (loopNodes parse ns nameParts star []).sx = qs.map (fun p => emit p.1 p.2)
        ∧ (qs.map (fun p => dedupKey p.1 p.2)).Nodup) := by
  have hk : ((loopNodes parse ns nameParts star []).sx.map Service.Key).Nodup := by
    rw [loopNodes_eq_leafLoop]
    by_cases herr : (leafLoop parse nameParts star (leaves ns) [] []).err = none
    · obtain ⟨k, hk, hsub⟩ := leafLoop_keys parse nameParts star (leaves ns) [] [] herr
      rw [hk]
      simpa using hsub.nodup hkeys
    · rw [leafLoop_err_sx parse nameParts star (leaves ns) [] [] herr]
      exact List.nodup_nil
  refine ⟨?_, hk, ?_⟩
  · have hpw : (loopNodes parse ns nameParts star []).sx.Pairwise
        (fun a b => a.Key ≠ b.Key) := List.pairwise_map.1 hk
    exact hpw.imp (fun {a b} (hne : a.Key ≠ b.Key) (hsame : sameTuple a b) =>
      hne hsame.2.2.2.2.2)
  · rw [loopNodes_eq_leafLoop]
    by_cases herr : (leafLoop parse nameParts star (leaves ns) [] []).err = none
    · obtain ⟨qs, h1, h2, h3⟩ :=
        leafLoop_seen parse nameParts star (leaves ns) [] [] [] rfl rfl List.nodup_nil herr
      refine ⟨qs, h1, ?_⟩
      rw [h2] at h3
      exact List.nodup_reverse.1 h3
    · exact ⟨[], by simpa using leafLoop_err_sx parse nameParts star (leaves ns) [] [] herr,
        by simp⟩

/-- C4 on a directory with two leaves of different keys that store the same
record: both are returned, and they differ in the key. -/
theorem loopNodes_dedup_witness :
    (loopNodes sampleParse
        [Node.mk "/skydns/local/web" "" true 0
          [Node.mk "/skydns/local/web/a" "host=10.0.0.1" false 0 [],
           Node.mk "/skydns/local/web/b" "host=10.0.0.1" false 0 []]]
        ["", "skydns", "local", "web"] false []).sx.Pairwise (fun a b => ¬ sameTuple a b) :=
  (loopNodes_dedup sampleParse
      [Node.mk "/skydns/local/web" "" true 0
        [Node.mk "/skydns/local/web/a" "host=10.0.0.1" false 0 [],
         Node.mk "/skydns/local/web/b" "host=10.0.0.1" false 0 []]]
      ["", "skydns", "local", "web"] false (by decide)).1

/-! ## The wildcard filter -/

theorem matchFrom_iff (keyParts : List String) (nameParts : List String) :
    ∀ i : Nat, matchFrom keyParts nameParts i = true ↔
      ∀ j, (h : j < nameParts.length) →
        i + j < keyParts.length ∧ (isWild nameParts[j] ∨ keyParts[i + j]? = some nameParts[j]) := by
  induction nameParts with
  | nil => intro i; simp [matchFrom]
  | cons n rest ih =>
    intro i
    have step : (∀ j, (h : j < rest.length) →
          i + 1 + j < keyParts.length ∧
            (isWild rest[j] ∨ keyParts[i + 1 + j]? = some rest[j])) →
        (isWild n ∨ keyParts[i]? = some n) → i < keyParts.length →
        ∀ j, (h : j < (n :: rest).length) →
          i + j < keyParts.length ∧
            (isWild (n :: rest)[j] ∨ keyParts[i + j]? = some (n :: rest)[j]) := by
      intro hrest h0 hi j hj
      cases j with
      | zero => exact ⟨by simpa using hi, by simpa using h0⟩
      | succ j =>
        have hj' : j < rest.length := by simpa using hj
        have := hrest j hj'
        have e : i + (j + 1) = i + 1 + j := by omega
        simpa [e] using this
    have back : (∀ j, (h : j < (n :: rest).length) →
          i + j < keyParts.length ∧
            (isWild (n :: rest)[j] ∨ keyParts[i + j]? = some (n :: rest)[j])) →
        ∀ j, (h : j < rest.length) →
          i + 1 + j < keyParts.length ∧
            (isWild rest[j] ∨ keyParts[i + 1 + j]? = some rest[j]) := by
      intro hall j hj
      have := hall (j + 1) (by simpa using hj)
      have e : i + (j + 1) = i + 1 + j := by omega
      simpa [e] using this
    unfold matchFrom
    by_cases hi : (i : Int) > (keyParts.length : Int) - 1
    · simp only [hi, if_true]
      constructor
      · intro h; cases h
      · intro hall
        have := (hall 0 (by simp)).1
        omega
    · have hi' : i < keyParts.length := by omega
      simp only [hi, if_false]
      by_cases hw : n = "*" ∨ n = "any"
      · simp only [hw, if_true]
        rw [ih (i + 1)]
        exact ⟨fun h => step h (Or.inl hw) hi', back⟩
      · simp only [hw, if_false]
        have hget : keyParts.getD i "" = keyParts[i] := by
          simp [List.getD_eq_getElem?_getD, List.getElem?_eq_getElem hi']
        by_cases hk : keyParts.getD i "" ≠ n
        · rw [if_pos hk]
          constructor
          · intro h; cases h
          · intro hall
            have h0 := (hall 0 (by simp)).2
            simp only [List.getElem_cons_zero, Nat.add_zero] at h0
            rcases h0 with h0 | h0
            · exact absurd h0 hw
            · rw [List.getElem?_eq_getElem hi'] at h0
              simp only [Option.some.injEq] at h0
              exact absurd (hget.trans h0) hk
        · rw [if_neg hk]
          have hk' : keyParts.getD i "" = n := by simpa using hk
          rw [ih (i + 1)]
          refine ⟨fun h => step h (Or.inr ?_) hi', back⟩
          rw [List.getElem?_eq_getElem hi', ← hget, hk']

theorem passes_true_iff (nameParts : List String) (n : Node) :
    passes nameParts true n = true ↔ prefixMatch nameParts (splitSlash n.Key) := by
  unfold passes prefixMatch
  simp only [if_true]
  rw [matchFrom_iff]
  constructor
  · intro h
    refine ⟨?_, fun i hi => by simpa using (h i hi).2⟩
    by_contra hlen
    have hlt : (splitSlash n.Key).length < nameParts.length := by omega
    have := (h (splitSlash n.Key).length hlt).1
    omega
  · rintro ⟨hlen, h⟩ j hj
    exact ⟨by omega, by simpa using h j hj⟩

theorem loopFrom_leaf (parse : String → Except String Service) (nameParts : List String)
    (star : Bool) (n : Node) (rest : List Node) (sx bx : List Service) (h : n.Dir = false) :
    loopFrom parse nameParts star (n :: rest) sx bx =
      match visitLeaf parse nameParts star n sx bx with
      | { sx := _, err := some e, bx := bx1 } => { sx := [], err := some e, bx := bx1 }
      | { sx := sx1, err := none, bx := bx1 } => loopFrom parse nameParts star rest sx1 bx1 := by
  cases n with
  | mk key value dir t nodes =>
    have hd : dir = false := h
    subst hd
    simp [loopFrom, visit]

theorem loopNodes_single_leaf (parse : String → Except String Service)
    (nameParts : List String) (star : Bool) (n : Node) (bx : List Service)
    (h : n.Dir = false) :
    loopNodes parse [n] nameParts star bx =
      if passes nameParts star n = true then
        match parse n.Value with
        | .error e => { sx := [], err := some (n.Key ++ ": " ++ e), bx := bx }
        | .ok serv =>
          if dedupKey n serv ∈ bx then { sx := [], err := none, bx := bx }
          else { sx := [emit n serv], err := none, bx := dedupKey n serv :: bx }
      else { sx := [], err := none, bx := bx } := by
  unfold loopNodes
  rw [loopFrom_leaf parse nameParts star n [] [] bx h]
  rcases visitLeaf_cases parse nameParts star n [] bx with
    ⟨hp, hv⟩ | ⟨hp, e, he, hv⟩ | ⟨hp, serv, hok, hm, hv⟩ | ⟨hp, serv, hok, hm, hv⟩
  · rw [hv]; simp [hp, loopFrom]
  · rw [hv]; simp [hp, he]
  · rw [hv]; simp [hp, hok, hm, loopFrom]
  · rw [hv]; simp [hp, hok, hm, loopFrom]


/-- C5 (as stated) fails: the loop compares segments byte for byte. The name
segment `web` equals the key segment `Web` after case folding, so the rule of
the claim lets the leaf pass, but the filter of `loopNodes` rejects it. -/
theorem wildcard_filter_counterexample :
    ¬ (passes ["", "skydns", "*", "web"] true
          (Node.mk "/skydns/local/Web" "host=10.0.0.1" false 0 []) = true
        ↔ specMatch ["", "skydns", "*", "web"] (splitSlash "/skydns/local/Web") = true) := by
  decide

/-- C5 (amended): when `star` is true, a leaf passes the wildcard filter of
`loopNodes` exactly when the name has no more segments than the node's key and
every name segment is `*`, `any` or byte-equal to the key segment at the same
position; a leaf that passes is parsed, and emitted when its value parses,
and a leaf that does not pass is neither parsed nor emitted. -/
theorem wildcard_filter (parse : String → Except String Service) (nameParts : List String)
    (n : Node) (hleaf : n.Dir = false) :
    (passes nameParts true n = true ↔ prefixMatch nameParts (splitSlash n.Key))
    ∧ (passes nameParts true n = true →
        loopNodes parse [n] nameParts true [] =
          match parse n.Value with
          | .error e => { sx := [], err := some (n.Key ++ ": " ++ e), bx := [] }
          | .ok serv => { sx := [emit n serv], err := none, bx := [dedupKey n serv] })
    ∧ (passes nameParts true n = false →
        loopNodes parse [n] nameParts true [] = { sx := [], err := none, bx := [] }) := by
  refine ⟨passes_true_iff nameParts n, ?_, ?_⟩
  · intro hp
    rw [loopNodes_single_leaf parse nameParts true n [] hleaf]
    simp only [hp, if_true]
    cases parse n.Value <;> simp
  · intro hp
    rw [loopNodes_single_leaf parse nameParts true n [] hleaf]
    simp [hp]

/-- The amended C5 on the name `*.svc.example.org.`: the stored keys
`a.svc.example.org` and `b.svc.example.org` both pass, and the lookup over the
directory holding them returns two records. -/
theorem wildcard_filter_witness :
    passes ["", "skydns", "org", "example", "svc", "*"] true
        (Node.mk "/skydns/org/example/svc/a" "host=10.0.0.1" false 0 []) = true
    ∧ passes ["", "skydns", "org", "example", "svc", "*"] true
        (Node.mk "/skydns/org/example/svc/b" "host=10.0.0.2" false 0 []) = true
    ∧ (loopNodes sampleParse
        [Node.mk "/skydns/org/example/svc" "" true 0
          [Node.mk "/skydns/org/example/svc/a" "host=10.0.0.1" false 0 [],
           Node.mk "/skydns/org/example/svc/b" "host=10.0.0.2" false 0 []]]
        ["", "skydns", "org", "example", "svc", "*"] true []).sx.map (fun s => s.Host)
        = ["10.0.0.1", "10.0.0.2"] :=
  ⟨(wildcard_filter sampleParse ["", "skydns", "org", "example", "svc", "*"]
      (Node.mk "/skydns/org/example/svc/a" "host=10.0.0.1" false 0 []) rfl).1.2 (by decide),
   (wildcard_filter sampleParse ["", "skydns", "org", "example", "svc", "*"]
      (Node.mk "/skydns/org/example/svc/b" "host=10.0.0.2" false 0 []) rfl).1.2 (by decide),
   by decide⟩

/-- C6: when `star` is true, a leaf whose key has fewer segments than the name
does not pass the filter; the loop steps over it without parsing its value
and without emitting anything, whatever follows it and at every depth of the
tree; and every record `loopNodes` returns has a key with at least as many
segments as the name. -/
theorem loopNodes_short_key (parse : String → Except String Service)
    (nameParts : List String) (n : Node) (hleaf : n.Dir = false)
    (hshort : (splitSlash n.Key).length < nameParts.length) :
    passes nameParts true n = false
    ∧ (∀ (rest : List Node) (sx bx : List Service),
        loopFrom parse nameParts true (n :: rest) sx bx
          = loopFrom parse nameParts true rest sx bx)
    ∧ (∀ (rest : List Node) (bx : List Service),
        loopNodes parse (n :: rest) nameParts true bx
          = loopNodes parse rest nameParts true bx)
    ∧ (∀ (ns : List Node) (bx : List Service),
        ∀ s ∈ (loopNodes parse ns nameParts true bx).sx,
          nameParts.length ≤ (splitSlash s.Key).length) := by
  have hp : passes nameParts true n = false := by
    cases h : passes nameParts true n with
    | false => rfl
    | true =>
      have := ((passes_true_iff nameParts n).1 h).1
      omega
  have hloop : ∀ (rest : List Node) (sx bx : List Service),
      loopFrom parse nameParts true (n :: rest) sx bx
        = loopFrom parse nameParts true rest sx bx := by
    intro rest sx bx
    rw [loopFrom_leaf parse nameParts true n rest sx bx hleaf]
    simp [visitLeaf, hp]
  refine ⟨hp, hloop, fun rest bx => hloop rest [] bx, ?_⟩
  intro ns bx s hs
  rw [loopNodes_eq_leafLoop] at hs
  rcases leafLoop_mem parse nameParts true (leaves ns) [] bx s hs with h | ⟨m, _, hm, sv, _, rfl⟩
  · simp at h
  · rw [emit_Key]
    exact ((passes_true_iff nameParts m).1 hm).1

/-- C6 at the key `/skydns/local` and the name `*.local.skydns`: the leaf is
stepped over although its value would not parse. -/
theorem loopNodes_short_key_witness :
    passes ["", "skydns", "local", "*"] true (Node.mk "/skydns/local" "garbage" false 0 []) = false
    ∧ loopNodes sampleParse [Node.mk "/skydns/local" "garbage" false 0 []]
        ["", "skydns", "local", "*"] true [] = { sx := [], err := none, bx := [] } :=
  ⟨(loopNodes_short_key sampleParse ["", "skydns", "local", "*"]
      (Node.mk "/skydns/local" "garbage" false 0 []) rfl (by decide)).1,
   by decide⟩

/-- C7 (as stated) fails: the name `staging.*.skydns` has fewer segments than
the key `/skydns/east/staging/web`, its last segment is `staging`, not `*`,
and `loopNodes` still returns the record of that leaf. -/
theorem loopNodes_short_name_counterexample :
    ["", "skydns", "*", "staging"].length < (splitSlash "/skydns/east/staging/web").length
    ∧ (loopNodes sampleParse
        [Node.mk "/skydns/east/staging/web" "host=10.0.0.1" false 0 []]
        ["", "skydns", "*", "staging"] true []).sx ≠ []
    ∧ ["", "skydns", "*", "staging"].getLast? ≠ some "*" := by
  decide

/-- C7 (amended): when `star` is true and the name has fewer segments than a
leaf's key, `loopNodes` returns a record for that leaf exactly when every name
segment is `*`, `any` or byte-equal to the key segment at the same position
and the value parses; the key's segments beyond the name are not looked at,
and the name's last segment need not be `*`. -/
theorem loopNodes_short_name (parse : String → Except String Service)
    (nameParts : List String) (n : Node) (hleaf : n.Dir = false)
    (hshort : nameParts.length < (splitSlash n.Key).length) :
    (loopNodes parse [n] nameParts true []).sx ≠ [] ↔
      (∀ i, (h : i < nameParts.length) →
          isWild nameParts[i] ∨ (splitSlash n.Key)[i]? = some nameParts[i])
        ∧ ∃ serv, parse n.Value = .ok serv := by
  rw [loopNodes_single_leaf parse nameParts true n [] hleaf]
  have hiff := passes_true_iff nameParts n
  unfold prefixMatch at hiff
  constructor
  · intro h
    by_cases hp : passes nameParts true n = true
    · refine ⟨(hiff.1 hp).2, ?_⟩
      simp only [hp, if_true] at h
      cases hv : parse n.Value with
      | error e => rw [hv] at h; simp at h
      | ok serv => exact ⟨serv, rfl⟩
    · simp [hp] at h
  · rintro ⟨hall, serv, hok⟩
    have hp : passes nameParts true n = true := hiff.2 ⟨le_of_lt hshort, hall⟩
    simp [hp, hok]

/-- The amended C7 at the name `staging.*.skydns` and the key
`/skydns/east/staging/web`. -/
theorem loopNodes_short_name_witness :
    (loopNodes sampleParse [Node.mk "/skydns/east/staging/web" "host=10.0.0.1" false 0 []]
        ["", "skydns", "*", "staging"] true []).sx ≠ [] :=
  (loopNodes_short_name sampleParse ["", "skydns", "*", "staging"]
    (Node.mk "/skydns/east/staging/web" "host=10.0.0.1" false 0 []) rfl (by decide)).2
    ⟨by decide, ⟨{ Service.zero with Host := "10.0.0.1" }, rfl⟩⟩


/-! ## `any` and `*` -/

theorem matchFrom_congr (keyParts : List String) (a b : List String)
    (h : List.Forall₂ wildEquiv a b) :
    ∀ i : Nat, matchFrom keyParts a i = matchFrom keyParts b i := by
  induction h with
  | nil => intro i; rfl
  | @cons x y xs ys hxy _ ih =>
    intro i
    unfold matchFrom
    rcases hxy with rfl | ⟨hx, hy⟩
    · simp only [ih (i + 1)]
    · have hx' : x = "*" ∨ x = "any" := hx
      have hy' : y = "*" ∨ y = "any" := hy
      simp only [hx', hy', if_true, ih (i + 1)]

theorem visitLeaf_congr (parse : String → Except String Service) (a b : List String)
    (star : Bool) (h : ∀ n, passes a star n = passes b star n)
    (n : Node) (sx bx : List Service) :
    visitLeaf parse a star n sx bx = visitLeaf parse b star n sx bx := by
  unfold visitLeaf
  rw [h n]

theorem leafLoop_congr (parse : String → Except String Service) (a b : List String)
    (star : Bool) (h : ∀ n, passes a star n = passes b star n) (l : List Node) :
    ∀ sx bx : List Service,
      leafLoop parse a star l sx bx = leafLoop parse b star l sx bx := by
  induction l with
  | nil => intro sx bx; rfl
  | cons n rest ih =>
    intro sx bx
    simp only [leafLoop]
    rw [visitLeaf_congr parse a b star h n sx bx]
    rcases visitLeaf parse b star n sx bx with ⟨sx1, _ | e, bx1⟩
    · simp only; exact ih sx1 bx1
    · rfl

/-- C8: `any` is a synonym of `*`: if two lists of name segments differ only
in that some segments `any` are replaced by `*` or some `*` by `any`, then
`loopNodes` returns the same result for both, for every tree, star flag and
seen-set; and a name segment that is neither `*` nor `any` lets a key through
only when the key segment at its position is that very segment. -/
theorem any_star_synonym (parse : String → Except String Service) (ns : List Node)
    (star : Bool) (bx : List Service) (nameParts nameParts' : List String)
    (h : List.Forall₂ wildEquiv nameParts nameParts') :
    loopNodes parse ns nameParts star bx = loopNodes parse ns nameParts' star bx
    ∧ ∀ (n : Node) (i : Nat) (hi : i < nameParts.length),
        nameParts[i] ≠ "*" → nameParts[i] ≠ "any" → passes nameParts true n = true →
          (splitSlash n.Key)[i]? = some nameParts[i] := by
  constructor
  · rw [loopNodes_eq_leafLoop, loopNodes_eq_leafLoop]
    apply leafLoop_congr
    intro n
    unfold passes
    cases star with
    | false => rfl
    | true => simp only [if_true]; exact matchFrom_congr _ _ _ h 0
  · intro n i hi h1 h2 hp
    rcases ((passes_true_iff nameParts n).1 hp).2 i hi with hw | hk
    · rcases hw with hw | hw
      · exact absurd hw h1
      · exact absurd hw h2
    · exact hk

/-- C8 on the names `web.any.skydns` and `web.*.skydns`. -/
theorem any_star_synonym_witness :
    loopNodes sampleParse
        [Node.mk "/skydns/east" "" true 0 [Node.mk "/skydns/east/web" "host=10.0.0.1" false 0 []],
         Node.mk "/skydns/west" "" true 0 [Node.mk "/skydns/west/db" "host=10.0.0.2" false 0 []]]
        ["", "skydns", "any", "web"] true []
      = loopNodes sampleParse
        [Node.mk "/skydns/east" "" true 0 [Node.mk "/skydns/east/web" "host=10.0.0.1" false 0 []],
         Node.mk "/skydns/west" "" true 0 [Node.mk "/skydns/west/db" "host=10.0.0.2" false 0 []]]
        ["", "skydns", "*", "web"] true [] :=
  (any_star_synonym sampleParse
      [Node.mk "/skydns/east" "" true 0 [Node.mk "/skydns/east/web" "host=10.0.0.1" false 0 []],
       Node.mk "/skydns/west" "" true 0 [Node.mk "/skydns/west/db" "host=10.0.0.2" false 0 []]]
      true [] ["", "skydns", "any", "web"] ["", "skydns", "*", "web"]
      (.cons (Or.inl rfl) (.cons (Or.inl rfl)
        (.cons (Or.inr ⟨Or.inr rfl, Or.inl rfl⟩) (.cons (Or.inl rfl) .nil))))).1

/-! ## Exact lookups and record keys -/

/-- C11: when `exact` is true and the fetch for the name gives a node,
`Records` returns nothing and no error if that node is a directory; if it is a
leaf, it returns the record parsed from that node's own value (or the parse
error), so at most one record, every returned record is the emitted form of
the fetched node's value, and neither the name's segments nor the star flag
play a part. -/
theorem Records_exact (parse : String → Except String Service)
    (pathWithWildcard : String → String → String × Bool) (path : String → String → String)
    (get : String → Bool → Except String Node) (PathPrefix name : String) (node : Node)
    (hget : get (pathWithWildcard name PathPrefix).1 true = .ok node) :
    (node.Dir = true →
        Records parse pathWithWildcard path get PathPrefix name true = ([], none))
    ∧ (node.Dir = false →
        Records parse pathWithWildcard path get PathPrefix name true =
          match parse node.Value with
          | .error e => ([], some (node.Key ++ ": " ++ e))
          | .ok serv => ([emit node serv], none))
    ∧ (Records parse pathWithWildcard path get PathPrefix name true).1.length ≤ 1
    ∧ ∀ s ∈ (Records parse pathWithWildcard path get PathPrefix name true).1,
        node.Dir = false ∧ ∃ serv, parse node.Value = .ok serv ∧ s = emit node serv := by
  have hdir : node.Dir = true →
      Records parse pathWithWildcard path get PathPrefix name true = ([], none) := by
    intro hd
    simp [Records, hget, hd]
  have hleaf : node.Dir = false →
      Records parse pathWithWildcard path get PathPrefix name true =
        match parse node.Value with
        | .error e => ([], some (node.Key ++ ": " ++ e))
        | .ok serv => ([emit node serv], none) := by
    intro hd
    simp only [Records, hget, hd]
    rw [loopNodes_single_leaf parse _ false node [] hd]
    simp only [passes]
    cases parse node.Value <;> simp
  refine ⟨hdir, hleaf, ?_, ?_⟩
  · cases hd : node.Dir with
    | true => rw [hdir hd]; simp
    | false =>
      rw [hleaf hd]
      cases parse node.Value <;> simp
  · intro s hs
    cases hd : node.Dir with
    | true => rw [hdir hd] at hs; simp at hs
    | false =>
      rw [hleaf hd] at hs
      cases hv : parse node.Value with
      | error e => rw [hv] at hs; simp at hs
      | ok serv =>
        rw [hv] at hs
        simp only [List.mem_singleton] at hs
        exact ⟨rfl, serv, rfl, hs⟩

/-- C11 on a directory `/skydns/local/web` with a leaf below it: the exact
lookup returns nothing, although the leaf below holds a record. -/
theorem Records_exact_witness :
    Records sampleParse (fun _ _ => ("/skydns/local/web", false))
        (fun _ _ => "/skydns/local/web")
        (fun _ _ => .ok (Node.mk "/skydns/local/web" "" true 0
          [Node.mk "/skydns/local/web/a" "host=10.0.0.1" false 0 []]))
        "skydns" "web.local." true
      = ([], none) :=
  (Records_exact sampleParse (fun _ _ => ("/skydns/local/web", false))
      (fun _ _ => "/skydns/local/web")
      (fun _ _ => .ok (Node.mk "/skydns/local/web" "" true 0
        [Node.mk "/skydns/local/web/a" "host=10.0.0.1" false 0 []]))
      "skydns" "web.local."
      (Node.mk "/skydns/local/web" "" true 0
        [Node.mk "/skydns/local/web/a" "host=10.0.0.1" false 0 []]) rfl).1 rfl

/-- C12: the key of every service record `loopNodes` returns is the key of
the leaf of the tree whose value was parsed into it; the emitted key is the
node's key whatever key the parsed record carries. -/
theorem loopNodes_key (parse : String → Except String Service) (ns : List Node)
    (nameParts : List String) (star : Bool) (bx : List Service) :
    (∀ (n : Node) (serv : Service), (emit n serv).Key = n.Key)
    ∧ ∀ s ∈ (loopNodes parse ns nameParts star bx).sx,
        ∃ n ∈ leaves ns, ∃ serv, parse n.Value = .ok serv ∧ s = emit n serv
          ∧ s.Key = n.Key := by
  refine ⟨fun n serv => rfl, ?_⟩
  intro s hs
  rw [loopNodes_eq_leafLoop] at hs
  rcases leafLoop_mem parse nameParts star (leaves ns) [] bx s hs with h | ⟨n, hn, _, sv, hok, rfl⟩
  · simp at h
  · exact ⟨n, hn, sv, hok, rfl, rfl⟩

/-- C12 on a leaf whose stored value names a key of its own: the record is
returned under the key of the node. -/
theorem loopNodes_key_witness :
    (loopNodes (fun _ => .ok { Service.zero with Host := "10.0.0.1", Key := "/other/key" })
        [Node.mk "/skydns/local/web" "host=10.0.0.1" false 0 []]
        ["", "skydns", "local", "web"] false []).sx.map (fun s => s.Key)
      = ["/skydns/local/web"]
    ∧ (emit (Node.mk "/skydns/local/web" "host=10.0.0.1" false 0 [])
        { Service.zero with Host := "10.0.0.1", Key := "/other/key" }).Key
      = "/skydns/local/web" :=
  ⟨by decide,
   (loopNodes_key (fun _ => .ok { Service.zero with Host := "10.0.0.1", Key := "/other/key" })
      [Node.mk "/skydns/local/web" "host=10.0.0.1" false 0 []]
      ["", "skydns", "local", "web"] false []).1
      (Node.mk "/skydns/local/web" "host=10.0.0.1" false 0 [])
      { Service.zero with Host := "10.0.0.1", Key := "/other/key" }⟩

end Etcd

namespace Nametemplate

/-! ## The map `Element` after `SetTemplate` -/

theorem find_filter_ne (m : List (String × Nat)) (k k' : String) (h : ¬ k' = k) :
    List.find? (fun e => decide (e.1 = k')) (m.filter (fun e => decide (e.1 ≠ k)))
      = List.find? (fun e => decide (e.1 = k')) m := by
  induction m with
  | nil => rfl
  | cons e rest ih =>
    by_cases he : e.1 = k
    · have he' : ¬ e.1 = k' := fun e' => h (e'.symm.trans he)
      rw [List.filter_cons_of_neg (by simp [he]), List.find?_cons_of_neg _ (by simp [he'])]
      exact ih
    · rw [List.filter_cons_of_pos (by simp [he])]
      by_cases hek : e.1 = k'
      · rw [List.find?_cons_of_pos _ (by simp [hek]), List.find?_cons_of_pos _ (by simp [hek])]
      · rw [List.find?_cons_of_neg _ (by simp [hek]), List.find?_cons_of_neg _ (by simp [hek])]
        exact ih

theorem mapGet_mapSet (m : List (String × Nat)) (k : String) (v : Nat) (k' : String) :
    mapGet (mapSet m k v) k' = if k' = k then some v else mapGet m k' := by
  unfold mapGet mapSet
  by_cases h : k' = k
  · subst h
    simp
  · have hk : ¬ k = k' := fun e => h e.symm
    rw [List.find?_cons_of_neg _ (by simp [hk]), find_filter_ne m k k' h, if_neg h]

theorem findSymbol_some (v : String) (e : String × String) (h : findSymbol v = some e) :
    e ∈ symbols ∧ v = e.2 := by
  unfold findSymbol at h
  exact ⟨List.mem_of_find?_eq_some h, by simpa using List.find?_some h⟩

theorem findSymbol_mem (name sym : String) (h : (name, sym) ∈ symbols) :
    findSymbol sym = some (name, sym) := by
  simp only [symbols, List.mem_cons, Prod.mk.injEq, List.mem_singleton, List.not_mem_nil,
    or_false] at h
  rcases h with ⟨rfl, rfl⟩ | ⟨rfl, rfl⟩ | ⟨rfl, rfl⟩ | ⟨rfl, rfl⟩ <;> decide

theorem findSymbol_none (v : String) (h : findSymbol v = none) (name : String) :
    (name, v) ∉ symbols := by
  intro hm
  rw [findSymbol_mem name v hm] at h
  cases h

theorem symbols_name_inj (n₁ n₂ sym : String) (h₁ : (n₁, sym) ∈ symbols)
    (h₂ : (n₂, sym) ∈ symbols) : n₁ = n₂ := by
  have e₁ := findSymbol_mem n₁ sym h₁
  have e₂ := findSymbol_mem n₂ sym h₂
  rw [e₁] at e₂
  simpa using e₂

theorem symbols_sym_inj (name s₁ s₂ : String) (h₁ : (name, s₁) ∈ symbols)
    (h₂ : (name, s₂) ∈ symbols) : s₁ = s₂ := by
  simp only [symbols, List.mem_cons, Prod.mk.injEq, List.mem_singleton, List.not_mem_nil,
    or_false] at h₁ h₂
  rcases h₁ with ⟨rfl, rfl⟩ | ⟨rfl, rfl⟩ | ⟨rfl, rfl⟩ | ⟨rfl, rfl⟩ <;>
    rcases h₂ with ⟨h, rfl⟩ | ⟨h, rfl⟩ | ⟨h, rfl⟩ | ⟨h, rfl⟩ <;>
    first | rfl | (exact absurd h (by decide))

theorem lastIndexFrom_none (sym : String) (segs : List String) :
    ∀ idx : Nat, lastIndexFrom sym segs idx = none ↔ sym ∉ segs := by
  induction segs with
  | nil => intro idx; simp [lastIndexFrom]
  | cons v rest ih =>
    intro idx
    unfold lastIndexFrom
    cases h : lastIndexFrom sym rest (idx + 1) with
    | some i =>
      have hin : sym ∈ rest := by
        by_contra hn
        rw [(ih (idx + 1)).2 hn] at h
        cases h
      simp [hin]
    | none =>
      have hn : sym ∉ rest := (ih (idx + 1)).1 h
      by_cases hv : v = sym
      · simp [hv]
      · have hv' : ¬ sym = v := fun e => hv e.symm
        simp [hv, hv', hn]

/-- Segment `j` is the last occurrence of `sym`, and `i` is its index counted
from `idx`. -/
theorem lastAt_cons (sym v : String) (rest : List String) (idx i : Nat) :
    (∃ j, i = idx + j ∧ (v :: rest)[j]? = some sym
        ∧ ∀ j', j < j' → (v :: rest)[j']? ≠ some sym)
    ↔ (∃ j, i = idx + 1 + j ∧ rest[j]? = some sym ∧ ∀ j', j < j' → rest[j']? ≠ some sym)
      ∨ (v = sym ∧ i = idx ∧ sym ∉ rest) := by
  constructor
  · rintro ⟨j, hi, hj, hlast⟩
    cases j with
    | zero =>
      right
      refine ⟨by simpa using hj, by simpa using hi, ?_⟩
      intro hmem
      obtain ⟨k, hk⟩ := List.mem_iff_getElem?.1 hmem
      exact hlast (k + 1) (by omega) (by simpa using hk)
    | succ j =>
      left
      refine ⟨j, by omega, by simpa using hj, ?_⟩
      intro j' hj'
      have := hlast (j' + 1) (by omega)
      simpa using this
  · rintro (⟨j, hi, hj, hlast⟩ | ⟨hv, hi, hn⟩)
    · refine ⟨j + 1, by omega, by simpa using hj, ?_⟩
      intro j' hj'
      cases j' with
      | zero => omega
      | succ j' =>
        have := hlast j' (by omega)
        simpa using this
    · refine ⟨0, by simpa using hi, by simp [hv], ?_⟩
      intro j' hj'
      cases j' with
      | zero => omega
      | succ j' =>
        intro hget
        have hget' : rest[j']? = some sym := by simpa using hget
        exact hn (List.mem_iff_getElem?.2 ⟨j', hget'⟩)

theorem lastIndexFrom_some (sym : String) (segs : List String) :
    ∀ idx i : Nat, lastIndexFrom sym segs idx = some i ↔
      ∃ j, i = idx + j ∧ segs[j]? = some sym ∧ ∀ j', j < j' → segs[j']? ≠ some sym := by
  induction segs with
  | nil => intro idx i; simp [lastIndexFrom]
  | cons v rest ih =>
    intro idx i
    rw [lastAt_cons, ← ih (idx + 1) i]
    simp only [lastIndexFrom]
    cases h : lastIndexFrom sym rest (idx + 1) with
    | some i0 =>
      have hin : ¬ sym ∉ rest := by
        intro hn
        rw [(lastIndexFrom_none sym rest (idx + 1)).2 hn] at h
        cases h
      constructor
      · intro e; exact Or.inl e
      · rintro (e | ⟨_, _, hn⟩)
        · exact e
        · exact absurd hn hin
    | none =>
      have hn : sym ∉ rest := (lastIndexFrom_none sym rest (idx + 1)).1 h
      by_cases hv : v = sym
      · simp [hv, hn, eq_comm]
      · simp [hv]

theorem setLoop_known (segs : List String) :
    ∀ (idx : Nat) (el : List (String × Nat)),
      (∀ v ∈ segs, containsBrace v = true → ∃ name, (name, v) ∈ symbols) →
      (setLoop segs idx el).2 = none
      ∧ (∀ name sym, (name, sym) ∈ symbols →
          mapGet (setLoop segs idx el).1 name =
            match lastIndexFrom sym segs idx with
            | some i => some i
            | none => mapGet el name)
      ∧ (∀ name, (∀ sym, (name, sym) ∉ symbols) →
          mapGet (setLoop segs idx el).1 name = mapGet el name) := by
  induction segs with
  | nil => intro idx el _; simp [setLoop, lastIndexFrom]
  | cons v rest ih =>
    intro idx el hknown
    have hrest : ∀ w ∈ rest, containsBrace w = true → ∃ name, (name, w) ∈ symbols :=
      fun w hw => hknown w (List.mem_cons_of_mem _ hw)
    simp only [setLoop, lastIndexFrom]
    cases hf : findSymbol v with
    | some e =>
      obtain ⟨hmem, hv⟩ := findSymbol_some v e hf
      obtain ⟨h1, h2, h3⟩ := ih (idx + 1) (mapSet el e.1 idx) hrest
      refine ⟨h1, ?_, ?_⟩
      · intro name sym hsym
        rw [h2 name sym hsym]
        cases lastIndexFrom sym rest (idx + 1) with
        | some i => rfl
        | none =>
          simp only []
          rw [mapGet_mapSet]
          by_cases hn : name = e.1
          · have : e.2 = sym := symbols_sym_inj e.1 e.2 sym hmem (hn ▸ hsym)
            simp [hn, hv, this]
          · have hne : ¬ v = sym := by
              intro hvs
              apply hn
              have hm' : (e.1, sym) ∈ symbols := by
                have : e.2 = sym := hv.symm.trans hvs
                rw [← this]; exact hmem
              exact symbols_name_inj name e.1 sym hsym hm'
            simp [hn, hne]
      · intro name hno
        rw [h3 name hno, mapGet_mapSet]
        have hn : ¬ name = e.1 := by
          intro hn
          exact hno e.2 (hn ▸ hmem)
        simp [hn]
    | none =>
      have hb : containsBrace v = false := by
        cases hc : containsBrace v with
        | false => rfl
        | true =>
          obtain ⟨name, hname⟩ := hknown v (List.mem_cons_self _ _) hc
          exact absurd hname (findSymbol_none v hf name)
      obtain ⟨h1, h2, h3⟩ := ih (idx + 1) el hrest
      simp only [hb, Bool.false_eq_true, if_false]
      refine ⟨h1, ?_, h3⟩
      intro name sym hsym
      rw [h2 name sym hsym]
      cases lastIndexFrom sym rest (idx + 1) with
      | some i => rfl
      | none =>
        have hne : ¬ v = sym := by
          intro hvs
          exact findSymbol_none v hf name (hvs ▸ hsym)
        simp [hne]

theorem setLoop_none (segs : List String) :
    ∀ (idx : Nat) (el : List (String × Nat)),
      (setLoop segs idx el).2 = none →
        ∀ v ∈ segs, containsBrace v = true → ∃ name, (name, v) ∈ symbols := by
  induction segs with
  | nil => intro idx el _ v hv; simp at hv
  | cons w rest ih =>
    intro idx el h v hv hb
    simp only [setLoop] at h
    cases hf : findSymbol w with
    | some e =>
      rw [hf] at h
      obtain ⟨hmem, hw⟩ := findSymbol_some w e hf
      rcases List.mem_cons.1 hv with rfl | hv
      · exact ⟨e.1, by rw [hw]; exact hmem⟩
      · exact ih _ _ h v hv hb
    | none =>
      rw [hf] at h
      cases hc : containsBrace w with
      | true => simp [hc] at h
      | false =>
        simp only [hc, Bool.false_eq_true, if_false] at h
        rcases List.mem_cons.1 hv with rfl | hv
        · rw [hc] at hb; cases hb
        · exact ih _ _ h v hv hb

theorem SetTemplate_Element (t : NameTemplate) (s : String) :
    (SetTemplate t s).1.Element = (setLoop (splitDot s) 0 []).1 := by
  unfold SetTemplate
  rcases setLoop (splitDot s) 0 [] with ⟨el, _ | e⟩
  · simp only
    split <;> rfl
  · rfl

theorem mapGet_nil (name : String) : mapGet [] name = none := rfl

theorem mem_symbols_snd (v : String) :
    v ∈ symbols.map Prod.snd ↔ ∃ name, (name, v) ∈ symbols := by
  constructor
  · intro h
    obtain ⟨e, he, hv⟩ := List.mem_map.1 h
    exact ⟨e.1, by rw [← hv]; exact he⟩
  · rintro ⟨name, h⟩
    exact List.mem_map.2 ⟨(name, v), h, rfl⟩

theorem no_later_iff (l : List String) (sym : String) (i : Nat) :
    (∀ j, i < j → l[j]? ≠ some sym) ↔ sym ∉ l.drop (i + 1) := by
  constructor
  · intro h hmem
    obtain ⟨k, hk⟩ := List.mem_iff_getElem?.1 hmem
    rw [List.getElem?_drop] at hk
    exact h (i + 1 + k) (by omega) hk
  · intro h j hj hget
    apply h
    apply List.mem_iff_getElem?.2
    refine ⟨j - (i + 1), ?_⟩
    rw [List.getElem?_drop]
    have : i + 1 + (j - (i + 1)) = j := by omega
    rw [this]
    exact hget

/-- C19: after `SetTemplate(s)` on a template all of whose segments containing
an opening brace are known symbols, `Element` maps a symbol name to `i` exactly
when segment `i` of `s` is its symbol and no later segment is, has no entry for
a symbol name whose symbol is not a segment of `s`, and has no entry for any
other name; this does not depend on the error returned. -/
theorem SetTemplate_indexes (t : NameTemplate) (s : String)
    (hknown : ∀ v ∈ splitDot s, containsBrace v = true → v ∈ symbols.map Prod.snd) :
    (∀ name sym, (name, sym) ∈ symbols → ∀ i : Nat,
        (mapGet (SetTemplate t s).1.Element name = some i ↔
          ((splitDot s)[i]? = some sym ∧ sym ∉ (splitDot s).drop (i + 1))))
    ∧ (∀ name sym, (name, sym) ∈ symbols →
        (mapGet (SetTemplate t s).1.Element name = none ↔ sym ∉ splitDot s))
    ∧ (∀ name, name ∉ symbols.map Prod.fst →
        mapGet (SetTemplate t s).1.Element name = none) := by
  obtain ⟨_, h2, h3⟩ := setLoop_known (splitDot s) 0 []
    (fun v hv hb => (mem_symbols_snd v).1 (hknown v hv hb))
  rw [SetTemplate_Element]
  refine ⟨?_, ?_, ?_⟩
  · intro name sym hsym i
    rw [h2 name sym hsym, ← no_later_iff]
    have key := lastIndexFrom_some sym (splitDot s) 0 i
    cases hl : lastIndexFrom sym (splitDot s) 0 with
    | some i0 =>
      rw [hl] at key
      simp only []
      rw [key]
      constructor
      · rintro ⟨j, hj, h⟩
        have : i = j := by omega
        subst this
        exact h
      · intro h
        exact ⟨i, by omega, h⟩
    | none =>
      rw [hl] at key
      simp only [mapGet_nil]
      rw [key]
      constructor
      · rintro ⟨j, hj, h⟩
        have : i = j := by omega
        subst this
        exact h
      · intro h
        exact ⟨i, by omega, h⟩
  · intro name sym hsym
    rw [h2 name sym hsym, ← lastIndexFrom_none sym (splitDot s) 0]
    cases lastIndexFrom sym (splitDot s) 0 with
    | some i0 => simp
    | none => simp [mapGet_nil]
  · intro name hno
    rw [h3 name (fun sym hm => hno (List.mem_map.2 ⟨(name, sym), hm, rfl⟩))]
    rfl

/-- C19 on the templates of the test: zone is at index 2 for
`{service}.{namespace}.{zone}` and at index 1 for `{namespace}.{zone}`, which
does not pass validation. -/
theorem SetTemplate_indexes_witness :
    mapGet (SetTemplate NameTemplate.zero "{service}.{namespace}.{zone}").1.Element "zone"
      = some 2
    ∧ mapGet (SetTemplate NameTemplate.zero "{namespace}.{zone}").1.Element "zone" = some 1
    ∧ (SetTemplate NameTemplate.zero "{namespace}.{zone}").2
      = some "Record name template does not pass NameTemplate validation" :=
  ⟨((SetTemplate_indexes NameTemplate.zero "{service}.{namespace}.{zone}" (by decide)).1
      "zone" "{zone}" (by decide) 2).2 (by decide),
   ((SetTemplate_indexes NameTemplate.zero "{namespace}.{zone}" (by decide)).1
      "zone" "{zone}" (by decide) 1).2 (by decide),
   by decide⟩

/-! ## The error of `SetTemplate` -/

theorem setLoop_some (segs : List String) :
    ∀ (idx : Nat) (el : List (String × Nat)) (e : String),
      (setLoop segs idx el).2 = some e →
        ∃ v ∈ segs, containsBrace v = true ∧ v ∉ symbols.map Prod.snd ∧
          e = "Record name template contains the unknown symbol \x27" ++ v ++ "\x27" := by
  induction segs with
  | nil => intro idx el e h; simp [setLoop] at h
  | cons w rest ih =>
    intro idx el e h
    simp only [setLoop] at h
    cases hf : findSymbol w with
    | some f =>
      rw [hf] at h
      obtain ⟨v, hv, hrest⟩ := ih _ _ e h
      exact ⟨v, List.mem_cons_of_mem _ hv, hrest⟩
    | none =>
      rw [hf] at h
      cases hc : containsBrace w with
      | true =>
        simp only [hc, if_true, Option.some.injEq] at h
        refine ⟨w, List.mem_cons_self _ _, hc, ?_, h.symm⟩
        intro hm
        obtain ⟨name, hname⟩ := (mem_symbols_snd w).1 hm
        exact findSymbol_none w hf name hname
      | false =>
        simp only [hc, Bool.false_eq_true, if_false] at h
        obtain ⟨v, hv, hrest⟩ := ih _ _ e h
        exact ⟨v, List.mem_cons_of_mem _ hv, hrest⟩

theorem IsValid_iff (t : NameTemplate) :
    IsValid t = true ↔
      mapGet t.Element "namespace" ≠ none ∧ mapGet t.Element "service" ≠ none := by
  simp [IsValid, requiredSymbols, Option.isSome_iff_ne_none]

theorem SetTemplate_err (t : NameTemplate) (s : String) :
    (SetTemplate t s).2 =
      match (setLoop (splitDot s) 0 []).2 with
      | some e => some e
      | none =>
        if IsValid (SetTemplate t s).1 = false then
          some "Record name template does not pass NameTemplate validation"
        else none := by
  unfold SetTemplate
  rcases setLoop (splitDot s) 0 [] with ⟨el, _ | e⟩
  · simp only
    split <;> simp_all
  · rfl

theorem mapGet_ne_none_iff (s : String) (name sym : String) (hsym : (name, sym) ∈ symbols)
    (hknown : ∀ v ∈ splitDot s, containsBrace v = true → v ∈ symbols.map Prod.snd) :
    mapGet (setLoop (splitDot s) 0 []).1 name ≠ none ↔ sym ∈ splitDot s := by
  obtain ⟨_, h2, _⟩ := setLoop_known (splitDot s) 0 []
    (fun v hv hb => (mem_symbols_snd v).1 (hknown v hv hb))
  rw [h2 name sym hsym]
  have hn := lastIndexFrom_none sym (splitDot s) 0
  cases hl : lastIndexFrom sym (splitDot s) 0 with
  | some i0 =>
    rw [hl] at hn
    simp only [ne_eq, not_false_eq_true, true_iff, reduceCtorEq]
    by_contra hc
    have := hn.2 hc
    cases this
  | none =>
    rw [hl] at hn
    simp only [mapGet_nil, ne_eq, not_true_eq_false, false_iff]
    exact hn.1 rfl

/-- C20: `SetTemplate(s)` returns nil exactly when every segment of `s` that
contains an opening brace is one of the known symbols and both `{namespace}`
and `{service}` are segments of `s`; the error is otherwise the unknown-symbol
error for a segment of `s` or the validation error, which is what the empty
template gives. -/
theorem SetTemplate_nil_iff (t : NameTemplate) (s : String) :
    ((SetTemplate t s).2 = none ↔
        (∀ v ∈ splitDot s, containsBrace v = true → v ∈ symbols.map Prod.snd)
        ∧ "{namespace}" ∈ splitDot s ∧ "{service}" ∈ splitDot s)
    ∧ (∀ e, (SetTemplate t s).2 = some e →
        (∃ v ∈ splitDot s, containsBrace v = true ∧ v ∉ symbols.map Prod.snd ∧
            e = "Record name template contains the unknown symbol \x27" ++ v ++ "\x27")
        ∨ e = "Record name template does not pass NameTemplate validation")
    ∧ (SetTemplate t "").2 = some "Record name template does not pass NameTemplate validation" := by
  refine ⟨⟨?_, ?_⟩, ?_, rfl⟩
  · intro h
    rw [SetTemplate_err] at h
    cases hl : (setLoop (splitDot s) 0 []).2 with
    | some e => rw [hl] at h; cases h
    | none =>
      rw [hl] at h
      have hknown : ∀ v ∈ splitDot s, containsBrace v = true → v ∈ symbols.map Prod.snd :=
        fun v hv hb => (mem_symbols_snd v).2 (setLoop_none (splitDot s) 0 [] hl v hv hb)
      have hvalid : IsValid (SetTemplate t s).1 = true := by
        cases hv : IsValid (SetTemplate t s).1 with
        | true => rfl
        | false => rw [hv] at h; simp at h
      rw [IsValid_iff, SetTemplate_Element] at hvalid
      exact ⟨hknown,
        (mapGet_ne_none_iff s "namespace" "{namespace}" (by decide) hknown).1 hvalid.1,
        (mapGet_ne_none_iff s "service" "{service}" (by decide) hknown).1 hvalid.2⟩
  · rintro ⟨hknown, hns, hsv⟩
    rw [SetTemplate_err]
    have hl : (setLoop (splitDot s) 0 []).2 = none :=
      (setLoop_known (splitDot s) 0 []
        (fun v hv hb => (mem_symbols_snd v).1 (hknown v hv hb))).1
    have hvalid : IsValid (SetTemplate t s).1 = true := by
      rw [IsValid_iff, SetTemplate_Element]
      exact ⟨(mapGet_ne_none_iff s "namespace" "{namespace}" (by decide) hknown).2 hns,
        (mapGet_ne_none_iff s "service" "{service}" (by decide) hknown).2 hsv⟩
    rw [hl]
    simp [hvalid]
  · intro e h
    rw [SetTemplate_err] at h
    cases hl : (setLoop (splitDot s) 0 []).2 with
    | some e0 =>
      rw [hl] at h
      simp only [Option.some.injEq] at h
      subst h
      exact Or.inl (setLoop_some (splitDot s) 0 [] e0 hl)
    | none =>
      rw [hl] at h
      right
      by_cases hv : IsValid (SetTemplate t s).1 = false
      · simp only [hv, if_true, Option.some.injEq] at h
        exact h.symm
      · simp [hv] at h

/-- C20 on the templates of the test and on one with an unknown symbol. -/
theorem SetTemplate_nil_iff_witness :
    (SetTemplate NameTemplate.zero "{service}.{namespace}.{zone}").2 = none
    ∧ (SetTemplate NameTemplate.zero "{namespace}.{zone}").2 ≠ none
    ∧ (SetTemplate NameTemplate.zero "{service}.{namespace}.{pod}").2
      = some "Record name template contains the unknown symbol \x27{pod}\x27" :=
  ⟨(SetTemplate_nil_iff NameTemplate.zero "{service}.{namespace}.{zone}").1.2 (by decide),
   by decide, by decide⟩

end Nametemplate

namespace ProxyLookup

/-! ## `CheckDown` -/

theorem CheckDown_main (upstream : staticUpstream) (uh : UpstreamHost) :
    CheckDown upstream uh = true ↔
      uh.Unhealthy = true ∨ (upstream.MaxFails ≠ 0 ∧ uh.Fails ≥ upstream.MaxFails) := by
  unfold CheckDown
  by_cases hu : uh.Unhealthy = true
  · simp [hu]
  · by_cases hf : uh.Fails ≥ upstream.MaxFails ∧ upstream.MaxFails ≠ 0
    · simp [hu, hf]
    · rw [if_neg hu, if_neg hf]
      constructor
      · intro h; cases h
      · intro h
        rcases h with h | h
        · exact absurd h hu
        · exact absurd (And.intro h.2 h.1) hf

/-- C13: the `CheckDown` installed by `New` reports a host as down exactly when
its `Unhealthy` flag is set, or `MaxFails` of the upstream is not 0 and the
host's `Fails` is at least `MaxFails`; with `MaxFails = 0` only the flag
counts; and the upstream `New` builds has `MaxFails = 1`. -/
theorem CheckDown_iff (upstream : staticUpstream) (uh : UpstreamHost) :
    (CheckDown upstream uh = true ↔
        uh.Unhealthy = true ∨ (upstream.MaxFails ≠ 0 ∧ uh.Fails ≥ upstream.MaxFails))
    ∧ (upstream.MaxFails = 0 → (CheckDown upstream uh = true ↔ uh.Unhealthy = true))
    ∧ (∀ hosts : List String, ∀ up ∈ (New hosts).Upstreams, up.MaxFails = 1 ∧
        (CheckDown up uh = true ↔ uh.Unhealthy = true ∨ uh.Fails ≥ 1)) := by
  have main : ∀ up : staticUpstream, CheckDown up uh = true ↔
      uh.Unhealthy = true ∨ (up.MaxFails ≠ 0 ∧ uh.Fails ≥ up.MaxFails) := by
    intro up
    unfold CheckDown
    by_cases hu : uh.Unhealthy = true
    · simp [hu]
    · by_cases hf : uh.Fails ≥ up.MaxFails ∧ up.MaxFails ≠ 0
      · simp [hu, hf]
      · rw [if_neg hu, if_neg hf]
        constructor
        · intro h; cases h
        · intro h
          rcases h with h | h
          · exact absurd h hu
          · exact absurd (And.intro h.2 h.1) hf
  refine ⟨main upstream, ?_, ?_⟩
  · intro h0
    rw [main upstream]
    simp [h0]
  · intro hosts up hup
    have : up.MaxFails = 1 := by
      simp only [New, List.mem_singleton] at hup
      rw [hup]
      rfl
    refine ⟨this, ?_⟩
    rw [main up, this]
    simp

/-- C13 on a host of the upstream `New` builds: up with no failure, down with one. -/
theorem CheckDown_iff_witness :
    CheckDown { Hosts := [], Policy := Policy.Random, FailTimeout := 10 * second, MaxFails := 1 }
        { Name := "10.0.0.53:53", Conns := 0, Fails := 1, FailTimeout := 10 * second,
          Unhealthy := false } = true
    ∧ CheckDown { Hosts := [], Policy := Policy.Random, FailTimeout := 10 * second, MaxFails := 0 }
        { Name := "10.0.0.53:53", Conns := 0, Fails := 1, FailTimeout := 10 * second,
          Unhealthy := false } = false :=
  ⟨(CheckDown_iff
      { Hosts := [], Policy := Policy.Random, FailTimeout := 10 * second, MaxFails := 1 }
      { Name := "10.0.0.53:53", Conns := 0, Fails := 1, FailTimeout := 10 * second,
        Unhealthy := false }).1.2 (Or.inr ⟨by decide, by decide⟩),
   by decide⟩

/-! ## The pool of hosts -/

theorem updateHost_get (f : UpstreamHost → UpstreamHost) (hosts : List UpstreamHost) :
    ∀ i j : Nat, (updateHost f hosts i)[j]? =
      if j = i then (hosts[j]?).map f else hosts[j]? := by
  induction hosts with
  | nil => intro i j; simp [updateHost]
  | cons h rest ih =>
    intro i j
    cases i with
    | zero =>
      cases j with
      | zero => simp [updateHost]
      | succ j => simp [updateHost]
    | succ i =>
      cases j with
      | zero => simp [updateHost]
      | succ j => simp [updateHost, ih i j]

theorem updateHost_length (f : UpstreamHost → UpstreamHost) (hosts : List UpstreamHost) :
    ∀ i : Nat, (updateHost f hosts i).length = hosts.length := by
  induction hosts with
  | nil => intro i; simp [updateHost]
  | cons h rest ih =>
    intro i
    cases i with
    | zero => simp [updateHost]
    | succ i => simp [updateHost, ih i]

theorem pending_append (ts : List Timer) (t : Timer) (i : Nat) :
    pending (ts ++ [t]) i = pending ts i + (if t.host = i then 1 else 0) := by
  unfold pending
  by_cases h : t.host = i <;> simp [List.filter_append, List.filter_cons, h]

theorem pending_eraseIdx (ts : List Timer) (i : Nat) :
    ∀ (j : Nat) (t : Timer), ts[j]? = some t →
      pending ts i = pending (ts.eraseIdx j) i + (if t.host = i then 1 else 0) := by
  induction ts with
  | nil => intro j t h; simp at h
  | cons s rest ih =>
    intro j t h
    cases j with
    | zero =>
      simp only [List.getElem?_cons_zero, Option.some.injEq] at h
      subst h
      unfold pending
      by_cases hs : s.host = i <;> simp [List.filter_cons, hs]
    | succ j =>
      have h' : rest[j]? = some t := by simpa using h
      have := ih j t h'
      unfold pending at this ⊢
      by_cases hs : s.host = i
      · simp only [List.eraseIdx_cons_succ, List.filter_cons, hs, decide_True, if_true,
          List.length_cons]
        omega
      · simp only [List.eraseIdx_cons_succ, List.filter_cons, hs, decide_False]
        simpa using this

theorem wrapInt32_add (x d : Int) : wrapInt32 (wrapInt32 x + d) = wrapInt32 (x + d) := by
  unfold wrapInt32
  omega

theorem wrapInt32_id (x : Int) (h1 : -2147483648 ≤ x) (h2 : x < 2147483648) :
    wrapInt32 x = x := by
  unfold wrapInt32
  omega

theorem addConns_get (d : Int) (hosts : List UpstreamHost) (i j : Nat) (h' : UpstreamHost)
    (hget : (addConns d hosts i)[j]? = some h') :
    ∃ h, hosts[j]? = some h ∧ h'.Fails = h.Fails ∧ h'.Name = h.Name
      ∧ h'.FailTimeout = h.FailTimeout ∧ h'.Unhealthy = h.Unhealthy := by
  unfold addConns at hget
  rw [updateHost_get] at hget
  by_cases hji : j = i
  · rw [if_pos hji] at hget
    cases hh : hosts[j]? with
    | none => rw [hh] at hget; simp at hget
    | some h =>
      rw [hh] at hget
      simp only [Option.map_some', Option.some.injEq] at hget
      subst hget
      exact ⟨h, rfl, rfl, rfl, rfl, rfl⟩
  · rw [if_neg hji] at hget
    exact ⟨h', hget, rfl, rfl, rfl, rfl⟩

theorem addFails_get (d : Int) (hosts : List UpstreamHost) (i j : Nat) (h' : UpstreamHost)
    (hget : (addFails d hosts i)[j]? = some h') :
    ∃ h, hosts[j]? = some h
      ∧ h'.Fails = (if j = i then wrapInt32 (h.Fails + d) else h.Fails)
      ∧ h'.Name = h.Name ∧ h'.FailTimeout = h.FailTimeout ∧ h'.Unhealthy = h.Unhealthy
      ∧ h'.Conns = h.Conns := by
  unfold addFails at hget
  rw [updateHost_get] at hget
  by_cases hji : j = i
  · rw [if_pos hji] at hget
    cases hh : hosts[j]? with
    | none => rw [hh] at hget; simp at hget
    | some h =>
      rw [hh] at hget
      simp only [Option.map_some', Option.some.injEq] at hget
      subst hget
      exact ⟨h, rfl, by simp [hji], rfl, rfl, rfl, rfl⟩
  · rw [if_neg hji] at hget
    exact ⟨h', hget, by simp [hji], rfl, rfl, rfl, rfl⟩

theorem counted_fire (f0 : Nat → Int) (p : Pool) (j : Nat) (hinv : counted f0 p) :
    counted f0 (fire p j) := by
  unfold fire
  cases ht : p.timers[j]? with
  | none => exact hinv
  | some t =>
    intro i h' hget
    simp only at hget ⊢
    obtain ⟨h, hh, hf, _⟩ := addFails_get (-1) p.hosts t.host i h' hget
    have hcount := pending_eraseIdx p.timers i j t ht
    have hold := hinv i h hh
    rw [hf, hold]
    by_cases hi : i = t.host
    · have hi' : t.host = i := hi.symm
      rw [if_pos hi, wrapInt32_add]
      rw [if_pos hi'] at hcount
      congr 1
      omega
    · have hi' : ¬ t.host = i := fun e => hi e.symm
      rw [if_neg hi]
      rw [if_neg hi'] at hcount
      congr 2
      omega

theorem counted_fireAll (f0 : Nat → Int) (js : List Nat) :
    ∀ p : Pool, counted f0 p → counted f0 (fireAll p js) := by
  induction js with
  | nil => intro p h; exact h
  | cons j rest ih =>
    intro p h
    exact ih (fire p j) (counted_fire f0 p j h)

theorem step_cases (w : World) (proto : String) (start : Int) (k : Nat) (p : Pool) :
    (¬ (w.now k - start < tryDuration) ∧
        step w proto start k p
          = Step.ret none (some Error.errUnreachable) (fireAll p (w.wake k)) none)
    ∨ (w.now k - start < tryDuration ∧ w.select k (fireAll p (w.wake k)).hosts = none ∧
        step w proto start k p
          = Step.ret none (some Error.errUnreachable) (fireAll p (w.wake k)) none)
    ∨ (w.now k - start < tryDuration ∧
        ∃ i, w.select k (fireAll p (w.wake k)).hosts = some i ∧
          (fireAll p (w.wake k)).hosts[i]? = none ∧
          step w proto start k p
            = Step.ret none (some Error.errUnreachable) (fireAll p (w.wake k)) none)
    ∨ (w.now k - start < tryDuration ∧
        ∃ i host reply, w.select k (fireAll p (w.wake k)).hosts = some i ∧
          (fireAll p (w.wake k)).hosts[i]? = some host ∧
          w.exchange k (decide (proto = "tcp")) host.Name = (reply, none) ∧
          step w proto start k p
            = Step.ret reply none
                { hosts := addConns (-1) (addConns 1 (fireAll p (w.wake k)).hosts i) i,
                  timers := (fireAll p (w.wake k)).timers }
                (some { iteration := k, host := i, tcp := decide (proto = "tcp"),
                        reply := reply, err := none }))
    ∨ (w.now k - start < tryDuration ∧
        ∃ i host reply e, w.select k (fireAll p (w.wake k)).hosts = some i ∧
          (fireAll p (w.wake k)).hosts[i]? = some host ∧
          w.exchange k (decide (proto = "tcp")) host.Name = (reply, some e) ∧
          step w proto start k p
            = Step.next
                { hosts := addFails 1
                    (addConns (-1) (addConns 1 (fireAll p (w.wake k)).hosts i) i) i,
                  timers := (fireAll p (w.wake k)).timers ++
                    [{ host := i,
                       sleep := if host.FailTimeout = 0 then 10 * second
                                else host.FailTimeout }] }
                { iteration := k, host := i, tcp := decide (proto = "tcp"),
                  reply := reply, err := some e }) := by
  by_cases hw : w.now k - start < tryDuration
  · right
    cases hs : w.select k (fireAll p (w.wake k)).hosts with
    | none =>
      left
      refine ⟨hw, rfl, ?_⟩
      unfold step
      rw [if_pos hw]
      simp only [hs]
    | some i =>
      right
      cases hh : (fireAll p (w.wake k)).hosts[i]? with
      | none =>
        left
        refine ⟨hw, i, rfl, hh, ?_⟩
        unfold step
        rw [if_pos hw]
        simp only [hs, hh]
      | some host =>
        right
        rcases hx : w.exchange k (decide (proto = "tcp")) host.Name with ⟨reply, _ | e⟩
        · left
          refine ⟨hw, i, host, reply, rfl, hh, hx, ?_⟩
          unfold step
          rw [if_pos hw]
          simp only [hs, hh, hx]
        · right
          refine ⟨hw, i, host, reply, e, rfl, hh, hx, ?_⟩
          unfold step
          rw [if_pos hw]
          simp only [hs, hh, hx]
  · left
    refine ⟨hw, ?_⟩
    unfold step
    rw [if_neg hw]

theorem step_next_effect (w : World) (proto : String) (start : Int) (k : Nat) (p pool : Pool)
    (made : Attempt) (h : step w proto start k p = Step.next pool made) :
    w.now k - start < tryDuration
    ∧ made.err ≠ none ∧ made.iteration = k ∧ made.tcp = decide (proto = "tcp")
    ∧ w.select k (fireAll p (w.wake k)).hosts = some made.host
    ∧ ∃ host, (fireAll p (w.wake k)).hosts[made.host]? = some host
      ∧ (made.reply, made.err) = w.exchange k made.tcp host.Name
      ∧ pool.timers = (fireAll p (w.wake k)).timers ++
          [{ host := made.host,
             sleep := if host.FailTimeout = 0 then 10 * second else host.FailTimeout }]
      ∧ pool.hosts = addFails 1
          (addConns (-1) (addConns 1 (fireAll p (w.wake k)).hosts made.host) made.host)
          made.host := by
  rcases step_cases w proto start k p with
    ⟨_, hs⟩ | ⟨_, _, hs⟩ | ⟨_, _, _, _, hs⟩ | ⟨_, _, _, _, _, _, _, hs⟩
      | ⟨hw, i, host, reply, e, hsel, hh, hx, hs⟩
  · rw [hs] at h; cases h
  · rw [hs] at h; cases h
  · rw [hs] at h; cases h
  · rw [hs] at h; cases h
  · rw [hs] at h
    injection h with h1 h2
    subst h1 h2
    exact ⟨hw, by simp, rfl, rfl, hsel, host, hh, hx.symm, rfl, rfl⟩

theorem step_ret_effect (w : World) (proto : String) (start : Int) (k : Nat) (p pool : Pool)
    (reply : Option Msg) (err : Option Error) (made : Option Attempt)
    (h : step w proto start k p = Step.ret reply err pool made) :
    pool.timers = (fireAll p (w.wake k)).timers
    ∧ ((err = some Error.errUnreachable ∧ reply = none ∧ made = none
          ∧ pool = fireAll p (w.wake k)
          ∧ (¬ (w.now k - start < tryDuration)
              ∨ w.select k (fireAll p (w.wake k)).hosts = none
              ∨ ∃ i, w.select k (fireAll p (w.wake k)).hosts = some i
                  ∧ (fireAll p (w.wake k)).hosts[i]? = none))
      ∨ (err = none ∧ w.now k - start < tryDuration ∧ ∃ a host, made = some a ∧ a.err = none
          ∧ a.reply = reply ∧ a.iteration = k ∧ a.tcp = decide (proto = "tcp")
          ∧ w.select k (fireAll p (w.wake k)).hosts = some a.host
          ∧ (fireAll p (w.wake k)).hosts[a.host]? = some host
          ∧ (reply, none) = w.exchange k a.tcp host.Name
          ∧ pool.hosts
              = addConns (-1) (addConns 1 (fireAll p (w.wake k)).hosts a.host) a.host)) := by
  rcases step_cases w proto start k p with
    ⟨hw, hs⟩ | ⟨_, hsel, hs⟩ | ⟨_, i, hsel, hh, hs⟩ | ⟨hw, i, host, reply', hsel, hh, hx, hs⟩
      | ⟨_, _, _, _, _, _, _, _, hs⟩
  · rw [hs] at h
    injection h with h1 h2 h3 h4
    subst h1 h2 h3 h4
    exact ⟨rfl, Or.inl ⟨rfl, rfl, rfl, rfl, Or.inl hw⟩⟩
  · rw [hs] at h
    injection h with h1 h2 h3 h4
    subst h1 h2 h3 h4
    exact ⟨rfl, Or.inl ⟨rfl, rfl, rfl, rfl, Or.inr (Or.inl hsel)⟩⟩
  · rw [hs] at h
    injection h with h1 h2 h3 h4
    subst h1 h2 h3 h4
    exact ⟨rfl, Or.inl ⟨rfl, rfl, rfl, rfl, Or.inr (Or.inr ⟨i, hsel, hh⟩)⟩⟩
  · rw [hs] at h
    injection h with h1 h2 h3 h4
    subst h1 h2 h3 h4
    exact ⟨rfl, Or.inr ⟨rfl, hw, _, host, rfl, rfl, rfl, rfl, rfl, hsel, hh, hx.symm, rfl⟩⟩
  · rw [hs] at h; cases h

theorem counted_step_next (f0 : Nat → Int) (w : World) (proto : String) (start : Int) (k : Nat)
    (p pool : Pool) (made : Attempt) (hinv : counted f0 p)
    (h : step w proto start k p = Step.next pool made) : counted f0 pool := by
  obtain ⟨_, _, _, _, _, host, _, _, ht, hh⟩ := step_next_effect w proto start k p pool made h
  have hq := counted_fireAll f0 (w.wake k) p hinv
  intro i h' hget
  rw [hh] at hget
  obtain ⟨h1, hg1, hf1, _⟩ := addFails_get 1 _ made.host i h' hget
  obtain ⟨h2, hg2, hf2, _⟩ := addConns_get (-1) _ made.host i h1 hg1
  obtain ⟨h3, hg3, hf3, _⟩ := addConns_get 1 _ made.host i h2 hg2
  have hold := hq i h3 hg3
  rw [ht, pending_append, hf1, hf2, hf3, hold]
  by_cases hi : i = made.host
  · have hi' : made.host = i := hi.symm
    simp only [hi, if_true, wrapInt32_add]
    congr 1
    simp
    omega
  · have hi' : ¬ made.host = i := fun e => hi e.symm
    simp only [hi, hi', if_false]
    congr 1

theorem counted_step_ret (f0 : Nat → Int) (w : World) (proto : String) (start : Int) (k : Nat)
    (p pool : Pool) (reply : Option Msg) (err : Option Error) (made : Option Attempt)
    (hinv : counted f0 p) (h : step w proto start k p = Step.ret reply err pool made) :
    counted f0 pool := by
  obtain ⟨ht, hcase⟩ := step_ret_effect w proto start k p pool reply err made h
  have hq := counted_fireAll f0 (w.wake k) p hinv
  rcases hcase with ⟨_, _, _, hp, _⟩ | ⟨_, _, a, host, _, _, _, _, _, _, _, _, hh⟩
  · rw [hp]; exact hq
  · intro i h' hget
    rw [hh] at hget
    obtain ⟨h2, hg2, hf2, _⟩ := addConns_get (-1) _ a.host i h' hget
    obtain ⟨h3, hg3, hf3, _⟩ := addConns_get 1 _ a.host i h2 hg2
    rw [ht, hf2, hf3]
    exact hq i h3 hg3

theorem counted_tryLoop (f0 : Nat → Int) (w : World) (proto : String) (start : Int) :
    ∀ (fuel k : Nat) (p : Pool) (trace : List Attempt) (run : Run),
      counted f0 p → tryLoop w proto start fuel k p trace = some run → counted f0 run.pool := by
  intro fuel
  induction fuel with
  | zero => intro k p trace run _ h; simp [tryLoop] at h
  | succ fuel ih =>
    intro k p trace run hinv h
    simp only [tryLoop] at h
    cases hs : step w proto start k p with
    | ret reply err pool made =>
      rw [hs] at h
      simp only [Option.some.injEq] at h
      subst h
      exact counted_step_ret f0 w proto start k p pool reply err made hinv hs
    | next pool made =>
      rw [hs] at h
      exact ih (k + 1) pool _ run (counted_step_next f0 w proto start k p pool made hinv hs) h

theorem counted_New (hosts : List String) :
    ∀ up ∈ (New hosts).Upstreams, counted (fun _ => 0) { hosts := up.Hosts, timers := [] } := by
  intro up hup i h hget
  simp only [New, List.mem_singleton] at hup
  subst hup
  simp only [newUpstream, List.getElem?_map] at hget
  cases hh : hosts[i]? with
  | none => rw [hh] at hget; simp at hget
  | some name =>
    rw [hh] at hget
    simp only [Option.map_some', Option.some.injEq] at hget
    subst hget
    simp [pending, wrapInt32]

theorem addFails_self (d : Int) (hosts : List UpstreamHost) (i : Nat) (h : UpstreamHost)
    (hget : hosts[i]? = some h) :
    ∃ h', (addFails d hosts i)[i]? = some h' ∧ h'.Fails = wrapInt32 (h.Fails + d) := by
  unfold addFails
  rw [updateHost_get, if_pos rfl, hget]
  exact ⟨_, rfl, rfl⟩

theorem addConns_self (d : Int) (hosts : List UpstreamHost) (i : Nat) (h : UpstreamHost)
    (hget : hosts[i]? = some h) :
    ∃ h', (addConns d hosts i)[i]? = some h' ∧ h'.Fails = h.Fails := by
  unfold addConns
  rw [updateHost_get, if_pos rfl, hget]
  exact ⟨_, rfl, rfl⟩

theorem step_failed (w : World) (proto : String) (start : Int) (k : Nat) (p : Pool) (i : Nat)
    (host : UpstreamHost) (reply : Option Msg) (e : Error)
    (hw : w.now k - start < tryDuration)
    (hsel : w.select k (fireAll p (w.wake k)).hosts = some i)
    (hget : (fireAll p (w.wake k)).hosts[i]? = some host)
    (hex : w.exchange k (decide (proto = "tcp")) host.Name = (reply, some e)) :
    step w proto start k p
      = Step.next
          { hosts := addFails 1
              (addConns (-1) (addConns 1 (fireAll p (w.wake k)).hosts i) i) i,
            timers := (fireAll p (w.wake k)).timers ++
              [{ host := i,
                 sleep := if host.FailTimeout = 0 then 10 * second else host.FailTimeout }] }
          { iteration := k, host := i, tcp := decide (proto = "tcp"),
            reply := reply, err := some e } := by
  unfold step
  rw [if_pos hw, hsel]
  simp only
  rw [hget]
  simp only
  rw [hex]

theorem step_succeeded (w : World) (proto : String) (start : Int) (k : Nat) (p : Pool) (i : Nat)
    (host : UpstreamHost) (reply : Option Msg)
    (hw : w.now k - start < tryDuration)
    (hsel : w.select k (fireAll p (w.wake k)).hosts = some i)
    (hget : (fireAll p (w.wake k)).hosts[i]? = some host)
    (hex : w.exchange k (decide (proto = "tcp")) host.Name = (reply, none)) :
    step w proto start k p
      = Step.ret reply none
          { hosts := addConns (-1) (addConns 1 (fireAll p (w.wake k)).hosts i) i,
            timers := (fireAll p (w.wake k)).timers }
          (some { iteration := k, host := i, tcp := decide (proto = "tcp"),
                  reply := reply, err := none }) := by
  unfold step
  rw [if_pos hw, hsel]
  simp only
  rw [hget]
  simp only
  rw [hex]

/-! ## The fail counter -/

/-- C14: in an iteration of `lookup` whose exchange fails, the fail counter of
the selected host goes up by exactly 1 (in the 32-bit arithmetic of the
counter), the other counters stay, and exactly one goroutine is started that
sleeps for the host's `FailTimeout` (10 seconds when that is 0) before it takes
the 1 off again; an iteration that returns changes no counter and starts no
goroutine. Hence, from a pool whose counters are their initial values plus the
number of sleeping goroutines, every run of the loop and every waking of
goroutines leaves such a pool; the counter is the plain sum when that fits in
32 bits, and the initial value when no goroutine is asleep. Every exchange that
fails inside the window is such an iteration: the loop goes on with the
counter of the selected host one higher and one more goroutine asleep; every
exchange that succeeds returns with the counter as it was. The goroutines whose
sleep is over finish one after the other before the `Select`, and the loop
runs the iterations one after the other until one returns. -/
theorem fail_counter (f0 : Nat → Int) (w : World) (proto : String) (start : Int) (k : Nat)
    (p : Pool) (hinv : counted f0 p) :
    (∀ pool made, step w proto start k p = Step.next pool made →
        made.err ≠ none
        ∧ ∃ host, (fireAll p (w.wake k)).hosts[made.host]? = some host
          ∧ pool.timers = (fireAll p (w.wake k)).timers ++
              [{ host := made.host,
                 sleep := if host.FailTimeout = 0 then 10 * second else host.FailTimeout }]
          ∧ ∀ (j : Nat) (h' : UpstreamHost), pool.hosts[j]? = some h' →
              ∃ h, (fireAll p (w.wake k)).hosts[j]? = some h
                ∧ h'.Fails = if j = made.host then wrapInt32 (h.Fails + 1) else h.Fails)
    ∧ (∀ reply err pool made, step w proto start k p = Step.ret reply err pool made →
        pool.timers = (fireAll p (w.wake k)).timers
        ∧ ∀ (j : Nat) (h' : UpstreamHost), pool.hosts[j]? = some h' →
            ∃ h, (fireAll p (w.wake k)).hosts[j]? = some h ∧ h'.Fails = h.Fails)
    ∧ (∀ j t, p.timers[j]? = some t →
        (fire p j).timers = p.timers.eraseIdx j
        ∧ (fire p j).hosts = addFails (-1) p.hosts t.host)
    ∧ (∀ fuel trace run, tryLoop w proto start fuel k p trace = some run →
        counted f0 run.pool)
    ∧ (∀ js, counted f0 (fireAll p js))
    ∧ (∀ i h, p.hosts[i]? = some h → -2147483648 ≤ f0 i + pending p.timers i →
        f0 i + pending p.timers i < 2147483648 → h.Fails = f0 i + pending p.timers i)
    ∧ (p.timers = [] → ∀ i h, p.hosts[i]? = some h → -2147483648 ≤ f0 i →
        f0 i < 2147483648 → h.Fails = f0 i)
    ∧ (∀ (i : Nat) (host : UpstreamHost) (reply : Option Msg) (e : Error),
        w.now k - start < tryDuration →
        w.select k (fireAll p (w.wake k)).hosts = some i →
        (fireAll p (w.wake k)).hosts[i]? = some host →
        w.exchange k (decide (proto = "tcp")) host.Name = (reply, some e) →
        step w proto start k p
          = Step.next
              { hosts := addFails 1
                  (addConns (-1) (addConns 1 (fireAll p (w.wake k)).hosts i) i) i,
                timers := (fireAll p (w.wake k)).timers ++
                  [{ host := i,
                     sleep := if host.FailTimeout = 0 then 10 * second
                              else host.FailTimeout }] }
              { iteration := k, host := i, tcp := decide (proto = "tcp"),
                reply := reply, err := some e }
        ∧ ∃ h', (addFails 1
                  (addConns (-1) (addConns 1 (fireAll p (w.wake k)).hosts i) i) i)[i]?
                = some h'
            ∧ h'.Fails = wrapInt32 (host.Fails + 1))
    ∧ (∀ (i : Nat) (host : UpstreamHost) (reply : Option Msg),
        w.now k - start < tryDuration →
        w.select k (fireAll p (w.wake k)).hosts = some i →
        (fireAll p (w.wake k)).hosts[i]? = some host →
        w.exchange k (decide (proto = "tcp")) host.Name = (reply, none) →
        step w proto start k p
          = Step.ret reply none
              { hosts := addConns (-1) (addConns 1 (fireAll p (w.wake k)).hosts i) i,
                timers := (fireAll p (w.wake k)).timers }
              (some { iteration := k, host := i, tcp := decide (proto = "tcp"),
                      reply := reply, err := none })
        ∧ ∃ h', (addConns (-1) (addConns 1 (fireAll p (w.wake k)).hosts i) i)[i]? = some h'
            ∧ h'.Fails = host.Fails)
    ∧ (∀ q : Pool, fireAll q [] = q
        ∧ ∀ (j : Nat) (js : List Nat), fireAll q (j :: js) = fireAll (fire q j) js)
    ∧ (∀ (fuel : Nat) (trace : List Attempt) (pool : Pool) (made : Attempt),
        step w proto start k p = Step.next pool made →
        tryLoop w proto start (fuel + 1) k p trace
          = tryLoop w proto start fuel (k + 1) pool (trace ++ [made]))
    ∧ (∀ (fuel : Nat) (trace : List Attempt) (reply : Option Msg) (err : Option Error)
        (pool : Pool) (made : Option Attempt),
        step w proto start k p = Step.ret reply err pool made →
        tryLoop w proto start (fuel + 1) k p trace
          = some { reply := reply, err := err, pool := pool,
                   trace := trace ++ made.toList }) := by
  refine ⟨?_, ?_, ?_, ?_, ?_, ?_, ?_, ?_, ?_, ?_, ?_, ?_⟩
  · intro pool made h
    obtain ⟨_, herr, _, _, _, host, hh, _, ht, hhosts⟩ :=
      step_next_effect w proto start k p pool made h
    refine ⟨herr, host, hh, ht, ?_⟩
    intro j h' hget
    rw [hhosts] at hget
    obtain ⟨h1, hg1, hf1, _⟩ := addFails_get 1 _ made.host j h' hget
    obtain ⟨h2, hg2, hf2, _⟩ := addConns_get (-1) _ made.host j h1 hg1
    obtain ⟨h3, hg3, hf3, _⟩ := addConns_get 1 _ made.host j h2 hg2
    exact ⟨h3, hg3, by rw [hf1, hf2, hf3]⟩
  · intro reply err pool made h
    obtain ⟨ht, hcase⟩ := step_ret_effect w proto start k p pool reply err made h
    refine ⟨ht, ?_⟩
    rcases hcase with ⟨_, _, _, hp, _⟩ | ⟨_, _, a, host, _, _, _, _, _, _, _, _, hh⟩
    · intro j h' hget
      rw [hp] at hget
      exact ⟨h', hget, rfl⟩
    · intro j h' hget
      rw [hh] at hget
      obtain ⟨h2, hg2, hf2, _⟩ := addConns_get (-1) _ a.host j h' hget
      obtain ⟨h3, hg3, hf3, _⟩ := addConns_get 1 _ a.host j h2 hg2
      exact ⟨h3, hg3, by rw [hf2, hf3]⟩
  · intro j t ht
    simp [fire, ht]
  · intro fuel trace run h
    exact counted_tryLoop f0 w proto start fuel k p trace run hinv h
  · intro js
    exact counted_fireAll f0 js p hinv
  · intro i h hget h1 h2
    rw [hinv i h hget]
    exact wrapInt32_id _ h1 h2
  · intro ht i h hget h1 h2
    rw [hinv i h hget, ht]
    simp only [pending, List.filter_nil, List.length_nil, Nat.cast_zero, add_zero]
    exact wrapInt32_id _ h1 h2
  · intro i host reply e hw hsel hget hex
    refine ⟨step_failed w proto start k p i host reply e hw hsel hget hex, ?_⟩
    obtain ⟨h1, hg1, hf1⟩ := addConns_self 1 _ i host hget
    obtain ⟨h2, hg2, hf2⟩ := addConns_self (-1) _ i h1 hg1
    obtain ⟨h3, hg3, hf3⟩ := addFails_self 1 _ i h2 hg2
    exact ⟨h3, hg3, by rw [hf3, hf2, hf1]⟩
  · intro i host reply hw hsel hget hex
    refine ⟨step_succeeded w proto start k p i host reply hw hsel hget hex, ?_⟩
    obtain ⟨h1, hg1, hf1⟩ := addConns_self 1 _ i host hget
    obtain ⟨h2, hg2, hf2⟩ := addConns_self (-1) _ i h1 hg1
    exact ⟨h2, hg2, by rw [hf2, hf1]⟩
  · intro q
    exact ⟨rfl, fun _ _ => rfl⟩
  · intro fuel trace pool made h
    simp only [tryLoop, h]
  · intro fuel trace reply err pool made h
    simp only [tryLoop, h]

/-- C14 on the proxy `New` builds for two hosts: the exchange of iteration 1
fails, so host 0 ends the lookup with one failure and one goroutine asleep for
10 seconds; when that goroutine wakes, the counter is 0 again. -/
theorem fail_counter_witness :
    (lookup (flakyWorld (newUpstream ["10.0.0.53:53", "10.0.0.54:53"])) "udp" 5
        (New ["10.0.0.53:53", "10.0.0.54:53"]) []).map
        (fun out => (out.timers, out.Upstreams.map (fun u => u.Hosts.map (fun h => h.Fails))))
      = some ([{ host := 0, sleep := 10 * second }], [[1, 0]])
    ∧ (fire { hosts := addFails 1 (newUpstream ["10.0.0.53:53", "10.0.0.54:53"]).Hosts 0,
              timers := [{ host := 0, sleep := 10 * second }] } 0).hosts.map (fun h => h.Fails)
      = [0, 0]
    ∧ counted (fun _ => 0)
        (fireAll { hosts := (newUpstream ["10.0.0.53:53", "10.0.0.54:53"]).Hosts,
                   timers := [] } [0]) :=
  ⟨by decide, by decide,
   (fail_counter (fun _ => 0) (flakyWorld (newUpstream ["10.0.0.53:53", "10.0.0.54:53"]))
      "udp" 0 1
      { hosts := (newUpstream ["10.0.0.53:53", "10.0.0.54:53"]).Hosts, timers := [] }
      (counted_New ["10.0.0.53:53", "10.0.0.54:53"] _ (by decide))).2.2.2.2.1 [0]⟩

/-! ## What `lookup` returns -/

theorem tryLoop_result (w : World) (proto : String) (start : Int) :
    ∀ (fuel k : Nat) (p : Pool) (trace : List Attempt) (run : Run),
      tryLoop w proto start fuel k p trace = some run →
        (run.err = none ∧ ∃ a, run.trace.getLast? = some a ∧ a.err = none
            ∧ a.reply = run.reply)
        ∨ (run.reply = none ∧ run.err = some Error.errUnreachable) := by
  intro fuel
  induction fuel with
  | zero => intro k p trace run h; simp [tryLoop] at h
  | succ fuel ih =>
    intro k p trace run h
    simp only [tryLoop] at h
    cases hs : step w proto start k p with
    | ret reply err pool made =>
      rw [hs] at h
      simp only [Option.some.injEq] at h
      subst h
      obtain ⟨_, hcase⟩ := step_ret_effect w proto start k p pool reply err made hs
      rcases hcase with ⟨he, hr, _⟩ | ⟨he, _, a, host, hm, hae, har, _⟩
      · exact Or.inr ⟨hr, he⟩
      · left
        refine ⟨he, a, ?_, hae, har⟩
        simp [hm]
    | next pool made =>
      rw [hs] at h
      exact ih (k + 1) pool _ run h

theorem tryLoop_returns (w : World) (proto : String) (start : Int) (K : Nat)
    (hK : tryDuration ≤ w.now K - start) :
    ∀ (fuel k : Nat) (p : Pool) (trace : List Attempt), k ≤ K → K < k + fuel →
      ∃ run, tryLoop w proto start fuel k p trace = some run := by
  intro fuel
  induction fuel with
  | zero => intro k p trace h1 h2; omega
  | succ fuel ih =>
    intro k p trace h1 h2
    simp only [tryLoop]
    cases hs : step w proto start k p with
    | ret reply err pool made => exact ⟨_, rfl⟩
    | next pool made =>
      simp only
      obtain ⟨hw, _⟩ := step_next_effect w proto start k p pool made hs
      have hk : k ≠ K := by
        intro e
        rw [e] at hw
        omega
      exact ih (k + 1) pool _ (by omega) (by omega)

/-- C15: `lookup` returns either `(reply, nil)`, where `reply` is the reply of
the last exchange made, which succeeded, or `(nil, errUnreachable)`; it never
returns the error of an exchange. An empty list of upstreams gives
`(nil, errUnreachable)`, and so does every iteration in which the window has
elapsed or `Select` yields no host. The call returns: once the clock has
passed the window at its `K`-th reading, `K` iterations are enough. -/
theorem lookup_result (w : World) (proto : String) (p : Proxy) (timers : List Timer) :
    (∀ fuel out, lookup w proto fuel p timers = some out →
        (out.err = none ∧ ∃ a, out.trace.getLast? = some a ∧ a.err = none
            ∧ a.reply = out.reply)
        ∨ (out.reply = none ∧ out.err = some Error.errUnreachable))
    ∧ (∀ fuel out text, lookup w proto fuel p timers = some out →
        out.err ≠ some (Error.exchange text))
    ∧ (p.Upstreams = [] → ∀ fuel, ∃ out, lookup w proto fuel p timers = some out
        ∧ out.reply = none ∧ out.err = some Error.errUnreachable)
    ∧ (∀ (start : Int) (k : Nat) (pool : Pool),
        (tryDuration ≤ w.now k - start ∨ w.select k (fireAll pool (w.wake k)).hosts = none) →
        step w proto start k pool
          = Step.ret none (some Error.errUnreachable) (fireAll pool (w.wake k)) none)
    ∧ (∀ K, 1 ≤ K → tryDuration ≤ w.now K - w.now 0 → ∀ fuel, K ≤ fuel →
        ∃ out, lookup w proto fuel p timers = some out) := by
  have main : ∀ fuel out, lookup w proto fuel p timers = some out →
      (out.err = none ∧ ∃ a, out.trace.getLast? = some a ∧ a.err = none
          ∧ a.reply = out.reply)
      ∨ (out.reply = none ∧ out.err = some Error.errUnreachable) := by
    intro fuel out h
    unfold lookup at h
    cases hu : p.Upstreams with
    | nil =>
      rw [hu] at h
      simp only [Option.some.injEq] at h
      subst h
      exact Or.inr ⟨rfl, rfl⟩
    | cons upstream rest =>
      rw [hu] at h
      simp only at h
      cases hr : tryLoop w proto (w.now 0) fuel 1
          { hosts := upstream.Hosts, timers := timers } [] with
      | none => rw [hr] at h; cases h
      | some run =>
        rw [hr] at h
        simp only [Option.some.injEq] at h
        subst h
        exact tryLoop_result w proto (w.now 0) fuel 1 _ [] run hr
  refine ⟨main, ?_, ?_, ?_, ?_⟩
  · intro fuel out text h he
    rcases main fuel out h with ⟨h1, _⟩ | ⟨_, h2⟩
    · rw [h1] at he; cases he
    · rw [h2] at he; cases he
  · intro hu fuel
    refine ⟨{ reply := none, err := some Error.errUnreachable, Upstreams := [],
              timers := timers, trace := [] }, ?_, rfl, rfl⟩
    unfold lookup
    rw [hu]
  · intro start k pool hcase
    rcases step_cases w proto start k pool with
      ⟨_, hs⟩ | ⟨_, _, hs⟩ | ⟨_, _, _, _, hs⟩ | ⟨hw, i, _, _, hsel, _, _, _⟩
        | ⟨hw, i, _, _, _, hsel, _, _, _⟩
    · exact hs
    · exact hs
    · exact hs
    · rcases hcase with hc | hc
      · omega
      · rw [hsel] at hc; cases hc
    · rcases hcase with hc | hc
      · omega
      · rw [hsel] at hc; cases hc
  · intro K hK1 hK fuel hfuel
    unfold lookup
    cases hu : p.Upstreams with
    | nil => exact ⟨_, rfl⟩
    | cons upstream rest =>
      simp only
      obtain ⟨run, hrun⟩ := tryLoop_returns w proto (w.now 0) K hK fuel 1
        { hosts := upstream.Hosts, timers := timers } [] hK1 (by omega)
      rw [hrun]
      exact ⟨_, rfl⟩

/-- C15 on the proxy `New` builds for one host, in a world where every
exchange fails with a timeout and the host is down after the first: 61
readings of the clock, a second apart, bring the window to its end, and the
call returns `(nil, errUnreachable)`. -/
theorem lookup_result_witness :
    ∃ out,
      lookup
        { now := fun n => (n : Int) * second,
          select := fun _ hosts => firstUp (newUpstream ["10.0.0.53:53"]) hosts,
          exchange := fun _ _ _ => (none, some (Error.exchange "i/o timeout")),
          wake := fun _ => [] }
        "udp" 60 (New ["10.0.0.53:53"]) [] = some out :=
  (lookup_result
      { now := fun n => (n : Int) * second,
        select := fun _ hosts => firstUp (newUpstream ["10.0.0.53:53"]) hosts,
        exchange := fun _ _ _ => (none, some (Error.exchange "i/o timeout")),
        wake := fun _ => [] }
      "udp" (New ["10.0.0.53:53"]) []).2.2.2.2 60 (by decide) (by decide) 60 (by decide)

/-! ## The transport of an exchange -/

theorem tryLoop_trace (w : World) (proto : String) (start : Int) :
    ∀ (fuel k : Nat) (p : Pool) (trace : List Attempt) (run : Run),
      tryLoop w proto start fuel k p trace = some run →
        ∃ made : List Attempt, run.trace = trace ++ made
          ∧ (∀ a ∈ made, a.tcp = decide (proto = "tcp"))
          ∧ made.map (fun a => a.iteration) = List.range' k made.length
          ∧ (∀ a ∈ made.dropLast, a.err ≠ none) := by
  intro fuel
  induction fuel with
  | zero => intro k p trace run h; simp [tryLoop] at h
  | succ fuel ih =>
    intro k p trace run h
    simp only [tryLoop] at h
    cases hs : step w proto start k p with
    | ret reply err pool made =>
      rw [hs] at h
      simp only [Option.some.injEq] at h
      subst h
      obtain ⟨_, hcase⟩ := step_ret_effect w proto start k p pool reply err made hs
      rcases hcase with ⟨_, _, hm, _⟩ | ⟨_, _, a, host, hm, _, _, hk, htcp, _⟩
      · exact ⟨[], by simp [hm], by simp, by simp, by simp⟩
      · refine ⟨[a], by simp [hm], ?_, ?_, by simp⟩
        · intro b hb
          simp only [List.mem_singleton] at hb
          rw [hb]; exact htcp
        · simp [hk, List.range']
    | next pool made =>
      rw [hs] at h
      obtain ⟨_, herr, hk, htcp, _⟩ := step_next_effect w proto start k p pool made hs
      obtain ⟨rest, hrun, h1, h2, h3⟩ := ih (k + 1) pool _ run h
      refine ⟨made :: rest, by simp [hrun], ?_, ?_, ?_⟩
      · intro b hb
        rcases List.mem_cons.1 hb with rfl | hb
        · exact htcp
        · exact h1 b hb
      · simp [hk, h2, List.range']
      · intro b hb
        cases rest with
        | nil => simp at hb
        | cons c rest' =>
          simp only [List.dropLast_cons₂, List.mem_cons] at hb
          rcases hb with rfl | hb
          · exact herr
          · exact h3 b hb

/-- C16 (as stated) fails: with a request that came over UDP and an upstream
whose UDP reply has the TC bit set, `lookup` makes one exchange, over UDP,
and returns the truncated reply; it makes no exchange over TCP, whose reply
would have been the full one. -/
theorem lookup_truncated_counterexample :
    (lookup (truncatingWorld (newUpstream ["10.0.0.53:53"])) "udp" 5
        (New ["10.0.0.53:53"]) []).map
        (fun out => (out.reply, out.err, out.trace.map (fun a => (a.host, a.tcp))))
      = some (some { Truncated := true, Answer := [] }, none, [(0, false)])
    ∧ ((truncatingWorld (newUpstream ["10.0.0.53:53"])).exchange 1 true "10.0.0.53:53").1
      = some { Truncated := false, Answer := ["10.1.1.1"] } := by
  decide

/-- C16 (amended): every exchange `lookup` makes uses the TCP client when
`state.Proto()` is `tcp` and the UDP client otherwise; there is one exchange
in each iteration, only a failed exchange is followed by another one, and
the reply of the exchange that succeeds is returned as it came, whether or
not its TC bit is set. -/
theorem lookup_transport (w : World) (proto : String) (fuel : Nat) (p : Proxy)
    (timers : List Timer) (out : Outcome) (h : lookup w proto fuel p timers = some out) :
    (∀ a ∈ out.trace, a.tcp = decide (proto = "tcp"))
    ∧ out.trace.map (fun a => a.iteration) = List.range' 1 out.trace.length
    ∧ (∀ a ∈ out.trace.dropLast, a.err ≠ none)
    ∧ (out.err = none → ∃ a, out.trace.getLast? = some a ∧ a.err = none
        ∧ out.reply = a.reply) := by
  unfold lookup at h
  cases hu : p.Upstreams with
  | nil =>
    rw [hu] at h
    simp only [Option.some.injEq] at h
    subst h
    simp
  | cons upstream rest =>
    rw [hu] at h
    simp only at h
    cases hr : tryLoop w proto (w.now 0) fuel 1
        { hosts := upstream.Hosts, timers := timers } [] with
    | none => rw [hr] at h; cases h
    | some run =>
      rw [hr] at h
      simp only [Option.some.injEq] at h
      subst h
      obtain ⟨made, hm, h1, h2, h3⟩ := tryLoop_trace w proto (w.now 0) fuel 1 _ [] run hr
      simp only [List.nil_append] at hm
      simp only [hm]
      refine ⟨h1, h2, h3, ?_⟩
      intro he
      rcases tryLoop_result w proto (w.now 0) fuel 1 _ [] run hr with
        ⟨_, a, ha, hae, har⟩ | ⟨_, he'⟩
      · rw [hm] at ha
        exact ⟨a, ha, hae, har.symm⟩
      · rw [he'] at he; cases he

/-- The amended C16 on a request that came over TCP: the one exchange is made
over TCP, in iteration 1, and its reply is returned. -/
theorem lookup_transport_witness :
    (lookup (truncatingWorld (newUpstream ["10.0.0.53:53"])) "tcp" 5
        (New ["10.0.0.53:53"]) []).map
        (fun out => (out.reply, out.trace.map (fun a => (a.iteration, a.tcp))))
      = some (some { Truncated := false, Answer := ["10.1.1.1"] }, [(1, true)])
    ∧ ([{ iteration := 1, host := 0, tcp := true,
          reply := some { Truncated := false, Answer := ["10.1.1.1"] },
          err := none }] : List Attempt).map (fun a => a.iteration)
      = List.range' 1 1 :=
  ⟨by decide,
   (lookup_transport (truncatingWorld (newUpstream ["10.0.0.53:53"])) "tcp" 5
      (New ["10.0.0.53:53"]) []
      { reply := some { Truncated := false, Answer := ["10.1.1.1"] }, err := none,
        Upstreams := [newUpstream ["10.0.0.53:53"]], timers := [],
        trace := [{ iteration := 1, host := 0, tcp := true,
                    reply := some { Truncated := false, Answer := ["10.1.1.1"] },
                    err := none }] }
      (by decide)).2.1⟩

/-! ## Retries -/

theorem firstUp_selectsUp (upstream : staticUpstream) (hosts : List UpstreamHost) (i : Nat)
    (h : firstUp upstream hosts = some i) :
    ∃ host, hosts[i]? = some host ∧ CheckDown upstream host = false := by
  unfold firstUp at h
  by_cases hlt : hosts.findIdx (fun h => !CheckDown upstream h) < hosts.length
  · rw [if_pos hlt] at h
    simp only [Option.some.injEq] at h
    subst h
    refine ⟨hosts[hosts.findIdx (fun h => !CheckDown upstream h)], List.getElem?_eq_getElem hlt, ?_⟩
    have := @List.findIdx_getElem _ (fun h => !CheckDown upstream h) hosts hlt
    simpa using this
  · rw [if_neg hlt] at h
    cases h

theorem retry_chain (w : World) (proto : String) (start : Int) (upstream : staticUpstream)
    (hmax : upstream.MaxFails = 1) (hsel : selectsUp w upstream) (hwake : ∀ k, w.wake k = []) :
    ∀ (fuel k : Nat) (p : Pool) (trace : List Attempt) (run : Run),
      (∀ h ∈ p.hosts, 0 ≤ h.Fails ∧ h.Fails + fuel < 2147483648) →
      (∀ a, trace.getLast? = some a → ∃ h, p.hosts[a.host]? = some h ∧ 1 ≤ h.Fails) →
      trace.Chain' (fun a b => a.host ≠ b.host) →
      tryLoop w proto start fuel k p trace = some run →
      run.trace.Chain' (fun a b => a.host ≠ b.host) := by
  intro fuel
  induction fuel with
  | zero => intro k p trace run _ _ _ h; simp [tryLoop] at h
  | succ fuel ih =>
    intro k p trace run hfails hlast hchain h
    have hq : fireAll p (w.wake k) = p := by rw [hwake k]; rfl
    have hnew : ∀ (a : Attempt) (host : UpstreamHost),
        w.select k (fireAll p (w.wake k)).hosts = some a.host →
        (fireAll p (w.wake k)).hosts[a.host]? = some host →
        host.Fails < 1 ∧ (trace ++ [a]).Chain' (fun a b => a.host ≠ b.host) := by
      intro a host hs hh
      rw [hq] at hs hh
      obtain ⟨h0, hh0, hdown⟩ := hsel k p.hosts a.host hs
      rw [hh] at hh0
      simp only [Option.some.injEq] at hh0
      subst hh0
      have hlow : host.Fails < 1 := by
        by_contra hc
        have : CheckDown upstream host = true :=
          ((CheckDown_main upstream host).2 (Or.inr ⟨by rw [hmax]; decide, by rw [hmax]; omega⟩))
        rw [this] at hdown
        cases hdown
      refine ⟨hlow, ?_⟩
      rw [List.chain'_append]
      refine ⟨hchain, List.chain'_singleton a, ?_⟩
      intro x hx y hy
      simp only [List.head?_cons, Option.mem_def, Option.some.injEq] at hy
      subst hy
      obtain ⟨hx', hhx, hfx⟩ := hlast x hx
      intro heq
      rw [heq, hh] at hhx
      simp only [Option.some.injEq] at hhx
      subst hhx
      omega
    simp only [tryLoop] at h
    cases hs : step w proto start k p with
    | ret reply err pool made =>
      rw [hs] at h
      simp only [Option.some.injEq] at h
      subst h
      obtain ⟨_, hcase⟩ := step_ret_effect w proto start k p pool reply err made hs
      rcases hcase with ⟨_, _, hm, _⟩ | ⟨_, _, a, host, hm, _, _, _, _, hsel', hh, _⟩
      · simpa [hm] using hchain
      · simpa [hm] using (hnew a host hsel' hh).2
    | next pool made =>
      rw [hs] at h
      obtain ⟨_, _, _, _, hsel', host, hh, _, _, hhosts⟩ :=
        step_next_effect w proto start k p pool made hs
      obtain ⟨hlow, hch⟩ := hnew made host hsel' hh
      rw [hq] at hh hhosts
      have hhost : 0 ≤ host.Fails ∧ host.Fails + (fuel + 1 : Nat) < 2147483648 :=
        hfails host (List.mem_iff_getElem?.2 ⟨_, hh⟩)
      refine ih (k + 1) pool _ run ?_ ?_ hch h
      · intro h' hmem
        obtain ⟨j, hj⟩ := List.mem_iff_getElem?.1 hmem
        rw [hhosts] at hj
        obtain ⟨h1, hg1, hf1, _⟩ := addFails_get 1 _ made.host j h' hj
        obtain ⟨h2, hg2, hf2, _⟩ := addConns_get (-1) _ made.host j h1 hg1
        obtain ⟨h3, hg3, hf3, _⟩ := addConns_get 1 _ made.host j h2 hg2
        have hold := hfails h3 (List.mem_iff_getElem?.2 ⟨_, hg3⟩)
        rw [hf1, hf2, hf3]
        by_cases hjm : j = made.host
        · rw [if_pos hjm, wrapInt32_id _ (by omega) (by omega)]
          omega
        · rw [if_neg hjm]
          omega
      · intro a ha
        rw [List.getLast?_concat] at ha
        simp only [Option.some.injEq] at ha
        subst ha
        obtain ⟨c1, hc1, hcf1⟩ := addConns_self 1 p.hosts made.host host hh
        obtain ⟨c2, hc2, hcf2⟩ := addConns_self (-1) _ made.host c1 hc1
        obtain ⟨c3, hc3, hcf3⟩ := addFails_self 1 _ made.host c2 hc2
        rw [hhosts]
        refine ⟨c3, hc3, ?_⟩
        rw [hcf3, hcf2, hcf1, wrapInt32_id _ (by omega) (by omega)]
        omega

/-- C17 (as stated) fails: on an upstream with `MaxFails` 3 and two hosts that
are up, the exchange with host 0 fails, the fail counter of host 0 goes to 1,
which does not make it down, and the next attempt goes to host 0 again,
although host 1 is not down. -/
theorem retry_other_host_counterexample :
    (lookup (flakyWorld sampleUpstream) "udp" 5 { Upstreams := [sampleUpstream] } []).map
        (fun out => out.trace.map (fun a => (a.host, a.err)))
      = some [(0, some (Error.exchange "i/o timeout")), (0, none)]
    ∧ sampleUpstream.Hosts.map (fun h => CheckDown sampleUpstream h) = [false, false] := by
  decide

theorem CheckDown_sampleWith (m : Int) (hm : m = 0 ∨ 1 < m) (h : UpstreamHost)
    (hu : h.Unhealthy = false) (hf : h.Fails ≤ 1) : CheckDown (sampleWith m) h = false := by
  have hmax : (sampleWith m).MaxFails = m := rfl
  unfold CheckDown
  rw [if_neg (by simp [hu]), hmax, if_neg]
  rintro ⟨h1, h2⟩
  rcases hm with h0 | h1'
  · exact h2 h0
  · omega

theorem firstUp_head (u : staticUpstream) (h : UpstreamHost) (rest : List UpstreamHost)
    (hup : CheckDown u h = false) : firstUp u (h :: rest) = some 0 := by
  unfold firstUp
  have hz : (h :: rest).findIdx (fun h => !CheckDown u h) = 0 := by
    simp [List.findIdx_cons, hup]
  rw [hz]
  simp

theorem flaky_window (u : staticUpstream) (k : Nat) (hk : k ≤ 59) :
    (flakyWorld u).now k - (flakyWorld u).now 0 < tryDuration := by
  show ((k : Nat) : Int) * second - ((0 : Nat) : Int) * second < tryDuration
  unfold second tryDuration second
  have : (k : Int) ≤ 59 := by exact_mod_cast hk
  omega

theorem retry_same_host (m : Int) (hm : m = 0 ∨ 1 < m) :
    (lookup (flakyWorld (sampleWith m)) "udp" 5 { Upstreams := [sampleWith m] } []).map
        (fun out => out.trace.map (fun a => (a.host, a.err)))
      = some [(0, some (Error.exchange "i/o timeout")), (0, none)] := by
  have hs1 : (flakyWorld (sampleWith m)).select 1
      (fireAll { hosts := (sampleWith m).Hosts, timers := [] }
        ((flakyWorld (sampleWith m)).wake 1)).hosts = some 0 :=
    firstUp_head (sampleWith m) _ _ (CheckDown_sampleWith m hm _ rfl (by decide))
  have e1 : ∃ P1 : Pool,
      step (flakyWorld (sampleWith m)) "udp" ((flakyWorld (sampleWith m)).now 0) 1
          { hosts := (sampleWith m).Hosts, timers := [] }
        = Step.next P1 { iteration := 1, host := 0, tcp := decide ("udp" = "tcp"),
                         reply := none, err := some (Error.exchange "i/o timeout") }
      ∧ ∃ h rest, P1.hosts = h :: rest ∧ h.Unhealthy = false ∧ h.Fails ≤ 1
          ∧ h.Name = "10.0.0.53:53" :=
    ⟨_, step_failed (flakyWorld (sampleWith m)) "udp" ((flakyWorld (sampleWith m)).now 0) 1
        { hosts := (sampleWith m).Hosts, timers := [] } 0 _ none (Error.exchange "i/o timeout")
        (flaky_window _ 1 (by decide)) hs1 rfl rfl,
      _, _, rfl, rfl, by decide, rfl⟩
  obtain ⟨P1, e1, h, rest, hP1, hu, hf, hname⟩ := e1
  have hs2 : (flakyWorld (sampleWith m)).select (1 + 1)
      (fireAll P1 ((flakyWorld (sampleWith m)).wake (1 + 1))).hosts = some 0 := by
    show firstUp (sampleWith m) P1.hosts = some 0
    rw [hP1]
    exact firstUp_head (sampleWith m) _ _ (CheckDown_sampleWith m hm h hu hf)
  have hg2 : (fireAll P1 ((flakyWorld (sampleWith m)).wake (1 + 1))).hosts[0]? = some h := by
    show P1.hosts[0]? = some h
    rw [hP1]; simp
  have e2 := step_succeeded (flakyWorld (sampleWith m)) "udp"
    ((flakyWorld (sampleWith m)).now 0) (1 + 1) P1 0 h
    (some { Truncated := false, Answer := [h.Name] })
    (flaky_window _ (1 + 1) (by decide)) hs2 hg2 rfl
  unfold lookup
  simp only [tryLoop]
  rw [e1]
  simp only
  rw [e2]
  rfl

/-- C17 (amended): on an upstream with `MaxFails` 1, as `New` builds it, whose
`Select` returns only hosts that are not down, and while no sleeping goroutine
wakes up (fail counters not negative and far from overflow), no two successive
attempts of `lookup` go to the same host: the failed exchange has made its
host down. `lookup` itself does not keep the failed host from being selected
again: for every `MaxFails` that is 0 or greater than 1 there is an upstream
with two hosts that are not down and a `Select` returning only hosts that are
not down, the first of them, with which the retry goes to the host that has
just failed. -/
theorem retry_other_host (w : World) (proto : String) (fuel : Nat) (p : Proxy)
    (timers : List Timer) (out : Outcome) (upstream : staticUpstream)
    (rest : List staticUpstream) (hp : p.Upstreams = upstream :: rest)
    (hmax : upstream.MaxFails = 1) (hsel : selectsUp w upstream)
    (hwake : ∀ k, w.wake k = [])
    (hfails : ∀ h ∈ upstream.Hosts, 0 ≤ h.Fails ∧ h.Fails + fuel < 2147483648)
    (h : lookup w proto fuel p timers = some out) :
    out.trace.Chain' (fun a b => a.host ≠ b.host)
    ∧ ∀ m : Int, (m = 0 ∨ 1 < m) →
        (sampleWith m).MaxFails = m
        ∧ (sampleWith m).Hosts.map (fun h => CheckDown (sampleWith m) h) = [false, false]
        ∧ selectsUp (flakyWorld (sampleWith m)) (sampleWith m)
        ∧ (lookup (flakyWorld (sampleWith m)) "udp" 5 { Upstreams := [sampleWith m] } []).map
              (fun out => out.trace.map (fun a => (a.host, a.err)))
            = some [(0, some (Error.exchange "i/o timeout")), (0, none)] := by
  constructor
  · unfold lookup at h
    rw [hp] at h
    simp only at h
    cases hr : tryLoop w proto (w.now 0) fuel 1
        { hosts := upstream.Hosts, timers := timers } [] with
    | none => rw [hr] at h; cases h
    | some run =>
      rw [hr] at h
      simp only [Option.some.injEq] at h
      subst h
      exact retry_chain w proto (w.now 0) upstream hmax hsel hwake fuel 1
        { hosts := upstream.Hosts, timers := timers } [] run hfails
        (by intro a ha; simp at ha) List.chain'_nil hr
  · intro m hm
    refine ⟨rfl, ?_, fun _ hosts i hs => firstUp_selectsUp _ hosts i hs,
      retry_same_host m hm⟩
    have h1 := CheckDown_sampleWith m hm
      { Name := "10.0.0.53:53", Conns := 0, Fails := 0, FailTimeout := 10 * second,
        Unhealthy := false } rfl (by decide)
    have h2 := CheckDown_sampleWith m hm
      { Name := "10.0.0.54:53", Conns := 0, Fails := 0, FailTimeout := 10 * second,
        Unhealthy := false } rfl (by decide)
    show [CheckDown (sampleWith m) _, CheckDown (sampleWith m) _] = [false, false]
    rw [h1, h2]

/-- The amended C17 on the proxy `New` builds for two hosts: the exchange with
host 0 fails and the next attempt goes to host 1. -/
theorem retry_other_host_witness :
    (lookup (flakyWorld (newUpstream ["10.0.0.53:53", "10.0.0.54:53"])) "udp" 5
        (New ["10.0.0.53:53", "10.0.0.54:53"]) []).map
        (fun out => out.trace.map (fun a => a.host)) = some [0, 1]
    ∧ ([{ iteration := 1, host := 0, tcp := false, reply := none,
          err := some (Error.exchange "i/o timeout") },
        { iteration := 2, host := 1, tcp := false,
          reply := some { Truncated := false, Answer := ["10.0.0.54:53"] },
          err := none }] : List Attempt).Chain' (fun a b => a.host ≠ b.host) :=
  ⟨by decide,
   (retry_other_host (flakyWorld (newUpstream ["10.0.0.53:53", "10.0.0.54:53"])) "udp" 5
      (New ["10.0.0.53:53", "10.0.0.54:53"]) []
      { reply := some { Truncated := false, Answer := ["10.0.0.54:53"] }, err := none,
        Upstreams :=
          [{ newUpstream ["10.0.0.53:53", "10.0.0.54:53"] with
             Hosts := addFails 1 (newUpstream ["10.0.0.53:53", "10.0.0.54:53"]).Hosts 0 }],
        timers := [{ host := 0, sleep := 10 * second }],
        trace :=
          [{ iteration := 1, host := 0, tcp := false, reply := none,
             err := some (Error.exchange "i/o timeout") },
           { iteration := 2, host := 1, tcp := false,
             reply := some { Truncated := false, Answer := ["10.0.0.54:53"] },
             err := none }] }
      (newUpstream ["10.0.0.53:53", "10.0.0.54:53"]) [] rfl rfl
      (fun _ hosts i hs => firstUp_selectsUp _ hosts i hs)
      (fun _ => rfl) (by decide) (by decide)).1⟩

end ProxyLookup

namespace ProxyLookup

/-! ## The proxy `New` builds -/

/-- C27: `New(hosts)` builds a proxy with exactly one upstream; its hosts are
as many as `hosts` and carry the names of `hosts` in order, each with 0
connections, 0 failures, not unhealthy and a fail timeout of 10 seconds; the
upstream has the random policy and `MaxFails` 1, so no host is down at first
and a host is down once its fail counter has gone up by 1. -/
theorem New_builds (hosts : List String) :
    (New hosts).Upstreams = [newUpstream hosts]
    ∧ (newUpstream hosts).Hosts.length = hosts.length
    ∧ (newUpstream hosts).Hosts.map (fun h => h.Name) = hosts
    ∧ (∀ h ∈ (newUpstream hosts).Hosts,
        h.Conns = 0 ∧ h.Fails = 0 ∧ h.Unhealthy = false ∧ h.FailTimeout = 10 * second)
    ∧ (newUpstream hosts).Policy = Policy.Random
    ∧ (newUpstream hosts).MaxFails = 1
    ∧ (∀ h ∈ (newUpstream hosts).Hosts, CheckDown (newUpstream hosts) h = false)
    ∧ (∀ (i : Nat) (h : UpstreamHost), (newUpstream hosts).Hosts[i]? = some h →
        ∃ h', (addFails 1 (newUpstream hosts).Hosts i)[i]? = some h' ∧ h'.Fails = 1
          ∧ CheckDown (newUpstream hosts) h' = true) := by
  have hfields : ∀ h ∈ (newUpstream hosts).Hosts,
      h.Conns = 0 ∧ h.Fails = 0 ∧ h.Unhealthy = false ∧ h.FailTimeout = 10 * second := by
    intro h hh
    simp only [newUpstream, List.mem_map] at hh
    obtain ⟨name, _, rfl⟩ := hh
    exact ⟨rfl, rfl, rfl, rfl⟩
  refine ⟨rfl, by simp [newUpstream], ?_, hfields, rfl, rfl, ?_, ?_⟩
  · simp only [newUpstream, List.map_map]
    exact List.map_id'' (fun _ => rfl) hosts
  · intro h hh
    obtain ⟨_, hf, hu, _⟩ := hfields h hh
    have hmax : (newUpstream hosts).MaxFails = 1 := rfl
    simp [CheckDown, hf, hu, hmax]
  · intro i h hget
    obtain ⟨_, hf, hu, _⟩ := hfields h (List.mem_iff_getElem?.2 ⟨i, hget⟩)
    obtain ⟨h', hget', hf'⟩ := addFails_self 1 _ i h hget
    have hone : h'.Fails = 1 := by rw [hf', hf]; decide
    refine ⟨h', hget', hone, ?_⟩
    have hmax : (newUpstream hosts).MaxFails = 1 := rfl
    exact (CheckDown_main (newUpstream hosts) h').2
      (Or.inr ⟨by rw [hmax]; decide, by rw [hone, hmax]⟩)

/-- C27 on the call of the test, `New` of one address: the host starts up, and
is down after one failure. -/
theorem New_builds_witness :
    (New ["127.0.0.1:53"]).Upstreams.map (fun u => u.Hosts.map (fun h => CheckDown u h))
      = [[false]]
    ∧ ∃ h', (addFails 1 (newUpstream ["127.0.0.1:53"]).Hosts 0)[0]? = some h' ∧ h'.Fails = 1
        ∧ CheckDown (newUpstream ["127.0.0.1:53"]) h' = true :=
  ⟨by decide,
   (New_builds ["127.0.0.1:53"]).2.2.2.2.2.2.2 0
      { Name := "127.0.0.1:53", Conns := 0, Fails := 0, FailTimeout := 10 * second,
        Unhealthy := false } rfl⟩

end ProxyLookup

namespace Etcd

/-! ## Lookups without wildcard -/

theorem leafLoop_no_star (parse : String → Except String Service) (nameParts : List String)
    (l : List Node) :
    ∀ (sx bx earlier : List Service),
      (∀ k, k ∈ bx ↔ k ∈ earlier) →
      (∀ n ∈ l, ∃ serv, parse n.Value = .ok serv) →
      (leafLoop parse nameParts false l sx bx).err = none
      ∧ (leafLoop parse nameParts false l sx bx).sx = sx ++ firstRecords parse l earlier := by
  induction l with
  | nil => intro sx bx earlier _ _; simp [leafLoop, firstRecords]
  | cons n rest ih =>
    intro sx bx earlier hset hparse
    obtain ⟨serv, hok⟩ := hparse n (List.mem_cons_self _ _)
    have hrest : ∀ m ∈ rest, ∃ serv, parse m.Value = .ok serv :=
      fun m hm => hparse m (List.mem_cons_of_mem _ hm)
    simp only [leafLoop, firstRecords, hok]
    rcases visitLeaf_cases parse nameParts false n sx bx with
      ⟨hp, _⟩ | ⟨_, e, he, _⟩ | ⟨_, serv', hok', hm, hv⟩ | ⟨_, serv', hok', hm, hv⟩
    · simp [passes] at hp
    · rw [hok] at he; cases he
    · rw [hok] at hok'
      injection hok' with hs
      subst hs
      rw [hv]
      have hm' : dedupKey n serv ∈ earlier := (hset _).1 hm
      simp only [hm', if_true]
      apply ih sx bx (dedupKey n serv :: earlier) _ hrest
      intro k
      constructor
      · intro hk; exact List.mem_cons_of_mem _ ((hset k).1 hk)
      · intro hk
        rcases List.mem_cons.1 hk with rfl | hk
        · exact hm
        · exact (hset k).2 hk
    · rw [hok] at hok'
      injection hok' with hs
      subst hs
      rw [hv]
      have hm' : dedupKey n serv ∉ earlier := fun h => hm ((hset _).2 h)
      simp only [hm', if_false]
      have := ih (sx ++ [emit n serv]) (dedupKey n serv :: bx) (dedupKey n serv :: earlier)
        (by
          intro k
          simp only [List.mem_cons]
          rw [hset k]) hrest
      simpa using this

theorem firstRecords_sublist (parse : String → Except String Service) (l : List Node) :
    ∀ earlier : List Service,
      (firstRecords parse l earlier).Sublist (l.filterMap (emitted parse)) := by
  induction l with
  | nil => intro earlier; simp [firstRecords]
  | cons n rest ih =>
    intro earlier
    simp only [firstRecords]
    cases hv : parse n.Value with
    | error e =>
      simp only [List.filterMap_cons, emitted, hv]
      exact ih earlier
    | ok serv =>
      simp only [List.filterMap_cons, emitted, hv]
      by_cases hm : dedupKey n serv ∈ earlier
      · simp only [hm, if_true]
        exact (ih _).trans (List.sublist_cons_self _ _)
      · simp only [hm, if_false]
        exact (ih _).cons₂ _

/-- C30: when `star` is false, `loopNodes` filters no key: on a tree whose
leaf values all parse it returns no error and, in the order of the
depth-first traversal, one record for each leaf except the leaves whose
`(host, port, priority, weight, text, key)` as stored is that of an earlier
leaf; the result does not depend on the name segments, and it has at most as
many records as the tree has leaves. -/
theorem loopNodes_no_star (parse : String → Except String Service) (ns : List Node)
    (nameParts : List String)
    (hparse : ∀ n ∈ leaves ns, ∃ serv, parse n.Value = .ok serv) :
    (∀ n : Node, passes nameParts false n = true)
    ∧ (loopNodes parse ns nameParts false []).err = none
    ∧ (loopNodes parse ns nameParts false []).sx = firstRecords parse (leaves ns) []
    ∧ (loopNodes parse ns nameParts false []).sx.Sublist
        ((leaves ns).filterMap (emitted parse))
    ∧ (loopNodes parse ns nameParts false []).sx.length ≤ (leaves ns).length
    ∧ (∀ nameParts' : List String,
        loopNodes parse ns nameParts' false [] = loopNodes parse ns nameParts false []) := by
  obtain ⟨herr, hsx⟩ := leafLoop_no_star parse nameParts (leaves ns) [] [] []
    (fun _ => Iff.rfl) hparse
  rw [← loopNodes_eq_leafLoop] at herr hsx
  simp only [List.nil_append] at hsx
  have hsub := firstRecords_sublist parse (leaves ns) []
  refine ⟨fun _ => rfl, herr, hsx, ?_, ?_, ?_⟩
  · rw [hsx]; exact hsub
  · rw [hsx]
    exact (hsub.length_le).trans (List.length_filterMap_le _ _)
  · intro nameParts'
    rw [loopNodes_eq_leafLoop, loopNodes_eq_leafLoop]
    exact leafLoop_congr parse nameParts' nameParts false (fun _ => rfl) (leaves ns) [] []

/-- C30 on a directory with three leaves, the third storing the record of the
first under the same key: two records come back, in the order of the leaves,
although the name segments match none of the keys. -/
theorem loopNodes_no_star_witness :
    (loopNodes sampleParse
        [Node.mk "/skydns/local/web" "" true 0
          [Node.mk "/skydns/local/web/a" "host=10.0.0.1" false 0 [],
           Node.mk "/skydns/local/web/b" "host=10.0.0.2" false 0 [],
           Node.mk "/skydns/local/web/a" "host=10.0.0.1" false 0 []]]
        ["", "skydns", "org"] false []).sx.map (fun s => (s.Host, s.Key))
      = [("10.0.0.1", "/skydns/local/web/a"), ("10.0.0.2", "/skydns/local/web/b")]
    ∧ (loopNodes sampleParse
        [Node.mk "/skydns/local/web" "" true 0
          [Node.mk "/skydns/local/web/a" "host=10.0.0.1" false 0 [],
           Node.mk "/skydns/local/web/b" "host=10.0.0.2" false 0 [],
           Node.mk "/skydns/local/web/a" "host=10.0.0.1" false 0 []]]
        ["", "skydns", "org"] false []).err = none :=
  ⟨by decide,
   (loopNodes_no_star sampleParse
      [Node.mk "/skydns/local/web" "" true 0
        [Node.mk "/skydns/local/web/a" "host=10.0.0.1" false 0 [],
         Node.mk "/skydns/local/web/b" "host=10.0.0.2" false 0 [],
         Node.mk "/skydns/local/web/a" "host=10.0.0.1" false 0 []]]
      ["", "skydns", "org"]
      (by
        intro n hn
        have hl : n ∈ [Node.mk "/skydns/local/web/a" "host=10.0.0.1" false 0 [],
            Node.mk "/skydns/local/web/b" "host=10.0.0.2" false 0 [],
            Node.mk "/skydns/local/web/a" "host=10.0.0.1" false 0 []] := hn
        simp only [List.mem_cons, List.mem_singleton, List.not_mem_nil, or_false] at hl
        rcases hl with rfl | rfl | rfl
        · exact ⟨_, rfl⟩
        · exact ⟨_, rfl⟩
        · exact ⟨_, rfl⟩)).2.1⟩

end Etcd

namespace Kubernetes

/-! ## The default name server -/

theorem indexFrom_ge (sub : List Char) (l : List Char) :
    ∀ i : Nat, indexFrom sub l i = -1 ∨ (i : Int) ≤ indexFrom sub l i := by
  induction l with
  | nil =>
    intro i
    unfold indexFrom
    split
    · exact Or.inr (le_refl _)
    · exact Or.inl rfl
  | cons c cs ih =>
    intro i
    unfold indexFrom
    split
    · exact Or.inr (le_refl _)
    · rcases ih (i + 1) with h | h
      · exact Or.inl h
      · refine Or.inr ?_
        push_cast at h
        omega

theorem startsWith_self_append (zs : List Char) : ∀ t, startsWith zs (zs ++ t) = true := by
  induction zs with
  | nil => intro t; rfl
  | cons a zs ih => intro t; simp [startsWith, ih]

theorem startsWith_shift (zs : List Char) :
    ∀ c, startsWith zs (c :: zs) = true → ∀ x ∈ zs, x = c := by
  induction zs with
  | nil => intro c _ x hx; cases hx
  | cons a zs ih =>
    intro c h x hx
    simp only [startsWith, Bool.and_eq_true, decide_eq_true_eq] at h
    obtain ⟨hac, hrest⟩ := h
    rcases List.mem_cons.1 hx with e | e
    · rw [e, hac]
    · rw [← hac]; exact ih a hrest x e

theorem cons_eq_append_of_all (zs : List Char) (c : Char) (h : ∀ x ∈ zs, x = c) :
    c :: zs = zs ++ [c] := by
  induction zs with
  | nil => rfl
  | cons a zs ih =>
    have ha : a = c := h a (by simp)
    subst ha
    rw [List.cons_append, ← ih (fun x hx => h x (by simp [hx]))]

theorem Index_joined (zs : List Char) :
    indexFrom zs ('n' :: 's' :: '.' :: 'd' :: 'n' :: 's' :: '.' :: '.' :: zs) 0 ≠ 7 := by
  by_cases h7 : startsWith zs ('.' :: zs) = true
  · have hall := startsWith_shift zs '.' h7
    have h6 : startsWith zs ('.' :: '.' :: zs) = true := by
      have e : '.' :: '.' :: zs = zs ++ ['.', '.'] := by
        rw [cons_eq_append_of_all zs '.' hall]
        rw [← List.cons_append, cons_eq_append_of_all zs '.' hall]
        simp
      rw [e]
      exact startsWith_self_append zs _
    simp only [indexFrom]
    split_ifs <;> simp_all
  · simp only [indexFrom]
    have key : ∀ i : Nat, 8 ≤ i → indexFrom zs zs i ≠ 7 := by
      intro i hi h
      rcases indexFrom_ge zs zs i with g | g <;> omega
    split_ifs <;> first | exact key _ (by norm_num) | simp_all
/-- C25, the code at names that show the divergence: `isDefaultNS` accepts the
name `ns.dns.example.org.example.org.` for the zone `example.org.`, which is
not `ns.dns.` followed by the zone, and it rejects `ns.dns.dns.` for the zone
`dns.`, which is. -/
theorem isDefaultNS_diverges :
    isDefaultNS "ns.dns.example.org.example.org." { zone := "example.org." } = true
    ∧ "ns.dns.example.org.example.org." ≠ defaultNSName ++ "example.org."
    ∧ isDefaultNS (defaultNSName ++ "dns.") { zone := "dns." } = false
    ∧ isDefaultNS (defaultNSName ++ "example.org.") { zone := "example.org." } = true := by
  decide

/-- The string `strings.Join` builds in `defaultNSMsg`, with its two dots
before the zone, is itself accepted by `isDefaultNS` for no zone; the key made
of it is that of the name without the empty label. -/
theorem isDefaultNS_joined (zone : String) :
    isDefaultNS (defaultNSName ++ "." ++ zone) { zone := zone } = false := by
  have hd : (defaultNSName ++ "." ++ zone).data
      = 'n' :: 's' :: '.' :: 'd' :: 'n' :: 's' :: '.' :: '.' :: zone.data := by
    simp [String.data_append, defaultNSName]
  have hlen : (defaultNSName.length : Int) = 7 := by decide
  unfold isDefaultNS Index
  rw [hd, hlen]
  simp only [Bool.and_eq_false_imp, decide_eq_true_eq, decide_eq_false_iff_not]
  intro _
  exact Index_joined zone.data

end Kubernetes

namespace Nametemplate

/-! ## The getters -/

theorem element_some_iff (s : String) (hknown : knownOnly (splitDot s)) (name sym : String)
    (hsym : (name, sym) ∈ symbols) (i : Nat) :
    mapGet (setLoop (splitDot s) 0 []).1 name = some i ↔
      ((splitDot s)[i]? = some sym ∧ sym ∉ (splitDot s).drop (i + 1)) := by
  obtain ⟨_, h2, _⟩ := setLoop_known (splitDot s) 0 []
    (fun v hv hb => (mem_symbols_snd v).1 (hknown v hv hb))
  rw [h2 name sym hsym, ← no_later_iff]
  have key := lastIndexFrom_some sym (splitDot s) 0 i
  have conv : (∃ j, i = 0 + j ∧ (splitDot s)[j]? = some sym
      ∧ ∀ j', j < j' → (splitDot s)[j']? ≠ some sym) ↔
      ((splitDot s)[i]? = some sym ∧ ∀ j, i < j → (splitDot s)[j]? ≠ some sym) := by
    constructor
    · rintro ⟨j, hj, h⟩
      have : i = j := by omega
      subst this
      exact h
    · intro h
      exact ⟨i, by omega, h⟩
  cases hl : lastIndexFrom sym (splitDot s) 0 with
  | some i0 =>
    rw [hl] at key
    simp only []
    rw [key, conv]
  | none =>
    rw [hl] at key
    simp only [mapGet_nil]
    rw [key, conv]

theorem element_none_iff (s : String) (hknown : knownOnly (splitDot s)) (name sym : String)
    (hsym : (name, sym) ∈ symbols) :
    mapGet (setLoop (splitDot s) 0 []).1 name = none ↔ sym ∉ splitDot s := by
  obtain ⟨_, h2, _⟩ := setLoop_known (splitDot s) 0 []
    (fun v hv hb => (mem_symbols_snd v).1 (hknown v hv hb))
  rw [h2 name sym hsym, ← lastIndexFrom_none sym (splitDot s) 0]
  cases lastIndexFrom sym (splitDot s) 0 with
  | some i0 => simp
  | none => simp [mapGet_nil]

theorem setLoop_bound (segs : List String) :
    ∀ (idx : Nat) (el : List (String × Nat)) (name : String) (i : Nat),
      mapGet (setLoop segs idx el).1 name = some i →
        mapGet el name = some i ∨ (idx ≤ i ∧ i < idx + segs.length) := by
  induction segs with
  | nil => intro idx el name i h; left; simpa [setLoop] using h
  | cons v rest ih =>
    intro idx el name i h
    simp only [setLoop] at h
    cases hf : findSymbol v with
    | some e =>
      rw [hf] at h
      rcases ih _ _ name i h with h' | ⟨h1, h2⟩
      · rw [mapGet_mapSet] at h'
        by_cases hn : name = e.1
        · rw [if_pos hn] at h'
          simp only [Option.some.injEq] at h'
          right
          simp only [List.length_cons]
          omega
        · rw [if_neg hn] at h'
          exact Or.inl h'
      · right
        simp only [List.length_cons]
        omega
    | none =>
      rw [hf] at h
      cases hc : containsBrace v with
      | true =>
        simp only [hc, if_true] at h
        exact Or.inl h
      | false =>
        simp only [hc, Bool.false_eq_true, if_false] at h
        rcases ih _ _ name i h with h' | ⟨h1, h2⟩
        · exact Or.inl h'
        · right
          simp only [List.length_cons]
          omega

theorem element_lt (t : NameTemplate) (s name : String) (i : Nat)
    (h : mapGet (SetTemplate t s).1.Element name = some i) : i < (splitDot s).length := by
  rw [SetTemplate_Element] at h
  rcases setLoop_bound (splitDot s) 0 [] name i h with h' | ⟨_, h2⟩
  · simp [mapGet_nil] at h'
  · omega

/-- C21 (as stated) fails: in the template `{foo}.{service}` the symbol
`{service}` sits at index 1, but `SetTemplate` stops at the unknown symbol
`{foo}` before it records that, and `GetServiceFromSegmentArray` returns the
empty string instead of the segment at index 1; and in the template
`{service}.{namespace}.{service}`, which `SetTemplate` accepts, the symbol sits
at index 0, but the segment at index 2, its last place, is returned. -/
theorem GetService_counterexample :
    (splitDot "{foo}.{service}")[1]? = some "{service}"
    ∧ GetServiceFromSegmentArray (SetTemplate NameTemplate.zero "{foo}.{service}").1
        ["myservice", "mynamespace"] = some ""
    ∧ (["myservice", "mynamespace"] : List String)[1]? = some "mynamespace"
    ∧ (SetTemplate NameTemplate.zero "{service}.{namespace}.{service}").2 = none
    ∧ (splitDot "{service}.{namespace}.{service}")[0]? = some "{service}"
    ∧ GetServiceFromSegmentArray
        (SetTemplate NameTemplate.zero "{service}.{namespace}.{service}").1
        ["myservice", "mynamespace", "coredns"] = some "coredns" := by
  decide

/-- C21 (amended): for every template with no segment containing an opening
brace other than the known symbols, and every segment array at least as long
as the template, `GetSymbolFromSegmentArray` for a symbol name (and so
`GetServiceFromSegmentArray` and `GetNamespaceFromSegmentArray`) returns the
segment at the index of the last segment of the template that is that symbol,
and returns the empty string, for every segment array, when the symbol is no
segment of the template. -/
theorem GetSymbol_segment (t : NameTemplate) (s : String) (segments : List String)
    (hknown : knownOnly (splitDot s)) (hlen : (splitDot s).length ≤ segments.length) :
    (∀ name sym, (name, sym) ∈ symbols →
        (∀ i, (splitDot s)[i]? = some sym → sym ∉ (splitDot s).drop (i + 1) →
            GetSymbolFromSegmentArray (SetTemplate t s).1 name segments = segments[i]?
            ∧ segments[i]? ≠ none)
        ∧ (sym ∉ splitDot s → ∀ segments' : List String,
            GetSymbolFromSegmentArray (SetTemplate t s).1 name segments' = some ""))
    ∧ GetServiceFromSegmentArray (SetTemplate t s).1 segments
        = GetSymbolFromSegmentArray (SetTemplate t s).1 "service" segments
    ∧ GetNamespaceFromSegmentArray (SetTemplate t s).1 segments
        = GetSymbolFromSegmentArray (SetTemplate t s).1 "namespace" segments := by
  refine ⟨?_, rfl, rfl⟩
  intro name sym hsym
  constructor
  · intro i hi hlast
    have hget : mapGet (SetTemplate t s).1.Element name = some i := by
      rw [SetTemplate_Element]
      exact (element_some_iff s hknown name sym hsym i).2 ⟨hi, hlast⟩
    have hlt : i < segments.length := by
      have := element_lt t s name i hget
      omega
    constructor
    · simp only [GetSymbolFromSegmentArray, hget]
    · rw [List.getElem?_eq_getElem hlt]
      simp
  · intro hno segments'
    have hget : mapGet (SetTemplate t s).1.Element name = none := by
      rw [SetTemplate_Element]
      exact (element_none_iff s hknown name sym hsym).2 hno
    simp only [GetSymbolFromSegmentArray, hget]

/-- The amended C21 on the templates of the test. -/
theorem GetSymbol_segment_witness :
    GetSymbolFromSegmentArray (SetTemplate NameTemplate.zero "{service}.{namespace}.{zone}").1
        "service" (splitDot "myservice.mynamespace.coredns")
      = (splitDot "myservice.mynamespace.coredns")[0]?
    ∧ GetServiceFromSegmentArray (SetTemplate NameTemplate.zero "{service}.{namespace}.{zone}").1
        (splitDot "myservice.mynamespace.coredns") = some "myservice"
    ∧ GetServiceFromSegmentArray (SetTemplate NameTemplate.zero "{namespace}.{zone}").1
        (splitDot "mynamespace.coredns") = some "" :=
  ⟨(((GetSymbol_segment NameTemplate.zero "{service}.{namespace}.{zone}"
        (splitDot "myservice.mynamespace.coredns") (by decide) (by decide)).1
        "service" "{service}" (by decide)).1 0 (by decide) (by decide)).1,
   by decide, by decide⟩

/-- C22 (as stated) fails: the template `{zone}.{service}.{namespace}.{zone}`
contains `{zone}` at index 0, but `GetZoneFromSegmentArray` returns the
segments from index 3 on, the last place of `{zone}`; and the template
`{foo}.{zone}` contains `{zone}` at index 1, but `SetTemplate` stops at the
unknown symbol and the empty string is returned. -/
theorem GetZone_counterexample :
    (splitDot "{zone}.{service}.{namespace}.{zone}")[0]? = some "{zone}"
    ∧ GetZoneFromSegmentArray
        (SetTemplate NameTemplate.zero "{zone}.{service}.{namespace}.{zone}").1
        ["coredns", "myservice", "mynamespace", "local"] = some "local"
    ∧ joinDot (["coredns", "myservice", "mynamespace", "local"].drop 0)
      = "coredns.myservice.mynamespace.local"
    ∧ (splitDot "{foo}.{zone}")[1]? = some "{zone}"
    ∧ GetZoneFromSegmentArray (SetTemplate NameTemplate.zero "{foo}.{zone}").1
        ["myservice", "coredns"] = some "" := by
  decide

/-- C22 (amended): for every template with no segment containing an opening
brace other than the known symbols, whose last segment equal to `{zone}` is at
index `i`, and every segment array of length at least `i`,
`GetZoneFromSegmentArray` returns the segments from index `i` to the end
joined by dots; for such a template without `{zone}` it returns the empty
string for every segment array. -/
theorem GetZone_segments (t : NameTemplate) (s : String) (hknown : knownOnly (splitDot s)) :
    (∀ (i : Nat) (segments : List String), (splitDot s)[i]? = some "{zone}" →
        "{zone}" ∉ (splitDot s).drop (i + 1) → i ≤ segments.length →
        GetZoneFromSegmentArray (SetTemplate t s).1 segments
          = some (joinDot (segments.drop i)))
    ∧ ("{zone}" ∉ splitDot s → ∀ segments : List String,
        GetZoneFromSegmentArray (SetTemplate t s).1 segments = some "") := by
  constructor
  · intro i segments hi hlast hlen
    have hget : mapGet (SetTemplate t s).1.Element "zone" = some i := by
      rw [SetTemplate_Element]
      exact (element_some_iff s hknown "zone" "{zone}" (by decide) i).2 ⟨hi, hlast⟩
    simp only [GetZoneFromSegmentArray, hget, hlen, if_true]
  · intro hno segments
    have hget : mapGet (SetTemplate t s).1.Element "zone" = none := by
      rw [SetTemplate_Element]
      exact (element_none_iff s hknown "zone" "{zone}" (by decide)).2 hno
    simp only [GetZoneFromSegmentArray, hget]

/-- The amended C22 on the query of the test with a zone of three segments. -/
theorem GetZone_segments_witness :
    GetZoneFromSegmentArray (SetTemplate NameTemplate.zero "{service}.{namespace}.{zone}").1
        (splitDot "myservice.mynamespace.coredns.cluster.local")
      = some (joinDot ((splitDot "myservice.mynamespace.coredns.cluster.local").drop 2))
    ∧ joinDot ((splitDot "myservice.mynamespace.coredns.cluster.local").drop 2)
      = "coredns.cluster.local" :=
  ⟨(GetZone_segments NameTemplate.zero "{service}.{namespace}.{zone}" (by decide)).1 2
      (splitDot "myservice.mynamespace.coredns.cluster.local") (by decide) (by decide)
      (by decide),
   by decide⟩

/-- C23, the code on a type segment: `GetTypeFromSegmentArray` returns the
empty string when the segment is one of `types` and the segment itself when it
is not; so it returns the empty string for the known type `svc` and returns
`foo` for the segment `foo`. -/
theorem GetType_inverted (t : NameTemplate) (segments : List String) :
    GetTypeFromSegmentArray t segments
      = (GetSymbolFromSegmentArray t "type" segments).map
          (fun typeSegment => if typeSegment ∈ types then "" else typeSegment)
    ∧ GetTypeFromSegmentArray
        (SetTemplate NameTemplate.zero "{service}.{namespace}.{type}.{zone}").1
        ["myservice", "mynamespace", "svc", "coredns"] = some ""
    ∧ GetTypeFromSegmentArray
        (SetTemplate NameTemplate.zero "{service}.{namespace}.{type}.{zone}").1
        ["myservice", "mynamespace", "pod", "coredns"] = some ""
    ∧ GetTypeFromSegmentArray
        (SetTemplate NameTemplate.zero "{service}.{namespace}.{type}.{zone}").1
        ["myservice", "mynamespace", "foo", "coredns"] = some "foo" := by
  refine ⟨?_, by decide, by decide, by decide⟩
  unfold GetTypeFromSegmentArray
  cases GetSymbolFromSegmentArray t "type" segments with
  | none => rfl
  | some typeSegment =>
    by_cases h : typeSegment ∈ types <;> simp [StringInSlice, h]

/-! ## Index safety -/

/-- C29: on a template set by `SetTemplate` and a segment array with at least
as many segments as the template, none of the getters indexes out of range;
on the template `{namespace}.{service}` and the one-segment array of a
shorter query, `GetServiceFromSegmentArray` does. -/
theorem getters_in_range (t : NameTemplate) (s : String) (segments : List String)
    (hlen : (splitDot s).length ≤ segments.length) :
    (∀ symbol : String,
        GetSymbolFromSegmentArray (SetTemplate t s).1 symbol segments ≠ none)
    ∧ GetServiceFromSegmentArray (SetTemplate t s).1 segments ≠ none
    ∧ GetNamespaceFromSegmentArray (SetTemplate t s).1 segments ≠ none
    ∧ GetTypeFromSegmentArray (SetTemplate t s).1 segments ≠ none
    ∧ GetZoneFromSegmentArray (SetTemplate t s).1 segments ≠ none
    ∧ GetServiceFromSegmentArray (SetTemplate NameTemplate.zero "{namespace}.{service}").1
        ["mynamespace"] = none := by
  have hsym : ∀ symbol : String,
      GetSymbolFromSegmentArray (SetTemplate t s).1 symbol segments ≠ none := by
    intro symbol
    unfold GetSymbolFromSegmentArray
    cases hget : mapGet (SetTemplate t s).1.Element symbol with
    | none => simp
    | some index =>
      have hlt : index < segments.length := by
        have := element_lt t s symbol index hget
        omega
      simp only
      rw [List.getElem?_eq_getElem hlt]
      simp
  refine ⟨hsym, hsym "service", hsym "namespace", ?_, ?_, by decide⟩
  · unfold GetTypeFromSegmentArray
    cases hg : GetSymbolFromSegmentArray (SetTemplate t s).1 "type" segments with
    | none => exact absurd hg (hsym "type")
    | some typeSegment =>
      by_cases h : StringInSlice typeSegment types = true <;> simp [h]
  · unfold GetZoneFromSegmentArray
    cases hget : mapGet (SetTemplate t s).1.Element "zone" with
    | none => simp
    | some index =>
      have hle : index ≤ segments.length := by
        have := element_lt t s "zone" index hget
        omega
      simp [hle]

/-- C29 on the template and the query of the test. -/
theorem getters_in_range_witness :
    GetZoneFromSegmentArray (SetTemplate NameTemplate.zero "{service}.{namespace}.{zone}").1
        (splitDot "myservice.mynamespace.coredns") ≠ none :=
  (getters_in_range NameTemplate.zero "{service}.{namespace}.{zone}"
      (splitDot "myservice.mynamespace.coredns") (by decide)).2.2.2.2.1

/-! ## The record name -/

theorem mapSet_keys_nodup (m : List (String × Nat)) (k : String) (v : Nat)
    (h : (m.map Prod.fst).Nodup) : ((mapSet m k v).map Prod.fst).Nodup := by
  unfold mapSet
  simp only [List.map_cons, List.nodup_cons]
  constructor
  · intro hk
    obtain ⟨e, he, hek⟩ := List.mem_map.1 hk
    have := (List.mem_filter.1 he).2
    simp at this
    exact this hek
  · exact (List.Sublist.map Prod.fst (List.filter_sublist m)).nodup h

theorem setLoop_keys_nodup (segs : List String) :
    ∀ (idx : Nat) (el : List (String × Nat)), (el.map Prod.fst).Nodup →
      ((setLoop segs idx el).1.map Prod.fst).Nodup := by
  induction segs with
  | nil => intro idx el h; simpa [setLoop] using h
  | cons v rest ih =>
    intro idx el h
    simp only [setLoop]
    cases hf : findSymbol v with
    | some e => exact ih _ _ (mapSet_keys_nodup el e.1 idx h)
    | none =>
      cases hc : containsBrace v with
      | true => simpa using h
      | false => simpa using ih _ _ h

theorem mapGet_of_mem (m : List (String × Nat)) (h : (m.map Prod.fst).Nodup)
    (name : String) (i : Nat) (hmem : (name, i) ∈ m) : mapGet m name = some i := by
  induction m with
  | nil => simp at hmem
  | cons e rest ih =>
    simp only [List.map_cons, List.nodup_cons] at h
    unfold mapGet
    by_cases he : e.1 = name
    · rw [List.find?_cons_of_pos _ (by simp [he])]
      rcases List.mem_cons.1 hmem with heq | hrest
      · rw [← heq]
        rfl
      · exfalso
        apply h.1
        rw [he]
        exact List.mem_map.2 ⟨(name, i), hrest, rfl⟩
    · rw [List.find?_cons_of_neg _ (by simp [he])]
      rcases List.mem_cons.1 hmem with heq | hrest
      · exfalso; apply he; rw [← heq]
      · exact ih h.2 hrest

theorem mem_of_mapGet (m : List (String × Nat)) (name : String) (i : Nat)
    (h : mapGet m name = some i) : (name, i) ∈ m := by
  unfold mapGet at h
  cases hf : m.find? (fun e => decide (e.1 = name)) with
  | none => rw [hf] at h; cases h
  | some e =>
    rw [hf] at h
    simp only [Option.map_some', Option.some.injEq] at h
    have hmem := List.mem_of_find?_eq_some hf
    have hname : e.1 = name := by simpa using List.find?_some hf
    have : e = (name, i) := by
      cases e
      simp only at h hname
      rw [h, hname]
    rw [← this]
    exact hmem

theorem valueOf_symbol (values : NameValues) (name sym : String) (h : (name, sym) ∈ symbols) :
    valueOf values name = some (substitute values sym) := by
  simp only [symbols, List.mem_cons, Prod.mk.injEq, List.mem_singleton, List.not_mem_nil,
    or_false] at h
  rcases h with ⟨rfl, rfl⟩ | ⟨rfl, rfl⟩ | ⟨rfl, rfl⟩ | ⟨rfl, rfl⟩ <;>
    simp [valueOf, substitute]

theorem substitute_static (values : NameValues) (v : String)
    (h : ∀ name, (name, v) ∉ symbols) : substitute values v = v := by
  have h1 : v ≠ "{service}" := fun e => h "service" (by rw [e]; decide)
  have h2 : v ≠ "{namespace}" := fun e => h "namespace" (by rw [e]; decide)
  have h3 : v ≠ "{type}" := fun e => h "type" (by rw [e]; decide)
  have h4 : v ≠ "{zone}" := fun e => h "zone" (by rw [e]; decide)
  simp [substitute, h1, h2, h3, h4]

theorem applyElement_spec (values : NameValues) (el : List (String × Nat)) :
    ∀ recordName : List String,
      el.Pairwise (fun e f => e.2 ≠ f.2) → (∀ e ∈ el, e.2 < recordName.length) →
      ∃ result, applyElement values el recordName = some result
        ∧ result.length = recordName.length
        ∧ (∀ e ∈ el, ∀ v, valueOf values e.1 = some v → result[e.2]? = some v)
        ∧ (∀ e ∈ el, valueOf values e.1 = none → result[e.2]? = recordName[e.2]?)
        ∧ (∀ j, (∀ e ∈ el, e.2 ≠ j) → result[j]? = recordName[j]?) := by
  induction el with
  | nil =>
    intro recordName _ _
    exact ⟨recordName, rfl, rfl, by simp, by simp, fun _ _ => rfl⟩
  | cons e rest ih =>
    intro recordName hpw hrange
    obtain ⟨hne, hpw'⟩ := List.pairwise_cons.1 hpw
    have he : e.2 < recordName.length := hrange e (List.mem_cons_self _ _)
    have key : ∀ recordName1 : List String,
        applyEntry values recordName e = some recordName1 →
        recordName1.length = recordName.length →
        (∀ v, valueOf values e.1 = some v → recordName1[e.2]? = some v) →
        (valueOf values e.1 = none → recordName1[e.2]? = recordName[e.2]?) →
        (∀ j, e.2 ≠ j → recordName1[j]? = recordName[j]?) →
        ∃ result, applyElement values (e :: rest) recordName = some result
          ∧ result.length = recordName.length
          ∧ (∀ f ∈ e :: rest, ∀ v, valueOf values f.1 = some v → result[f.2]? = some v)
          ∧ (∀ f ∈ e :: rest, valueOf values f.1 = none → result[f.2]? = recordName[f.2]?)
          ∧ (∀ j, (∀ f ∈ e :: rest, f.2 ≠ j) → result[j]? = recordName[j]?) := by
      intro recordName1 happ hlen hv hn hother
      obtain ⟨result, hres, hrl, h1, h2, h3⟩ := ih recordName1 hpw'
        (fun f hf => by rw [hlen]; exact hrange f (List.mem_cons_of_mem _ hf))
      have hself : result[e.2]? = recordName1[e.2]? :=
        h3 e.2 (fun f hf => fun heq => hne f hf heq.symm)
      refine ⟨result, ?_, by rw [hrl, hlen], ?_, ?_, ?_⟩
      · simp only [applyElement, happ]
        exact hres
      · intro f hf v hfv
        rcases List.mem_cons.1 hf with rfl | hf
        · rw [hself]; exact hv v hfv
        · exact h1 f hf v hfv
      · intro f hf hfn
        rcases List.mem_cons.1 hf with rfl | hf
        · rw [hself]; exact hn hfn
        · rw [h2 f hf hfn]
          exact hother f.2 (hne f hf)
      · intro j hj
        rw [h3 j (fun f hf => hj f (List.mem_cons_of_mem _ hf))]
        exact hother j (hj e (List.mem_cons_self _ _))
    cases hval : valueOf values e.1 with
    | none =>
      apply key recordName
      · simp [applyEntry, hval]
      · rfl
      · intro v hv; rw [hval] at hv; cases hv
      · intro _; rfl
      · intro j _; rfl
    | some v =>
      apply key (recordName.set e.2 v)
      · simp [applyEntry, hval, he]
      · simp
      · intro v' hv'
        rw [hval] at hv'
        simp only [Option.some.injEq] at hv'
        subst hv'
        exact List.getElem?_set_self he
      · intro hn; rw [hval] at hn; cases hn
      · intro j hj
        exact List.getElem?_set_ne hj

theorem not_later_of_once (segs : List String) (sym : String) (j : Nat)
    (honce : segs.count sym ≤ 1) (hj : segs[j]? = some sym) : sym ∉ segs.drop (j + 1) := by
  have hsplit : segs = segs.take (j + 1) ++ segs.drop (j + 1) :=
    (List.take_append_drop (j + 1) segs).symm
  have hcount : segs.count sym
      = (segs.take (j + 1)).count sym + (segs.drop (j + 1)).count sym := by
    conv_lhs => rw [hsplit]
    exact List.count_append sym _ _
  have hin : sym ∈ segs.take (j + 1) := by
    apply List.mem_iff_getElem?.2
    refine ⟨j, ?_⟩
    rw [List.getElem?_take_of_lt (by omega)]
    exact hj
  have h1 : 1 ≤ (segs.take (j + 1)).count sym := List.one_le_count_iff.2 hin
  have h0 : (segs.drop (j + 1)).count sym = 0 := by omega
  exact List.count_eq_zero.1 h0

theorem applyElement_substitute (values : NameValues) (segs : List String)
    (el : List (String × Nat))
    (h1 : el.Pairwise (fun e f => e.2 ≠ f.2))
    (h2 : ∀ e ∈ el, e.2 < segs.length)
    (h3 : ∀ e ∈ el, ∃ sym, (e.1, sym) ∈ symbols ∧ segs[e.2]? = some sym)
    (h4 : ∀ j name sym, (name, sym) ∈ symbols → segs[j]? = some sym → (name, j) ∈ el) :
    applyElement values el segs = some (segs.map (substitute values)) := by
  obtain ⟨result, hres, hlen, hv, _, hother⟩ := applyElement_spec values el segs h1 h2
  rw [hres]
  congr 1
  apply List.ext_getElem?
  intro j
  rw [List.getElem?_map]
  cases hj : segs[j]? with
  | none =>
    simp only [Option.map_none']
    rw [hother j]
    · exact hj
    · intro e he heq
      have := h2 e he
      rw [heq] at this
      rw [List.getElem?_eq_getElem this] at hj
      cases hj
  | some v =>
    simp only [Option.map_some']
    by_cases hs : ∃ name, (name, v) ∈ symbols
    · obtain ⟨name, hname⟩ := hs
      have hmem := h4 j name v hname hj
      exact hv (name, j) hmem _ (valueOf_symbol values name v hname)
    · have hs' : ∀ name, (name, v) ∉ symbols := fun name hn => hs ⟨name, hn⟩
      rw [substitute_static values v hs', hother j, hj]
      intro e he heq
      obtain ⟨sym, hsym, hget⟩ := h3 e he
      rw [heq, hj] at hget
      simp only [Option.some.injEq] at hget
      rw [← hget] at hsym
      exact hs' e.1 hsym

theorem accepted_known (t : NameTemplate) (s : String) (h : (SetTemplate t s).2 = none) :
    knownOnly (splitDot s) := by
  rw [SetTemplate_err] at h
  cases hl : (setLoop (splitDot s) 0 []).2 with
  | some e => rw [hl] at h; cases h
  | none =>
    intro v hv hb
    exact (mem_symbols_snd v).2 (setLoop_none (splitDot s) 0 [] hl v hv hb)

theorem SetTemplate_splitFormat (t : NameTemplate) (s : String) :
    (SetTemplate t s).1.splitFormat = splitDot s := by
  unfold SetTemplate
  rcases setLoop (splitDot s) 0 [] with ⟨el, _ | e⟩
  · simp only
    split <;> rfl
  · rfl

theorem element_entry (s : String) (hknown : knownOnly (splitDot s)) :
    ∀ e ∈ (setLoop (splitDot s) 0 []).1,
      ∃ sym, (e.1, sym) ∈ symbols ∧ (splitDot s)[e.2]? = some sym := by
  intro e he
  have hnodup := setLoop_keys_nodup (splitDot s) 0 [] (by simp)
  have hget : mapGet (setLoop (splitDot s) 0 []).1 e.1 = some e.2 :=
    mapGet_of_mem _ hnodup e.1 e.2 he
  obtain ⟨_, _, h3⟩ := setLoop_known (splitDot s) 0 []
    (fun v hv hb => (mem_symbols_snd v).1 (hknown v hv hb))
  have hex : ∃ sym, (e.1, sym) ∈ symbols := by
    by_contra hc
    have hno : ∀ sym, (e.1, sym) ∉ symbols := fun sym hm => hc ⟨sym, hm⟩
    rw [h3 e.1 hno] at hget
    simp [mapGet_nil] at hget
  obtain ⟨sym, hsym⟩ := hex
  exact ⟨sym, hsym, ((element_some_iff s hknown e.1 sym hsym e.2).1 hget).1⟩

theorem element_distinct (s : String) (hknown : knownOnly (splitDot s)) :
    (setLoop (splitDot s) 0 []).1.Pairwise (fun e f => e.2 ≠ f.2) := by
  have hnodup := setLoop_keys_nodup (splitDot s) 0 [] (by simp)
  have hpw : (setLoop (splitDot s) 0 []).1.Pairwise (fun e f => e.1 ≠ f.1) :=
    List.pairwise_map.1 hnodup
  refine hpw.imp_of_mem ?_
  intro e f he hf hne heq
  obtain ⟨sym1, hs1, hg1⟩ := element_entry s hknown e he
  obtain ⟨sym2, hs2, hg2⟩ := element_entry s hknown f hf
  rw [heq, hg2] at hg1
  simp only [Option.some.injEq] at hg1
  rw [← hg1] at hs1
  exact hne (symbols_name_inj e.1 f.1 sym2 hs1 hs2)

theorem record_segments (t : NameTemplate) (s : String) (values : NameValues)
    (hknown : knownOnly (splitDot s)) (honce : symbolsOnce (splitDot s))
    (el : List (String × Nat)) (hperm : el.Perm (SetTemplate t s).1.Element) :
    applyElement values el (SetTemplate t s).1.splitFormat
      = some ((splitDot s).map (substitute values)) := by
  rw [SetTemplate_splitFormat]
  rw [SetTemplate_Element] at hperm
  have hnodup := setLoop_keys_nodup (splitDot s) 0 [] (by simp)
  apply applyElement_substitute
  · exact hperm.symm.pairwise (element_distinct s hknown) (fun h => fun e => h e.symm)
  · intro e he
    have he' := hperm.mem_iff.1 he
    have hget : mapGet (setLoop (splitDot s) 0 []).1 e.1 = some e.2 :=
      mapGet_of_mem _ hnodup e.1 e.2 he'
    rw [← SetTemplate_Element t s] at hget
    exact element_lt t s e.1 e.2 hget
  · intro e he
    exact element_entry s hknown e (hperm.mem_iff.1 he)
  · intro j name sym hsym hj
    apply hperm.mem_iff.2
    apply mem_of_mapGet
    apply (element_some_iff s hknown name sym hsym j).2
    refine ⟨hj, not_later_of_once _ sym j ?_ hj⟩
    exact honce sym (List.mem_map.2 ⟨(name, sym), hsym, rfl⟩)

theorem applyLast_get (values : NameValues) (segs : List String) :
    ∀ j : Nat, (applyLast values segs)[j]?
      = (segs[j]?).map (fun v => if v ∈ segs.drop (j + 1) then v else substitute values v) := by
  induction segs with
  | nil => intro j; rfl
  | cons v rest ih =>
    intro j
    cases j with
    | zero => simp [applyLast]
    | succ j => simp [applyLast, ih]

theorem applyLast_once (values : NameValues) (segs : List String) (honce : symbolsOnce segs) :
    applyLast values segs = segs.map (substitute values) := by
  apply List.ext_getElem?
  intro j
  rw [applyLast_get, List.getElem?_map]
  cases hj : segs[j]? with
  | none => rfl
  | some v =>
    simp only [Option.map_some', Option.some.injEq]
    by_cases hlater : v ∈ segs.drop (j + 1)
    · rw [if_pos hlater]
      by_cases hs : ∃ name, (name, v) ∈ symbols
      · obtain ⟨name, hname⟩ := hs
        exact absurd hlater (not_later_of_once segs v j
          (honce v (List.mem_map.2 ⟨(name, v), hname, rfl⟩)) hj)
      · exact (substitute_static values v (fun name hn => hs ⟨name, hn⟩)).symm
    · rw [if_neg hlater]

theorem applyElement_last (values : NameValues) (segs : List String)
    (el : List (String × Nat))
    (h1 : el.Pairwise (fun e f => e.2 ≠ f.2))
    (h2 : ∀ e ∈ el, e.2 < segs.length)
    (h3 : ∀ e ∈ el, ∃ sym, (e.1, sym) ∈ symbols ∧ segs[e.2]? = some sym
        ∧ sym ∉ segs.drop (e.2 + 1))
    (h4 : ∀ j name sym, (name, sym) ∈ symbols → segs[j]? = some sym →
        sym ∉ segs.drop (j + 1) → (name, j) ∈ el) :
    applyElement values el segs = some (applyLast values segs) := by
  obtain ⟨result, hres, hlen, hv, _, hother⟩ := applyElement_spec values el segs h1 h2
  rw [hres]
  congr 1
  apply List.ext_getElem?
  intro j
  rw [applyLast_get]
  cases hj : segs[j]? with
  | none =>
    simp only [Option.map_none']
    rw [hother j]
    · exact hj
    · intro e he heq
      have := h2 e he
      rw [heq] at this
      rw [List.getElem?_eq_getElem this] at hj
      cases hj
  | some v =>
    simp only [Option.map_some']
    have hno : (v ∈ segs.drop (j + 1) ∨ ∀ name, (name, v) ∉ symbols) →
        ∀ e ∈ el, e.2 ≠ j := by
      intro hcase e he heq
      obtain ⟨sym, hsym, hget, hlast⟩ := h3 e he
      rw [heq, hj] at hget
      simp only [Option.some.injEq] at hget
      rw [heq, ← hget] at hlast
      rw [← hget] at hsym
      rcases hcase with hl | hst
      · exact hlast hl
      · exact hst e.1 hsym
    by_cases hlater : v ∈ segs.drop (j + 1)
    · rw [if_pos hlater, hother j (hno (Or.inl hlater)), hj]
    · rw [if_neg hlater]
      by_cases hs : ∃ name, (name, v) ∈ symbols
      · obtain ⟨name, hname⟩ := hs
        have hmem := h4 j name v hname hj hlater
        exact hv (name, j) hmem _ (valueOf_symbol values name v hname)
      · have hs' : ∀ name, (name, v) ∉ symbols := fun name hn => hs ⟨name, hn⟩
        rw [substitute_static values v hs', hother j (hno (Or.inr hs')), hj]

theorem element_entry_last (s : String) (hknown : knownOnly (splitDot s)) :
    ∀ e ∈ (setLoop (splitDot s) 0 []).1,
      ∃ sym, (e.1, sym) ∈ symbols ∧ (splitDot s)[e.2]? = some sym
        ∧ sym ∉ (splitDot s).drop (e.2 + 1) := by
  intro e he
  have hnodup := setLoop_keys_nodup (splitDot s) 0 [] (by simp)
  have hget : mapGet (setLoop (splitDot s) 0 []).1 e.1 = some e.2 :=
    mapGet_of_mem _ hnodup e.1 e.2 he
  obtain ⟨sym, hsym, _⟩ := element_entry s hknown e he
  exact ⟨sym, hsym, (element_some_iff s hknown e.1 sym hsym e.2).1 hget⟩

theorem record_segments_last (t : NameTemplate) (s : String) (values : NameValues)
    (hknown : knownOnly (splitDot s))
    (el : List (String × Nat)) (hperm : el.Perm (SetTemplate t s).1.Element) :
    applyElement values el (SetTemplate t s).1.splitFormat
      = some (applyLast values (splitDot s)) := by
  rw [SetTemplate_splitFormat]
  rw [SetTemplate_Element] at hperm
  have hnodup := setLoop_keys_nodup (splitDot s) 0 [] (by simp)
  apply applyElement_last
  · exact hperm.symm.pairwise (element_distinct s hknown) (fun h => fun e => h e.symm)
  · intro e he
    have he' := hperm.mem_iff.1 he
    have hget : mapGet (setLoop (splitDot s) 0 []).1 e.1 = some e.2 :=
      mapGet_of_mem _ hnodup e.1 e.2 he'
    rw [← SetTemplate_Element t s] at hget
    exact element_lt t s e.1 e.2 hget
  · intro e he
    exact element_entry_last s hknown e (hperm.mem_iff.1 he)
  · intro j name sym hsym hj hlast
    apply hperm.mem_iff.2
    apply mem_of_mapGet
    exact (element_some_iff s hknown name sym hsym j).2 ⟨hj, hlast⟩

/-- C24 (as stated) fails: the template `{service}.{namespace}.{service}` is
accepted by `SetTemplate`, but `Element` holds one index for `service`, the
last one, so only the last `{service}` is replaced and the first is kept as
it is written. -/
theorem record_name_counterexample :
    (SetTemplate NameTemplate.zero "{service}.{namespace}.{service}").2 = none
    ∧ GetRecordNameFromNameValues
        (SetTemplate NameTemplate.zero "{service}.{namespace}.{service}").1
        { ServiceName := "myservice", Namespace := "mynamespace", TypeName := "svc",
          Zone := "coredns" }
      = some "{service}.mynamespace.myservice"
    ∧ joinDot ((splitDot "{service}.{namespace}.{service}").map
        (substitute { ServiceName := "myservice", Namespace := "mynamespace",
                      TypeName := "svc", Zone := "coredns" }))
      = "myservice.mynamespace.myservice" := by
  decide

/-- C24 (amended): for every template accepted by `SetTemplate` and every
`NameValues`, `GetRecordNameFromNameValues` returns the segments of the
template joined by dots, where a segment that is `{service}`, `{namespace}`,
`{type}` or `{zone}` and does not occur again further on in the template is
replaced by `ServiceName`, `Namespace`, `TypeName` or `Zone`, and every other
segment, static or an earlier occurrence of a repeated symbol, is kept; the
order in which the map `Element` is walked does not matter. When each symbol
is at most one segment, every symbol is replaced. -/
theorem record_name (t : NameTemplate) (s : String) (values : NameValues)
    (hacc : (SetTemplate t s).2 = none) :
    GetRecordNameFromNameValues (SetTemplate t s).1 values
      = some (joinDot (applyLast values (splitDot s)))
    ∧ (∀ el : List (String × Nat), el.Perm (SetTemplate t s).1.Element →
        (applyElement values el (SetTemplate t s).1.splitFormat).map joinDot
          = some (joinDot (applyLast values (splitDot s))))
    ∧ (∀ j : Nat, (applyLast values (splitDot s))[j]?
        = ((splitDot s)[j]?).map (fun v =>
            if v ∈ (splitDot s).drop (j + 1) then v else substitute values v))
    ∧ (symbolsOnce (splitDot s) →
        GetRecordNameFromNameValues (SetTemplate t s).1 values
          = some (joinDot ((splitDot s).map (substitute values)))) := by
  have hknown := accepted_known t s hacc
  have hmain : GetRecordNameFromNameValues (SetTemplate t s).1 values
      = some (joinDot (applyLast values (splitDot s))) := by
    unfold GetRecordNameFromNameValues
    rw [record_segments_last t s values hknown _ (List.Perm.refl _)]
    rfl
  refine ⟨hmain, ?_, applyLast_get values (splitDot s), ?_⟩
  · intro el hperm
    rw [record_segments_last t s values hknown el hperm]
    rfl
  · intro honce
    rw [hmain, applyLast_once values (splitDot s) honce]

/-- The amended C24 on the template `{service}.{namespace}.{service}`: the
first `{service}` is kept, the last is replaced. -/
theorem record_name_witness :
    GetRecordNameFromNameValues
        (SetTemplate NameTemplate.zero "{service}.{namespace}.{service}").1
        { ServiceName := "myservice", Namespace := "mynamespace", TypeName := "svc",
          Zone := "coredns.cluster.local" }
      = some (joinDot (applyLast
          { ServiceName := "myservice", Namespace := "mynamespace", TypeName := "svc",
            Zone := "coredns.cluster.local" }
          (splitDot "{service}.{namespace}.{service}")))
    ∧ joinDot (applyLast
          { ServiceName := "myservice", Namespace := "mynamespace", TypeName := "svc",
            Zone := "coredns.cluster.local" }
          (splitDot "{service}.{namespace}.{service}"))
      = "{service}.mynamespace.myservice"
    ∧ joinDot (applyLast
          { ServiceName := "myservice", Namespace := "mynamespace", TypeName := "svc",
            Zone := "coredns.cluster.local" }
          (splitDot "{service}.{namespace}.{type}.{zone}"))
      = "myservice.mynamespace.svc.coredns.cluster.local" :=
  ⟨(record_name NameTemplate.zero "{service}.{namespace}.{service}"
      { ServiceName := "myservice", Namespace := "mynamespace", TypeName := "svc",
        Zone := "coredns.cluster.local" } (by decide)).1,
   by decide, by decide⟩

theorem splitDotAux_ne_nil (xs : List Char) : ∀ cur, splitDotAux xs cur ≠ [] := by
  induction xs with
  | nil => intro cur; simp [splitDotAux]
  | cons c cs ih =>
    intro cur
    unfold splitDotAux
    split
    · simp
    · exact ih _

theorem joinDot_cons (x : String) (l : List String) (h : l ≠ []) :
    joinDot (x :: l) = x ++ "." ++ joinDot l := by
  cases l with
  | nil => exact absurd rfl h
  | cons y rest => rfl

theorem splitDotAux_append (xs ys : List Char) :
    ∀ cur, splitDotAux (xs ++ '.' :: ys) cur = splitDotAux xs cur ++ splitDotAux ys [] := by
  induction xs with
  | nil => intro cur; simp [splitDotAux]
  | cons c cs ih =>
    intro cur
    by_cases hc : c = '.'
    · simp [splitDotAux, hc, ih]
    · simp [splitDotAux, hc, ih]

theorem splitDotAux_dotFree (xs : List Char) (h : '.' ∉ xs) :
    ∀ cur, splitDotAux xs cur = [String.mk (cur.reverse ++ xs)] := by
  induction xs with
  | nil => intro cur; simp [splitDotAux]
  | cons c cs ih =>
    intro cur
    have hc : c ≠ '.' := fun e => h (by simp [e])
    have hcs : '.' ∉ cs := fun e => h (by simp [e])
    simp [splitDotAux, hc, ih hcs]

theorem splitDot_dotFree (v : String) (h : dotFree v) : splitDot v = [v] := by
  unfold splitDot
  rw [splitDotAux_dotFree v.data h]
  simp

theorem splitDotAux_segments (xs : List Char) :
    ∀ cur, '.' ∉ cur → ∀ v ∈ splitDotAux xs cur, dotFree v := by
  induction xs with
  | nil =>
    intro cur hcur v hv
    simp [splitDotAux] at hv
    subst hv
    simpa [dotFree] using hcur
  | cons c cs ih =>
    intro cur hcur v hv
    by_cases hc : c = '.'
    · simp only [splitDotAux, hc, if_true, List.mem_cons] at hv
      rcases hv with hv | hv
      · subst hv
        simpa [dotFree] using hcur
      · exact ih [] (by simp) v hv
    · simp only [splitDotAux, hc, if_false] at hv
      refine ih (c :: cur) ?_ v hv
      intro hm
      rcases List.mem_cons.1 hm with e | e
      · exact hc e.symm
      · exact hcur e

theorem splitDot_segments (s : String) : ∀ v ∈ splitDot s, dotFree v :=
  splitDotAux_segments s.data [] (by simp)

theorem joinDot_splitDotAux (xs : List Char) :
    ∀ cur, joinDot (splitDotAux xs cur) = String.mk (cur.reverse ++ xs) := by
  induction xs with
  | nil => intro cur; simp [splitDotAux, joinDot]
  | cons c cs ih =>
    intro cur
    by_cases hc : c = '.'
    · simp only [splitDotAux, hc, if_true]
      rw [joinDot_cons _ _ (splitDotAux_ne_nil cs []), ih]
      apply String.ext
      simp
    · simp only [splitDotAux, hc, if_false]
      rw [ih]
      simp

theorem joinDot_splitDot (s : String) : joinDot (splitDot s) = s := by
  unfold splitDot
  rw [joinDot_splitDotAux]
  simp

theorem splitDot_joinDot (pre : List String) (z : String) (h : ∀ v ∈ pre, dotFree v) :
    splitDot (joinDot (pre ++ [z])) = pre ++ splitDot z := by
  induction pre with
  | nil => rfl
  | cons x pre ih =>
    have hx : dotFree x := h x (by simp)
    have hp : ∀ v ∈ pre, dotFree v := fun v hv => h v (by simp [hv])
    rw [List.cons_append, joinDot_cons _ _ (by simp)]
    unfold splitDot
    have hd : (x ++ "." ++ joinDot (pre ++ [z])).data
        = x.data ++ '.' :: (joinDot (pre ++ [z])).data := by
      simp [String.data_append]
    rw [hd, splitDotAux_append, splitDotAux_dotFree x.data hx]
    have := ih hp
    unfold splitDot at this
    rw [this]
    simp
theorem splitDot_joinDot_all (l : List String) (hne : l ≠ []) (h : ∀ v ∈ l, dotFree v) :
    splitDot (joinDot l) = l := by
  obtain ⟨a, ha⟩ : ∃ a, l.getLast? = some a := by
    cases hl : l.getLast? with
    | none => exact absurd (List.getLast?_eq_none_iff.1 hl) hne
    | some a => exact ⟨a, rfl⟩
  obtain ⟨pre, hpre⟩ := List.getLast?_eq_some_iff.1 ha
  subst hpre
  rw [splitDot_joinDot pre a (fun v hv => h v (by simp [hv])),
    splitDot_dotFree a (h a (by simp))]

theorem substitute_dotFree (values : NameValues) (v : String)
    (hs : dotFree values.ServiceName) (hn : dotFree values.Namespace)
    (ht : dotFree values.TypeName) (hv : dotFree v)
    (hz : v = "\x7bzone\x7d" → dotFree values.Zone) : dotFree (substitute values v) := by
  unfold substitute
  split_ifs with h1 h2 h3 h4
  · exact hs
  · exact hn
  · exact ht
  · exact hz h4
  · exact hv

theorem substitute_zone (values : NameValues) :
    substitute values "\x7bzone\x7d" = values.Zone := by
  unfold substitute
  rw [if_neg (by decide), if_neg (by decide), if_neg (by decide), if_pos rfl]

theorem accepted_required (t : NameTemplate) (s : String) (h : (SetTemplate t s).2 = none) :
    mapGet (SetTemplate t s).1.Element "namespace" ≠ none
      ∧ mapGet (SetTemplate t s).1.Element "service" ≠ none := by
  rw [SetTemplate_err] at h
  cases hl : (setLoop (splitDot s) 0 []).2 with
  | some e => rw [hl] at h; cases h
  | none =>
    rw [hl] at h
    simp only at h
    apply (IsValid_iff _).1
    cases hv : IsValid (SetTemplate t s).1 with
    | true => rfl
    | false => rw [hv] at h; simp at h

/-- The record name of a template whose last segment is the zone symbol splits
into the other segments, substituted, followed by the labels of the zone. -/
theorem split_record_last (s : String) (values : NameValues) (pre : List String)
    (honce : symbolsOnce (splitDot s))
    (hs : dotFree values.ServiceName) (hn : dotFree values.Namespace)
    (ht : dotFree values.TypeName) (hpre : splitDot s = pre ++ ["\x7bzone\x7d"]) :
    splitDot (joinDot ((splitDot s).map (substitute values)))
      = pre.map (substitute values) ++ splitDot values.Zone := by
  have hcount := honce "\x7bzone\x7d" (by decide)
  rw [hpre] at hcount
  have hnot : "\x7bzone\x7d" ∉ pre := by
    intro hm
    have := List.count_pos_iff.2 hm
    simp at hcount
    omega
  have hfree : ∀ v ∈ pre, dotFree v := fun v hv =>
    splitDot_segments s v (by rw [hpre]; simp [hv])
  rw [hpre, List.map_append, List.map_singleton, substitute_zone]
  apply splitDot_joinDot
  intro v hv
  obtain ⟨u, hu, rfl⟩ := List.mem_map.1 hv
  exact substitute_dotFree values u hs hn ht (hfree u hu)
    (fun e => absurd (e ▸ hu) hnot)

/-- Splitting the record name gives back, at the index of every segment of the
template other than the zone symbol, that segment substituted. -/
theorem split_record_get (s : String) (values : NameValues)
    (honce : symbolsOnce (splitDot s))
    (hs : dotFree values.ServiceName) (hn : dotFree values.Namespace)
    (ht : dotFree values.TypeName)
    (hz : dotFree values.Zone ∨ (splitDot s).getLast? = some "\x7bzone\x7d")
    (i : Nat) (sym : String) (hne : sym ≠ "\x7bzone\x7d") (hi : (splitDot s)[i]? = some sym) :
    (splitDot (joinDot ((splitDot s).map (substitute values))))[i]?
      = some (substitute values sym) := by
  rcases hz with hz | hz
  · rw [splitDot_joinDot_all]
    · rw [List.getElem?_map, hi]; rfl
    · intro h
      exact splitDotAux_ne_nil s.data [] (List.map_eq_nil_iff.1 h)
    · intro v hv
      obtain ⟨u, hu, rfl⟩ := List.mem_map.1 hv
      exact substitute_dotFree values u hs hn ht (splitDot_segments s u hu) (fun _ => hz)
  · obtain ⟨pre, hpre⟩ := List.getLast?_eq_some_iff.1 hz
    rw [split_record_last s values pre honce hs hn ht hpre]
    rw [hpre] at hi
    have hlt : i < pre.length := by
      by_contra hge
      have hge : pre.length ≤ i := Nat.le_of_not_lt hge
      rw [List.getElem?_append_right hge] at hi
      cases hk : i - pre.length with
      | zero => rw [hk] at hi; simp at hi; exact hne hi.symm
      | succ k => rw [hk] at hi; simp at hi
    rw [List.getElem?_append_left hlt] at hi
    rw [List.getElem?_append_left (by simpa using hlt), List.getElem?_map, hi]
    rfl

/-- C28 (as stated) fails: in the template `{zone}.{service}.{namespace}` each
symbol occurs once and no value has a dot, but `GetZoneFromSegmentArray`
returns every label from the index of `{zone}` to the end, not the zone. -/
theorem round_trip_counterexample :
    (SetTemplate NameTemplate.zero "{zone}.{service}.{namespace}").2 = none
    ∧ symbolsOnce (splitDot "{zone}.{service}.{namespace}")
    ∧ GetRecordNameFromNameValues
        (SetTemplate NameTemplate.zero "{zone}.{service}.{namespace}").1
        { ServiceName := "myservice", Namespace := "mynamespace", TypeName := "svc",
          Zone := "coredns" }
      = some "coredns.myservice.mynamespace"
    ∧ GetZoneFromSegmentArray
        (SetTemplate NameTemplate.zero "{zone}.{service}.{namespace}").1
        (splitDot "coredns.myservice.mynamespace")
      = some "coredns.myservice.mynamespace" := by
  decide

/-- The zone symbol, when it is the last segment and occurs once, is none of
the segments before. -/
theorem zone_last_index (s : String) (pre : List String) (honce : symbolsOnce (splitDot s))
    (hpre : splitDot s = pre ++ ["\x7bzone\x7d"]) (i : Nat)
    (hi : (splitDot s)[i]? = some "\x7bzone\x7d") : i = pre.length := by
  have hcount := honce "\x7bzone\x7d" (by decide)
  rw [hpre] at hcount hi
  have hnot : "\x7bzone\x7d" ∉ pre := by
    intro hm
    have := List.count_pos_iff.2 hm
    simp at hcount
    omega
  by_contra hne
  rcases Nat.lt_or_gt_of_ne hne with hlt | hgt
  · rw [List.getElem?_append_left hlt] at hi
    exact hnot (List.getElem?_mem hi)
  · rw [List.getElem?_append_right (Nat.le_of_lt hgt)] at hi
    cases hk : i - pre.length with
    | zero => omega
    | succ k => rw [hk] at hi; simp at hi

/-- C28 (amended): for every template accepted by `SetTemplate` in which each
symbol occurs at most once, and every `NameValues` none of whose `ServiceName`,
`Namespace` and `TypeName` contains a dot and whose `Zone` contains a dot only
if `{zone}` is the last segment, `GetRecordNameFromNameValues` returns a name,
and splitting it on dots and applying `GetServiceFromSegmentArray` and
`GetNamespaceFromSegmentArray` yields `ServiceName` and `Namespace` back;
`GetZoneFromSegmentArray` yields `Zone` back when `{zone}` is the last segment
of the template, and in every template with `{zone}` it yields `Zone` followed
by the segments of the template after `{zone}`, with the values applied,
joined by dots. -/
theorem round_trip (t : NameTemplate) (s : String) (values : NameValues)
    (hacc : (SetTemplate t s).2 = none) (honce : symbolsOnce (splitDot s))
    (hs : dotFree values.ServiceName) (hn : dotFree values.Namespace)
    (ht : dotFree values.TypeName)
    (hz : dotFree values.Zone ∨ (splitDot s).getLast? = some "\x7bzone\x7d") :
    ∃ name, GetRecordNameFromNameValues (SetTemplate t s).1 values = some name
      ∧ GetServiceFromSegmentArray (SetTemplate t s).1 (splitDot name)
          = some values.ServiceName
      ∧ GetNamespaceFromSegmentArray (SetTemplate t s).1 (splitDot name)
          = some values.Namespace
      ∧ ((splitDot s).getLast? = some "\x7bzone\x7d" →
          GetZoneFromSegmentArray (SetTemplate t s).1 (splitDot name) = some values.Zone)
      ∧ (∀ i : Nat, (splitDot s)[i]? = some "\x7bzone\x7d" →
          (splitDot s).drop i = "\x7bzone\x7d" :: (splitDot s).drop (i + 1)
          ∧ GetZoneFromSegmentArray (SetTemplate t s).1 (splitDot name)
              = some (joinDot (values.Zone ::
                  ((splitDot s).drop (i + 1)).map (substitute values)))) := by
  have hknown := accepted_known t s hacc
  obtain ⟨hreqn, hreqs⟩ := accepted_required t s hacc
  have hlastZone : (splitDot s).getLast? = some "\x7bzone\x7d" →
      GetZoneFromSegmentArray (SetTemplate t s).1
        (splitDot (joinDot ((splitDot s).map (substitute values)))) = some values.Zone := by
    intro hlast
    obtain ⟨pre, hpre⟩ := List.getLast?_eq_some_iff.1 hlast
    have hg : mapGet (SetTemplate t s).1.Element "zone" = some pre.length := by
      rw [SetTemplate_Element]
      apply (element_some_iff s hknown "zone" "\x7bzone\x7d" (by decide) pre.length).2
      rw [hpre]
      constructor
      · simp
      · simp
    unfold GetZoneFromSegmentArray
    rw [hg, split_record_last s values pre honce hs hn ht hpre]
    simp only
    rw [if_pos (by simp)]
    rw [List.drop_left' (by simp), joinDot_splitDot]
  refine ⟨joinDot ((splitDot s).map (substitute values)), ?_, ?_, ?_, hlastZone, ?_⟩
  · unfold GetRecordNameFromNameValues
    rw [record_segments t s values hknown honce _ (List.Perm.refl _)]
    rfl
  · unfold GetServiceFromSegmentArray GetSymbolFromSegmentArray
    cases hg : mapGet (SetTemplate t s).1.Element "service" with
    | none => exact absurd hg hreqs
    | some i =>
      simp only
      rw [SetTemplate_Element] at hg
      have hi := ((element_some_iff s hknown "service" "\x7bservice\x7d" (by decide) i).1 hg).1
      rw [split_record_get s values honce hs hn ht hz i _ (by decide) hi]
      rfl
  · unfold GetNamespaceFromSegmentArray GetSymbolFromSegmentArray
    cases hg : mapGet (SetTemplate t s).1.Element "namespace" with
    | none => exact absurd hg hreqn
    | some i =>
      simp only
      rw [SetTemplate_Element] at hg
      have hi :=
        ((element_some_iff s hknown "namespace" "\x7bnamespace\x7d" (by decide) i).1 hg).1
      rw [split_record_get s values honce hs hn ht hz i _ (by decide) hi]
      rfl
  · intro i hi
    have hlt : i < (splitDot s).length := by
      by_contra hge
      rw [List.getElem?_eq_none (Nat.le_of_not_lt hge)] at hi
      cases hi
    have hdrop : (splitDot s).drop i = "\x7bzone\x7d" :: (splitDot s).drop (i + 1) := by
      rw [List.drop_eq_getElem_cons hlt]
      congr 1
      rw [List.getElem?_eq_getElem hlt] at hi
      exact Option.some.inj hi
    refine ⟨hdrop, ?_⟩
    rcases hz with hzf | hzl
    · have hg : mapGet (SetTemplate t s).1.Element "zone" = some i := by
        rw [SetTemplate_Element]
        apply (element_some_iff s hknown "zone" "\x7bzone\x7d" (by decide) i).2
        exact ⟨hi, not_later_of_once _ _ i (honce "\x7bzone\x7d" (by decide)) hi⟩
      have hsplit : splitDot (joinDot ((splitDot s).map (substitute values)))
          = (splitDot s).map (substitute values) := by
        apply splitDot_joinDot_all
        · intro h
          exact splitDotAux_ne_nil s.data [] (List.map_eq_nil_iff.1 h)
        · intro v hv
          obtain ⟨u, hu, rfl⟩ := List.mem_map.1 hv
          exact substitute_dotFree values u hs hn ht (splitDot_segments s u hu) (fun _ => hzf)
      unfold GetZoneFromSegmentArray
      rw [hg, hsplit]
      simp only
      rw [if_pos (by simp only [List.length_map]; exact Nat.le_of_lt hlt)]
      rw [← List.map_drop, hdrop, List.map_cons, substitute_zone]
    · obtain ⟨pre, hpre⟩ := List.getLast?_eq_some_iff.1 hzl
      have hidx := zone_last_index s pre honce hpre i hi
      have hnil : (splitDot s).drop (i + 1) = [] := by
        rw [hpre, hidx]
        simp
      rw [hlastZone hzl, hnil]
      rfl

/-- The amended C28 on the template `{service}.{namespace}.{type}.{zone}` with
a zone of three labels. -/
theorem round_trip_witness :
    ∃ name, GetRecordNameFromNameValues
        (SetTemplate NameTemplate.zero "{service}.{namespace}.{type}.{zone}").1
        { ServiceName := "myservice", Namespace := "mynamespace", TypeName := "svc",
          Zone := "coredns.cluster.local" } = some name
      ∧ GetServiceFromSegmentArray
          (SetTemplate NameTemplate.zero "{service}.{namespace}.{type}.{zone}").1
          (splitDot name) = some "myservice"
      ∧ GetNamespaceFromSegmentArray
          (SetTemplate NameTemplate.zero "{service}.{namespace}.{type}.{zone}").1
          (splitDot name) = some "mynamespace"
      ∧ ((splitDot "{service}.{namespace}.{type}.{zone}").getLast? = some "\x7bzone\x7d" →
          GetZoneFromSegmentArray
            (SetTemplate NameTemplate.zero "{service}.{namespace}.{type}.{zone}").1
            (splitDot name) = some "coredns.cluster.local") :=
  match round_trip NameTemplate.zero "{service}.{namespace}.{type}.{zone}"
    { ServiceName := "myservice", Namespace := "mynamespace", TypeName := "svc",
      Zone := "coredns.cluster.local" }
    (by decide) (by decide) (by decide) (by decide) (by decide) (Or.inr (by decide)) with
  | ⟨name, h1, h2, h3, h4, _⟩ => ⟨name, h1, h2, h3, h4⟩

end Nametemplate

namespace ProxyLookup

/-! ## Only the first upstream -/

/-- C31: `lookup` consults only the first upstream: on every proxy the returned
pair, the exchanges made, the goroutines started and the hosts of the first
upstream are those of the call on the proxy holding only the first upstream,
and the later upstreams are left as they were; so it is for the proxy whose
first upstream has only an unhealthy host and whose second has hosts that are
up: no exchange is made and `errUnreachable` is returned. -/
theorem lookup_first_upstream (w : World) (proto : String) (fuel : Nat) (p : Proxy)
    (timers : List Timer) :
    (lookup w proto fuel p timers).map Outcome.first = lookup w proto fuel (firstOnly p) timers
    ∧ (∀ o, lookup w proto fuel p timers = some o →
        o.Upstreams.drop 1 = p.Upstreams.drop 1
        ∧ o.Upstreams.length = p.Upstreams.length)
    ∧ firstUp downUpstream downUpstream.Hosts = none
    ∧ firstUp sampleUpstream sampleUpstream.Hosts = some 0
    ∧ lookup (truncatingWorld downUpstream) "udp" 5
        { Upstreams := [downUpstream, sampleUpstream] } []
      = some { reply := none, err := some Error.errUnreachable,
               Upstreams := [downUpstream, sampleUpstream], timers := [], trace := [] }
    ∧ lookup (truncatingWorld downUpstream) "udp" 5 { Upstreams := [downUpstream] } []
      = some { reply := none, err := some Error.errUnreachable,
               Upstreams := [downUpstream], timers := [], trace := [] } := by
  refine ⟨?_, ?_, by decide, by decide, by decide, by decide⟩
  · cases p with
    | mk ups =>
      cases ups with
      | nil => rfl
      | cons upstream rest =>
        simp only [lookup, firstOnly, List.take_succ_cons, List.take_zero]
        cases tryLoop w proto (w.now 0) fuel 1 { hosts := upstream.Hosts, timers := timers } [] with
        | none => rfl
        | some run => rfl
  · intro o ho
    cases p with
    | mk ups =>
      cases ups with
      | nil =>
        simp only [lookup, Option.some.injEq] at ho
        subst ho
        exact ⟨rfl, rfl⟩
      | cons upstream rest =>
        simp only [lookup] at ho
        cases hrun : tryLoop w proto (w.now 0) fuel 1
            { hosts := upstream.Hosts, timers := timers } [] with
        | none => rw [hrun] at ho; cases ho
        | some run =>
          rw [hrun] at ho
          simp only [Option.some.injEq] at ho
          subst ho
          exact ⟨rfl, rfl⟩

/-! ## The connection counter -/

theorem updateHost_map (g f : UpstreamHost → UpstreamHost) (hf : ∀ h, g (f h) = g h)
    (hosts : List UpstreamHost) : ∀ i : Nat, (updateHost f hosts i).map g = hosts.map g := by
  induction hosts with
  | nil => intro i; rfl
  | cons h rest ih =>
    intro i
    cases i with
    | zero => simp [updateHost, hf]
    | succ i => simp [updateHost, ih]

theorem updateHost_id (f : UpstreamHost → UpstreamHost) (hosts : List UpstreamHost)
    (hf : ∀ h ∈ hosts, f h = h) : ∀ i : Nat, updateHost f hosts i = hosts := by
  induction hosts with
  | nil => intro i; rfl
  | cons h rest ih =>
    intro i
    cases i with
    | zero => simp [updateHost, hf h (by simp)]
    | succ i => simp [updateHost, ih (fun x hx => hf x (by simp [hx]))]

theorem updateHost_comp (f g : UpstreamHost → UpstreamHost) (hosts : List UpstreamHost) :
    ∀ i : Nat, updateHost f (updateHost g hosts i) i = updateHost (fun h => f (g h)) hosts i := by
  induction hosts with
  | nil => intro i; rfl
  | cons h rest ih =>
    intro i
    cases i with
    | zero => simp [updateHost]
    | succ i => simp [updateHost, ih]

theorem wrapInt64_round (c : Int) (h : inInt64 c) : wrapInt64 (wrapInt64 (c + 1) + -1) = c := by
  unfold inInt64 at h
  unfold wrapInt64
  omega

/-- The two calls of `atomic.AddInt64` around an exchange leave the hosts as
they were. -/
theorem addConns_round (hosts : List UpstreamHost) (i : Nat)
    (hr : ∀ h ∈ hosts, inInt64 h.Conns) : addConns (-1) (addConns 1 hosts i) i = hosts := by
  unfold addConns
  rw [updateHost_comp]
  apply updateHost_id
  intro h hh
  simp only [wrapInt64_round h.Conns (hr h hh)]

theorem addFails_frame (d : Int) (hosts : List UpstreamHost) (i : Nat) :
    (addFails d hosts i).map withoutFails = hosts.map withoutFails :=
  updateHost_map withoutFails (fun h => { h with Fails := wrapInt32 (h.Fails + d) })
    (fun _ => rfl) hosts i

theorem fire_frame (p : Pool) (j : Nat) :
    (fire p j).hosts.map withoutFails = p.hosts.map withoutFails := by
  unfold fire
  cases p.timers[j]? with
  | none => rfl
  | some t => exact addFails_frame (-1) p.hosts t.host

theorem fireAll_frame (js : List Nat) :
    ∀ p : Pool, (fireAll p js).hosts.map withoutFails = p.hosts.map withoutFails := by
  induction js with
  | nil => intro p; rfl
  | cons j js ih =>
    intro p
    have h := ih (fire p j)
    rw [fire_frame] at h
    exact h

theorem withoutFails_fields (h h' : UpstreamHost) (e : withoutFails h' = withoutFails h) :
    h'.Conns = h.Conns ∧ h'.Name = h.Name ∧ h'.FailTimeout = h.FailTimeout
      ∧ h'.Unhealthy = h.Unhealthy := by
  have h1 := congrArg (fun x : UpstreamHost => x.Conns) e
  have h2 := congrArg (fun x : UpstreamHost => x.Name) e
  have h3 := congrArg (fun x : UpstreamHost => x.FailTimeout) e
  have h4 := congrArg (fun x : UpstreamHost => x.Unhealthy) e
  exact ⟨h1, h2, h3, h4⟩

theorem range_of_frame (hosts hosts' : List UpstreamHost)
    (hf : hosts'.map withoutFails = hosts.map withoutFails)
    (hr : ∀ h ∈ hosts, inInt64 h.Conns) : ∀ h ∈ hosts', inInt64 h.Conns := by
  intro h' hh'
  have hm : withoutFails h' ∈ hosts.map withoutFails := by
    rw [← hf]; exact List.mem_map.2 ⟨h', hh', rfl⟩
  obtain ⟨h, hh, heq⟩ := List.mem_map.1 hm
  have hc : h.Conns = h'.Conns := (withoutFails_fields h' h heq).1
  rw [← hc]
  exact hr h hh

theorem step_frame (w : World) (proto : String) (start : Int) (k : Nat) (p : Pool)
    (hr : ∀ h ∈ p.hosts, inInt64 h.Conns) :
    (∀ pool made, step w proto start k p = Step.next pool made →
        pool.hosts.map withoutFails = p.hosts.map withoutFails)
    ∧ (∀ reply err pool made, step w proto start k p = Step.ret reply err pool made →
        pool.hosts.map withoutFails = p.hosts.map withoutFails) := by
  have hr' := range_of_frame p.hosts (fireAll p (w.wake k)).hosts (fireAll_frame _ p) hr
  constructor
  · intro pool made h
    obtain ⟨_, _, _, _, _, host, _, _, _, hhosts⟩ := step_next_effect w proto start k p pool made h
    rw [hhosts, addConns_round _ _ hr', addFails_frame, fireAll_frame]
  · intro reply err pool made h
    obtain ⟨_, hcase⟩ := step_ret_effect w proto start k p pool reply err made h
    rcases hcase with ⟨_, _, _, hpool, _⟩ | ⟨_, _, a, host, _, _, _, _, _, _, _, _, hhosts⟩
    · rw [hpool, fireAll_frame]
    · rw [hhosts, addConns_round _ _ hr', fireAll_frame]

theorem tryLoop_frame (w : World) (proto : String) (start : Int) :
    ∀ (fuel k : Nat) (p : Pool) (trace : List Attempt) (run : Run),
      (∀ h ∈ p.hosts, inInt64 h.Conns) →
      tryLoop w proto start fuel k p trace = some run →
        run.pool.hosts.map withoutFails = p.hosts.map withoutFails := by
  intro fuel
  induction fuel with
  | zero => intro k p trace run _ h; simp [tryLoop] at h
  | succ fuel ih =>
    intro k p trace run hr h
    simp only [tryLoop] at h
    obtain ⟨hnext, hret⟩ := step_frame w proto start k p hr
    cases hs : step w proto start k p with
    | ret reply err pool made =>
      rw [hs] at h
      simp only [Option.some.injEq] at h
      subst h
      exact hret reply err pool made hs
    | next pool made =>
      rw [hs] at h
      have hf := hnext pool made hs
      have := ih (k + 1) pool (trace ++ [made]) run (range_of_frame p.hosts pool.hosts hf hr) h
      rw [this, hf]

/-- C32: `lookup` leaves the connection counters balanced. In every iteration
that makes an exchange, the hosts after it are those before it with 1 added to
the `Conns` of the selected host, then 1 taken off again, whether the exchange
succeeds or fails, and on failure 1 added to its `Fails`; the two writes of
`Conns` cancel. So when `lookup` returns, the first upstream has as many hosts
as before, every host has the `Conns`, `Name`, `FailTimeout` and `Unhealthy` it
had before the call, and the other upstreams are as they were. -/
theorem lookup_conns_balanced (w : World) (proto : String) (fuel : Nat)
    (upstream : staticUpstream) (rest : List staticUpstream) (timers : List Timer)
    (out : Outcome)
    (hrange : ∀ h ∈ upstream.Hosts, inInt64 h.Conns)
    (hout : lookup w proto fuel { Upstreams := upstream :: rest } timers = some out) :
    (∀ (k : Nat) (p pool : Pool) (made : Attempt),
        step w proto (w.now 0) k p = Step.next pool made →
        pool.hosts = addFails 1
          (addConns (-1) (addConns 1 (fireAll p (w.wake k)).hosts made.host) made.host)
          made.host)
    ∧ (∀ (k : Nat) (p pool : Pool) (reply : Option Msg) (err : Option Error) (a : Attempt),
        step w proto (w.now 0) k p = Step.ret reply err pool (some a) →
        pool.hosts = addConns (-1) (addConns 1 (fireAll p (w.wake k)).hosts a.host) a.host)
    ∧ (∀ (hosts : List UpstreamHost) (i : Nat) (h : UpstreamHost), hosts[i]? = some h →
        inInt64 h.Conns →
        (addConns 1 hosts i)[i]? = some { h with Conns := wrapInt64 (h.Conns + 1) }
        ∧ (addConns (-1) (addConns 1 hosts i) i)[i]? = some h)
    ∧ ∃ hosts, out.Upstreams = { upstream with Hosts := hosts } :: rest
        ∧ hosts.length = upstream.Hosts.length
        ∧ ∀ (i : Nat) (h : UpstreamHost), upstream.Hosts[i]? = some h →
            ∃ h', hosts[i]? = some h' ∧ h'.Conns = h.Conns ∧ h'.Name = h.Name
              ∧ h'.FailTimeout = h.FailTimeout ∧ h'.Unhealthy = h.Unhealthy := by
  refine ⟨?_, ?_, ?_, ?_⟩
  · intro k p pool made h
    obtain ⟨_, _, _, _, _, host, _, _, _, hhosts⟩ :=
      step_next_effect w proto (w.now 0) k p pool made h
    exact hhosts
  · intro k p pool reply err a h
    obtain ⟨_, hcase⟩ := step_ret_effect w proto (w.now 0) k p pool reply err (some a) h
    rcases hcase with ⟨_, _, hnone, _⟩ | ⟨_, _, a', host, ha, _, _, _, _, _, _, _, hhosts⟩
    · cases hnone
    · simp only [Option.some.injEq] at ha
      subst ha
      exact hhosts
  · intro hosts i h hget hc
    constructor
    · unfold addConns
      rw [updateHost_get, if_pos rfl, hget]
      rfl
    · unfold addConns
      rw [updateHost_comp, updateHost_get, if_pos rfl, hget]
      simp only [Option.map_some', wrapInt64_round h.Conns hc]
  · simp only [lookup] at hout
    cases hrun : tryLoop w proto (w.now 0) fuel 1
        { hosts := upstream.Hosts, timers := timers } [] with
    | none => rw [hrun] at hout; cases hout
    | some run =>
      rw [hrun] at hout
      simp only [Option.some.injEq] at hout
      subst hout
      have hf := tryLoop_frame w proto (w.now 0) fuel 1
        { hosts := upstream.Hosts, timers := timers } [] run hrange hrun
      simp only at hf
      refine ⟨run.pool.hosts, rfl, ?_, ?_⟩
      · have := congrArg List.length hf
        simpa using this
      · intro i h hget
        have hi : (run.pool.hosts.map withoutFails)[i]? = some (withoutFails h) := by
          rw [hf, List.getElem?_map, hget]; rfl
        rw [List.getElem?_map] at hi
        cases hg : run.pool.hosts[i]? with
        | none => rw [hg] at hi; cases hi
        | some h' =>
          rw [hg] at hi
          simp only [Option.map_some', Option.some.injEq] at hi
          exact ⟨h', rfl, withoutFails_fields h h' hi⟩

/-- C32 on an upstream whose first host has the largest number of connections
the counter holds: the first exchange fails, the second succeeds, both with the
first host, and the call leaves the connection counters as they were. -/
theorem lookup_conns_balanced_witness :
    ∃ out hosts,
      lookup (flakyWorld busyUpstream) "udp" 5 { Upstreams := [busyUpstream, downUpstream] } []
        = some out
      ∧ out.trace.map (fun a => (a.host, a.err.isSome)) = [(0, true), (0, false)]
      ∧ out.Upstreams = [{ busyUpstream with Hosts := hosts }, downUpstream]
      ∧ hosts.length = 2
      ∧ ∃ h', hosts[0]? = some h' ∧ h'.Conns = 9223372036854775807 := by
  have hsome : ∃ out,
      lookup (flakyWorld busyUpstream) "udp" 5 { Upstreams := [busyUpstream, downUpstream] } []
        = some out
      ∧ out.trace.map (fun a => (a.host, a.err.isSome)) = [(0, true), (0, false)] := by
    decide
  obtain ⟨out, hout, htrace⟩ := hsome
  obtain ⟨hosts, hups, hlen, hframe⟩ :=
    (lookup_conns_balanced (flakyWorld busyUpstream) "udp" 5 busyUpstream [downUpstream] [] out
      (by decide) hout).2.2.2
  obtain ⟨h', hget, hconns, _⟩ := hframe 0
    { Name := "10.0.0.53:53", Conns := 9223372036854775807, Fails := 0,
      FailTimeout := 10 * second, Unhealthy := false } rfl
  exact ⟨out, hosts, hout, htrace, hups, hlen, h', hget, hconns⟩

end ProxyLookup

namespace Kubernetes

/-! ## The key of the default name server -/

theorem labels_joined (zone : String) :
    labels (Join [defaultNSName, zone] ".") = "ns" :: "dns" :: labels zone := by
  have hd : (Join [defaultNSName, zone] ".").data
      = 'n' :: 's' :: '.' :: 'd' :: 'n' :: 's' :: '.' :: '.' :: zone.data := by
    simp [Join, String.data_append, defaultNSName]
  unfold labels Nametemplate.splitDot
  rw [hd]
  simp [Nametemplate.splitDotAux]

theorem labels_plain (zone : String) :
    labels (defaultNSName ++ zone) = "ns" :: "dns" :: labels zone := by
  have hd : (defaultNSName ++ zone).data
      = 'n' :: 's' :: '.' :: 'd' :: 'n' :: 's' :: '.' :: zone.data := by
    simp [String.data_append, defaultNSName]
  unfold labels Nametemplate.splitDot
  rw [hd]
  simp [Nametemplate.splitDotAux]

theorem startsWith_nil_right (sub : List Char) : startsWith sub [] = true ↔ sub = [] := by
  cases sub with
  | nil => simp [startsWith]
  | cons a sub => simp [startsWith]

/-- The value of `strings.Index` is the first position at which the substring
starts. -/
theorem indexFrom_eq_iff (sub : List Char) :
    ∀ (l : List Char) (i j : Nat), j ≤ l.length →
      (indexFrom sub l i = (i : Int) + (j : Int) ↔
        (startsWith sub (l.drop j) = true ∧ ∀ k, k < j → startsWith sub (l.drop k) = false)) := by
  intro l
  induction l with
  | nil =>
    intro i j hj
    have hj0 : j = 0 := by simpa using hj
    subst hj0
    unfold indexFrom
    simp only [List.drop_nil, Nat.cast_zero, add_zero, startsWith_nil_right]
    constructor
    · intro h
      refine ⟨?_, fun k hk => absurd hk (Nat.not_lt_zero k)⟩
      by_contra hne
      rw [if_neg hne] at h
      omega
    · rintro ⟨h, _⟩
      rw [if_pos h]
  | cons c cs ih =>
    intro i j hj
    unfold indexFrom
    by_cases h0 : startsWith sub (c :: cs) = true
    · rw [if_pos h0]
      cases j with
      | zero =>
        simp only [Nat.cast_zero, add_zero, List.drop_zero, true_iff]
        exact ⟨h0, fun k hk => absurd hk (Nat.not_lt_zero k)⟩
      | succ j =>
        constructor
        · intro h
          push_cast at h
          omega
        · rintro ⟨_, hall⟩
          have := hall 0 (Nat.succ_pos j)
          rw [List.drop_zero, h0] at this
          cases this
    · rw [if_neg h0]
      have h0f : startsWith sub (c :: cs) = false := by
        cases hb : startsWith sub (c :: cs) with
        | true => exact absurd hb h0
        | false => rfl
      cases j with
      | zero =>
        constructor
        · intro h
          rcases indexFrom_ge sub cs (i + 1) with g | g
          · rw [g] at h
            omega
          · rw [h] at g
            push_cast at g
            omega
        · rintro ⟨h, _⟩
          rw [List.drop_zero] at h
          exact absurd h h0
      | succ j =>
        have hj' : j ≤ cs.length := by simpa using hj
        have hih := ih (i + 1) j hj'
        have hcast : ((i : Int) + ((j + 1 : Nat) : Int)) = (((i + 1 : Nat) : Int) + (j : Int)) := by
          push_cast
          omega
        rw [hcast, hih]
        simp only [List.drop_succ_cons]
        constructor
        · rintro ⟨h1, h2⟩
          refine ⟨h1, ?_⟩
          intro k hk
          cases k with
          | zero => exact h0f
          | succ k => exact h2 k (by omega)
        · rintro ⟨h1, h2⟩
          refine ⟨h1, ?_⟩
          intro k hk
          have := h2 (k + 1) (by omega)
          simpa using this

/-- The name `ns.dns.` followed by the zone is accepted by `isDefaultNS` for the
zone when the zone does not occur in it earlier. -/
theorem isDefaultNS_plain (zone : String) (h : occursBefore zone = false) :
    isDefaultNS (defaultNSName ++ zone) { zone := zone } = true := by
  have hd : (defaultNSName ++ zone).data
      = 'n' :: 's' :: '.' :: 'd' :: 'n' :: 's' :: '.' :: zone.data := by
    simp [String.data_append, defaultNSName]
  have hlen : defaultNSName.length = 7 := by decide
  have hfirst : Index (defaultNSName ++ zone) defaultNSName = 0 := by
    unfold Index
    rw [hd]
    have hname : defaultNSName.data = ['n', 's', '.', 'd', 'n', 's', '.'] := by decide
    rw [hname]
    unfold indexFrom
    have hsw : startsWith ['n', 's', '.', 'd', 'n', 's', '.']
        ('n' :: 's' :: '.' :: 'd' :: 'n' :: 's' :: '.' :: zone.data) = true :=
      startsWith_self_append ['n', 's', '.', 'd', 'n', 's', '.'] zone.data
    rw [if_pos hsw]
    rfl
  have hsecond : Index (defaultNSName ++ zone) zone = 7 := by
    unfold Index
    have key := (indexFrom_eq_iff zone.data (defaultNSName ++ zone).data 0 7
      (by rw [hd]; simp)).2
    have h7 : ((0 : Nat) : Int) + ((7 : Nat) : Int) = 7 := by norm_num
    rw [h7] at key
    apply key
    constructor
    · rw [hd]
      simpa using startsWith_self_append zone.data []
    · intro k hk
      unfold occursBefore at h
      rw [hlen] at h
      rw [List.any_eq_false] at h
      have := h k (List.mem_range.2 hk)
      simpa using this
  unfold isDefaultNS
  rw [hfirst, hsecond, hlen]
  decide

/-- C26: `defaultNSMsg` returns a service for the A record of `ns.dns.[zone]`.
Its key is the path `msg.Path` makes, with the prefix `coredns`, of the name
`ns.dns.` immediately followed by the zone: the name `strings.Join` hands over
has one more dot before the zone, an empty label that `path.Join` leaves out.
For every zone that does not occur in that name before the place the name
puts it at, `isDefaultNS` accepts the name for the zone, as for the zone
`example.org.`. The host is the textual form of the address of the CoreDNS
record. -/
theorem defaultNSMsg_name (clean : String → String) (ns : dnsA) (r : recordRequest) :
    (defaultNSMsg (Path clean) ns r).Key = Path clean (defaultNSName ++ r.zone) "coredns"
    ∧ labels (Join [defaultNSName, r.zone] ".") = "ns" :: "dns" :: labels r.zone
    ∧ labels (defaultNSName ++ r.zone) = "ns" :: "dns" :: labels r.zone
    ∧ (defaultNSMsg (Path clean) ns r).Host = ns.A
    ∧ (occursBefore r.zone = false → isDefaultNS (defaultNSName ++ r.zone) r = true)
    ∧ occursBefore "example.org." = false
    ∧ (defaultNSMsg (Path (fun s => s)) { HdrName := "ns.dns.", A := "10.0.0.10" }
        { zone := "example.org." }).Key
      = Join ["/coredns/", "org", "example", "dns", "ns"] "/" := by
  refine ⟨?_, labels_joined r.zone, labels_plain r.zone, rfl,
    fun h => isDefaultNS_plain r.zone h, by decide, by decide⟩
  show Path clean (Join [defaultNSName, r.zone] ".") "coredns"
    = Path clean (defaultNSName ++ r.zone) "coredns"
  unfold Path
  rw [labels_joined, labels_plain]

end Kubernetes
